import Mathlib

/-!
# nlib: universal hash table

A shallow embedding of the open-addressing hash table of `nlib.h`
(`Hash_Universal`, `Hash_Table`, `ht_Create`, `htInsert`, `htLookup`,
`htRemove`, `ht_GetFilledSlot`, `htForEach`) together with the scalar helpers
it calls (`bitFindMSBU64`, `mLog2U64`, `mIsPowerOf2U64`, `mNextPowerOf2U64`,
`randomU64`, `hashUniversalConstantsUpdate`, `hashUniversal`).

Conventions.
* `U64`/`Size` values are natural numbers; every C operation that can wrap is
  written with an explicit `% U64_MOD`, the narrowing cast to `Uint` with
  `% UINT_MOD`.
* A C array (`U64 *keys`) is a function from slot index to word; only indices
  below `slot_count` are ever read or written.  A freshly allocated and
  `memset` array is the constant-zero function.  The allocator itself is not
  modelled.
* A shift whose amount is 64 or more is undefined in C; the two places where
  the code can reach one (`mNextPowerOf2U64`, the doubling in `htInsert`)
  return `none`.
* The `do ... while` loop of `hashUniversalConstantsUpdate` has the 64-bit
  word `r` as its whole state, so a run that has not stopped after `2^64`
  rounds never stops; the loop is given that many rounds and `none` is the
  diverging run.
-/

namespace NLib

/-- Number of values of a 64-bit word (`U64`, `Size`). -/
def U64_MOD : Nat := 2 ^ 64

/-- Number of values of a 32-bit word (`Uint`). -/
def UINT_MOD : Nat := 2 ^ 32

/-- Loop of `__builtin_clzll`: index of the most significant set bit of `x`,
found by halving at most `fuel` times. -/
def msbLoop : Nat → Nat → Nat
  | 0, _ => 0
  | fuel + 1, x => if 2 ≤ x then msbLoop fuel (x / 2) + 1 else 0

/-- Source `bitFindMSBU64` (GCC/Clang branch): `(U64)-1` for zero, otherwise
`64 - clz(x) - 1`. -/
def bitFindMSBU64 (x : Nat) : Nat :=
  if x = 0 then U64_MOD - 1 else msbLoop 64 x

/-- Source `mLog2U64`: `x ? bitFindMSBU64(x) : 0`. -/
def mLog2U64 (x : Nat) : Nat :=
  if x ≠ 0 then bitFindMSBU64 x else 0

/-- Source `mIsPowerOf2U64`: `(x & (x - 1)) == 0`, the subtraction wrapping. -/
def mIsPowerOf2U64 (x : Nat) : Bool :=
  (x &&& ((x + U64_MOD - 1) % U64_MOD)) == 0

/-- Source `mNextPowerOf2U64`: `x` itself when `mIsPowerOf2U64`, otherwise
`1 << (mLog2U64(x) + 1)`; the shift is undefined when the amount reaches 64. -/
def mNextPowerOf2U64 (x : Nat) : Option Nat :=
  if mIsPowerOf2U64 x then some x
  else if mLog2U64 x + 1 < 64 then some (2 ^ (mLog2U64 x + 1)) else none

/-- Source macro `mMax`: the larger of two values. -/
def mMax (x y : Nat) : Nat := if x > y then x else y

/-- Source `randomU64` (the 128-bit product version): a linear congruential step
whose high bits are folded back into the low ones. -/
def randomU64 (seed : Nat) : Nat :=
  let previous := if seed = 0 then 2531011 else seed
  let a := 214013
  let product := (previous * a) % 2 ^ 128
  let upper := product / 2 ^ 64
  let lower := product % 2 ^ 64
  let log_upper := if upper ≠ 0 then mLog2U64 upper else 0
  let shift_amount := 64 - (log_upper + 1)
  let upper := ((upper <<< shift_amount) % U64_MOD) ||| (lower >>> log_upper)
  (upper * a) % U64_MOD

/-- Source struct `Hash_Universal`: the constants `a`, `b`, `m` and the last random number `r`. -/
structure Hash_Universal where
  a : Nat
  b : Nat
  m : Nat
  r : Nat
deriving DecidableEq, Repr

/-- The `do ... while` loop of `hashUniversalConstantsUpdate`: draw `r`, copy
it to `a`, repeat while `a` is zero or even.  Returns the final `r` (which is
also `a`), or `none` when the rounds are used up. -/
def oddDrawLoop : Nat → Nat → Option Nat
  | 0, _ => none
  | fuel + 1, r =>
    let r1 := randomU64 r
    if r1 = 0 ∨ (r1 > 0 ∧ r1 &&& 1 ≠ 1) then oddDrawLoop fuel r1 else some r1

/-- Source `hashUniversalConstantsUpdate`: `a` is the first odd draw, `b` the next
draw masked to `64 - m` bits. -/
def hashUniversalConstantsUpdate (h : Hash_Universal) : Option Hash_Universal :=
  match oddDrawLoop U64_MOD h.r with
  | none => none
  | some a =>
    let r := randomU64 a
    some { a := a, b := r &&& ((U64_MOD - 1) >>> h.m), m := h.m, r := r }

/-- Source `hashUniversal`: `((a * key) + b) >> (64 - m)` in 64-bit arithmetic. -/
def hashUniversal (h : Hash_Universal) (key : Nat) : Nat :=
  ((((h.a * key) % U64_MOD) + h.b) % U64_MOD) >>> (64 - h.m)

/-- Source struct `Hash_Table` without its allocator: two parallel slot arrays and the
bookkeeping words. -/
structure Hash_Table where
  univ : Hash_Universal
  keys : Nat → Nat
  values : Nat → Nat
  slot_count : Nat
  slot_filled : Nat
  collision_count : Nat

/-- A store `a[i] = v` into a C array. -/
def arraySet (a : Nat → Nat) (i v : Nat) : Nat → Nat :=
  fun j => if j = i then v else a j

/-- A freshly allocated array after `memset(.., 0, ..)`. -/
def zeroArray : Nat → Nat := fun _ => 0

/-- Source `ht_Create`: at least 64 slots, rounded up to a power of two,
constants drawn from the zero-initialised generator state, both arrays
zeroed. -/
def ht_Create (slots_atleast : Nat) : Option Hash_Table :=
  (mNextPowerOf2U64 (mMax slots_atleast 64)).bind fun slot_count =>
  (hashUniversalConstantsUpdate
      { a := 0, b := 0, m := mLog2U64 slot_count, r := 0 }).bind fun univ =>
  some { univ := univ, keys := zeroArray, values := zeroArray,
         slot_count := slot_count, slot_filled := 0, collision_count := 0 }

/-- Slot probed at step `i` of a linear probe: `(hash + i) % slot_count`. -/
def probeIndex (ht : Hash_Table) (hash i : Nat) : Nat :=
  ((hash + i) % U64_MOD) % ht.slot_count

/-- The loop of `ht_LinearProbeSearch` from step `i` with `fuel` steps left;
`index` is the slot of the previous step.  Returns `(found, index)`. -/
def searchLoop (ht : Hash_Table) (key hash : Nat) : Nat → Nat → Nat → Bool × Nat
  | 0, _, index => (false, index)
  | fuel + 1, i, _ =>
    let index := probeIndex ht hash i
    if ht.keys index = key then (true, index)
    else searchLoop ht key hash fuel (i + 1) index

/-- Source `ht_LinearProbeSearch`: probes all `slot_count` slots from `hash`
until one holds `key`.  Returns `(found, *value_index)`. -/
def ht_LinearProbeSearch (ht : Hash_Table) (key hash : Nat) : Bool × Nat :=
  searchLoop ht key hash ht.slot_count 0 0

/-- The loop of `ht_LinearProbeInsertion` from step `i` with `fuel` steps
left.  Returns the result value and the table. -/
def insertionLoop (hash key value : Nat) : Nat → Nat → Hash_Table → Nat × Hash_Table
  | 0, _, ht => (value, ht)
  | fuel + 1, i, ht =>
    let index := probeIndex ht hash i
    if ht.keys index = key ∨ ht.values index = 0 then
      (ht.values index,
        { ht with keys := arraySet ht.keys index key,
                  values := arraySet ht.values index value })
    else
      insertionLoop hash key value fuel (i + 1)
        { ht with collision_count := (ht.collision_count + 1) % U64_MOD }

/-- Source `ht_LinearProbeInsertion`: stores the pair in the first probed slot
that holds `key` or has value zero, counting every other probed slot as a
collision; returns the value that slot held (or `value` when no slot is
usable). -/
def ht_LinearProbeInsertion (ht : Hash_Table) (hash key value : Nat) : Nat × Hash_Table :=
  insertionLoop hash key value ht.slot_count 0 ht

/-- Source `htRemove`: find the first probed slot that holds `key`; if its value
is not zero, zero its key and value, count one filled slot less and return
the value, otherwise return 0. -/
def htRemove (ht : Hash_Table) (key : Nat) : Nat × Hash_Table :=
  if key = 0 then (0, ht)
  else
    let hash := hashUniversal ht.univ key
    let s := ht_LinearProbeSearch ht key hash
    let location := s.2
    let result_value := if s.1 then ht.values location else 0
    if result_value ≠ 0 then
      (result_value,
        { ht with values := arraySet ht.values location 0,
                  keys := arraySet ht.keys location 0,
                  slot_filled := (ht.slot_filled + U64_MOD - 1) % U64_MOD })
    else (result_value, ht)

/-- Source `htLookup`: the value of the first probed slot that holds `key`, zero
when no slot does. -/
def htLookup (ht : Hash_Table) (key : Nat) : Nat :=
  if key = 0 then 0
  else
    let hash := hashUniversal ht.univ key
    let s := ht_LinearProbeSearch ht key hash
    if s.1 then ht.values s.2 else 0

/-- The resize test of `htInsert`:
`collision_count > (Uint) slot_count || 2 * slot_filled >= slot_count`. -/
def ht_ResizeNeeded (ht : Hash_Table) : Bool :=
  decide (ht.collision_count > ht.slot_count % UINT_MOD) ||
    decide ((2 * ht.slot_filled) % U64_MOD ≥ ht.slot_count)

/-- The growth test inside the resize branch: `2 * slot_filled >= slot_count`. -/
def ht_GrowNeeded (ht : Hash_Table) : Bool :=
  decide ((2 * ht.slot_filled) % U64_MOD ≥ ht.slot_count)

/-- The re-placing loop of `htInsert`: for old slots `i, i+1, ...` (`fuel` of
them) with a non-zero value, insert the old pair into `ht`. -/
def rehashLoop (keys values : Nat → Nat) : Nat → Nat → Hash_Table → Hash_Table
  | 0, _, ht => ht
  | fuel + 1, i, ht =>
    let key_i := keys i
    let value_i := values i
    if value_i ≠ 0 then
      rehashLoop keys values fuel (i + 1)
        (ht_LinearProbeInsertion ht (hashUniversal ht.univ key_i) key_i value_i).2
    else rehashLoop keys values fuel (i + 1) ht

/-- The resize branch of `htInsert`: double the table (with new constants) if
the load factor asks for it, allocate zeroed arrays, re-place the old pairs,
reset the collision counter. -/
def ht_Resize (ht : Hash_Table) : Option Hash_Table :=
  let slot_count_prev := ht.slot_count
  let keys := ht.keys
  let values := ht.values
  let grown : Option Hash_Table :=
    if ht_GrowNeeded ht then
      let m := (ht.univ.m + 1) % U64_MOD
      if m < 64 then
        match hashUniversalConstantsUpdate { ht.univ with m := m } with
        | none => none
        | some univ => some { ht with univ := univ, slot_count := 2 ^ m }
      else none
    else some ht
  match grown with
  | none => none
  | some ht1 =>
    let ht2 := { ht1 with keys := zeroArray, values := zeroArray }
    let ht3 := rehashLoop keys values slot_count_prev 0 ht2
    some { ht3 with collision_count := 0 }

/-- Source `htInsert`: key zero is a no-op, value zero is `htRemove`; otherwise
resize if the test asks for it, then store the pair by linear probing and
count a newly filled slot. -/
def htInsert (ht : Hash_Table) (key value : Nat) : Option (Nat × Hash_Table) :=
  if key = 0 then some (0, ht)
  else if value = 0 then some (htRemove ht key)
  else
    let resized : Option Hash_Table := if ht_ResizeNeeded ht then ht_Resize ht else some ht
    match resized with
    | none => none
    | some ht =>
      let hash := hashUniversal ht.univ key
      let p := ht_LinearProbeInsertion ht hash key value
      if p.1 = 0 then
        some (p.1, { p.2 with slot_filled := (p.2.slot_filled + 1) % U64_MOD })
      else some p

/-- The scan of `ht_GetFilledSlot` from slot `i` with `fuel` slots left:
the first slot whose key is not zero. -/
def filledSlotLoop (ht : Hash_Table) : Nat → Nat → Option Nat
  | 0, _ => none
  | fuel + 1, i => if ht.keys i ≠ 0 then some i else filledSlotLoop ht fuel (i + 1)

/-- Source `ht_GetFilledSlot`: scan forward from slot 0 (no last index) or from
the slot after `*last_index_ptr`.  Returns `(index, *key_out, *value_out)`, all
zero when no filled slot is left. -/
def ht_GetFilledSlot (ht : Hash_Table) (last_index_ptr : Option Nat) : Nat × Nat × Nat :=
  let last_index := match last_index_ptr with
    | none => 0
    | some last => (last + 1) % U64_MOD
  match filledSlotLoop ht (ht.slot_count - last_index) last_index with
  | some index => (index, ht.keys index, ht.values index)
  | none => (0, 0, 0)

/-- The `for` loop of `ht_ForEachWithStmt` once the cursor holds
`(ht_i, key, val)`: the body runs while `key != 0`, then the cursor moves to
the next filled slot.  Returns the pairs seen by the body, `none` when `fuel`
rounds were not enough. -/
def forEachLoop (ht : Hash_Table) : Nat → Nat × Nat × Nat → Option (List (Nat × Nat))
  | 0, _ => none
  | fuel + 1, cur =>
    if cur.2.1 ≠ 0 then
      (forEachLoop ht fuel (ht_GetFilledSlot ht (some cur.1))).map (fun rest => (cur.2.1, cur.2.2) :: rest)
    else some []

/-- Source macro `htForEach`: the traversal started with no last index; the pairs handed
to the loop body, in order. -/
def htForEach (ht : Hash_Table) : Option (List (Nat × Nat)) :=
  forEachLoop ht (ht.slot_count + 1) (ht_GetFilledSlot ht none)

/-- Tables that a program can hold: created by `ht_Create`, then changed by
`htInsert` and `htRemove` calls that returned, all arguments being 64-bit
words. -/
inductive Reachable : Hash_Table → Prop
  | create (slots_atleast : Nat) (ht : Hash_Table) :
      slots_atleast < U64_MOD → ht_Create slots_atleast = some ht → Reachable ht
  | insert (ht : Hash_Table) (key value result : Nat) (ht1 : Hash_Table) :
      Reachable ht → key < U64_MOD → value < U64_MOD →
      htInsert ht key value = some (result, ht1) → Reachable ht1
  | remove (ht : Hash_Table) (key : Nat) :
      Reachable ht → key < U64_MOD → Reachable (htRemove ht key).2

/-- A run of `htInsert` calls, one per pair of the list, in order. -/
def insertAll : Hash_Table → List (Nat × Nat) → Option Hash_Table
  | ht, [] => some ht
  | ht, kv :: rest =>
    match htInsert ht kv.1 kv.2 with
    | none => none
    | some p => insertAll p.2 rest

/-- The value of the last pair of the list whose key is `k`, zero when there
is none. -/
def lastInserted (ops : List (Nat × Nat)) (k : Nat) : Nat :=
  match ops.reverse.find? (fun kv => kv.1 = k) with
  | some kv => kv.2
  | none => 0

/-- The table returned by `ht_Create(0)`, that is by the `htCreate()` macro. -/
def freshTable : Hash_Table :=
  { univ := { a := 115924262728944859, b := 81386236524435693, m := 6,
              r := 4116611502648400109 },
    keys := zeroArray, values := zeroArray,
    slot_count := 64, slot_filled := 0, collision_count := 0 }

/-- Number of indices below `n` at which `f` is not zero. -/
def nonzeroCount (f : Nat → Nat) : Nat → Nat
  | 0 => 0
  | n + 1 => nonzeroCount f n + (if f n ≠ 0 then 1 else 0)

/-- Slot probed at step `t` of the probe sequence of `key`. -/
def probeOf (ht : Hash_Table) (key t : Nat) : Nat :=
  probeIndex ht (hashUniversal ht.univ key) t

/-- Size bookkeeping that every reachable table satisfies. -/
structure SizeInv (ht : Hash_Table) : Prop where
  m_lo : 6 ≤ ht.univ.m
  m_hi : ht.univ.m < 64
  count_eq : ht.slot_count = 2 ^ ht.univ.m
  filled_le : nonzeroCount ht.values ht.slot_count ≤ ht.slot_filled
  load : 2 * ht.slot_filled ≤ ht.slot_count

/-- Probe-chain shape of a table that has only seen insertions: a slot is
empty in both arrays or in neither, and every stored key sits at the first
slot of its own probe sequence that is empty or holds that key. -/
def Canonical (ht : Hash_Table) : Prop :=
  ∀ j, j < ht.slot_count →
    (ht.keys j = 0 ↔ ht.values j = 0) ∧
    (ht.keys j ≠ 0 → ∃ t, t < ht.slot_count ∧ probeOf ht (ht.keys j) t = j ∧
      ∀ u, u < t → ht.values (probeOf ht (ht.keys j) u) ≠ 0 ∧
        ht.keys (probeOf ht (ht.keys j) u) ≠ ht.keys j)

/-- State of the re-placing loop of `htInsert` just before old slot `i`, the
old arrays being `keys0`, `values0` of length `sc0`: the new table `g` is
canonical, holds exactly the old pairs of the slots below `i`, and keeps room
for the remaining ones. -/
structure RehashInv (keys0 values0 : Nat → Nat) (sc0 i : Nat) (g : Hash_Table) : Prop where
  pos : 0 < g.slot_count
  dvd : g.slot_count ∣ U64_MOD
  canon : Canonical g
  from_old : ∀ j, j < g.slot_count → g.keys j ≠ 0 →
    ∃ j0, j0 < i ∧ j0 < sc0 ∧ keys0 j0 = g.keys j ∧ values0 j0 = g.values j
  to_new : ∀ j0, j0 < i → j0 < sc0 → keys0 j0 ≠ 0 →
    ∃ j, j < g.slot_count ∧ g.keys j = keys0 j0 ∧ g.values j = values0 j0
  count_le : nonzeroCount g.values g.slot_count ≤ nonzeroCount values0 i
  room : nonzeroCount values0 sc0 < g.slot_count

/-- The fresh table after `htInsert(ht, 2, 10)`: key 2 hashes to slot 1. -/
def tableA1 : Hash_Table :=
  { freshTable with keys := arraySet zeroArray 1 2, values := arraySet zeroArray 1 10,
                    slot_filled := 1 }

/-- Then after `htInsert(ht, 3, 20)`: key 3 hashes to slot 1 too and lands in
slot 2 after one collision. -/
def tableA2 : Hash_Table :=
  { tableA1 with keys := arraySet tableA1.keys 2 3, values := arraySet tableA1.values 2 20,
                 slot_filled := 2, collision_count := 1 }

/-- Then after `htRemove(ht, 2)`: slot 1 is zeroed, key 3 stays in slot 2. -/
def tableA3 : Hash_Table :=
  { tableA2 with values := arraySet tableA2.values 1 0, keys := arraySet tableA2.keys 1 0,
                 slot_filled := 1 }

/-- Then after `htInsert(ht, 3, 30)`: the pair goes to the empty slot 1, the
old pair `(3, 20)` is still in slot 2. -/
def tableA4 : Hash_Table :=
  { tableA3 with keys := arraySet tableA3.keys 1 3, values := arraySet tableA3.values 1 30,
                 slot_filled := 2 }

/-- The table returned by `ht_Create(2^32)`. -/
def bigTable0 : Hash_Table :=
  { univ := { a := 115924262728944859, b := 3584366829, m := 32, r := 4116611502648400109 },
    keys := zeroArray, values := zeroArray,
    slot_count := 4294967296, slot_filled := 0, collision_count := 0 }

/-- Then after `htInsert(ht, 1, 10)`: key 1 hashes to slot 26990721. -/
def bigTable1 : Hash_Table :=
  { bigTable0 with keys := arraySet zeroArray 26990721 1,
                   values := arraySet zeroArray 26990721 10, slot_filled := 1 }

/-- Then after `htInsert(ht, 501333272911171412, 20)`: same hash, one
collision, slot 26990722. -/
def bigTable2 : Hash_Table :=
  { bigTable1 with keys := arraySet bigTable1.keys 26990722 501333272911171412,
                   values := arraySet bigTable1.values 26990722 20,
                   slot_filled := 2, collision_count := 1 }

/-- The first sixteen inserts of the unit test "Hash Table (forcing
allocations)": `htInsert(ht, i, 200 + i)` for `i = 1 .. 16`. -/
def ops16 : List (Nat × Nat) :=
  [(1, 201), (2, 202), (3, 203), (4, 204), (5, 205), (6, 206), (7, 207), (8, 208),
   (9, 209), (10, 210), (11, 211), (12, 212), (13, 213), (14, 214), (15, 215), (16, 216)]

/-- Source struct `Ra_Header` together with the element storage `buf[]` that
follows it in the same block.  A cell of `buf` is `none` while it holds no
determinate element: it was never written, or it lies outside the block.
The allocator and the `userdata` pointer are not part of this record. -/
structure Ra_Header (α : Type) where
  cap : Nat
  len : Nat
  buf : Nat → Option α

/-- A store `sb[i] = x` into the element storage. -/
def bufSet {α : Type} (buf : Nat → Option α) (i : Nat) (x : Option α) : Nat → Option α :=
  fun j => if j = i then x else buf j

/-- Source `ra_Create`: a block for `min_cap` elements (16 when `min_cap` is
0) with a zeroed header; the element storage is left as allocated. -/
def ra_Create (α : Type) (min_cap : Nat) : Ra_Header α :=
  { cap := if min_cap ≠ 0 then min_cap else 16, len := 0, buf := fun _ => none }

/-- Source `ra_GrowToSize`: `memRealloc` to `mMax(elem_count, 16)` elements.
The header and the elements that fit both the old and the new block are
kept, every other cell is indeterminate. -/
def ra_GrowToSize {α : Type} (b : Ra_Header α) (elem_count : Nat) : Ra_Header α :=
  let new_cap := mMax elem_count 16
  { cap := new_cap, len := b.len,
    buf := fun i => if i < b.cap ∧ i < new_cap then b.buf i else none }

/-- Source `ra_Grow`: grow to `mMax(2 * cap, 16)` elements, the product
wrapping. -/
def ra_Grow {α : Type} (b : Ra_Header α) : Ra_Header α :=
  ra_GrowToSize b (mMax ((2 * b.cap) % U64_MOD) 16)

/-- Source macro `ra_IsFull`: `(len + 1) > cap`. -/
def ra_IsFull {α : Type} (b : Ra_Header α) : Bool :=
  decide ((b.len + 1) % U64_MOD > b.cap)

/-- Source macro `ra_CheckAndGrow`. -/
def ra_CheckAndGrow {α : Type} (b : Ra_Header α) : Ra_Header α :=
  if ra_IsFull b then ra_Grow b else b

/-- Source macro `raAdd`: grow if full, store the element at `sb[len]`, then
`len++`; the value of the macro is the length before the increment.  A store
outside the block is undefined and gives `none`. -/
def raAdd {α : Type} (b : Ra_Header α) (elem : α) : Option (Nat × Ra_Header α) :=
  let sb := ra_CheckAndGrow b
  if sb.len < sb.cap then
    some (sb.len,
      { sb with buf := bufSet sb.buf sb.len (some elem), len := (sb.len + 1) % U64_MOD })
  else none

/-- Source macro `raRemoveUnsorted`: `sb[i] = sb[len - 1]`, then `len--`.  An
access outside the block is undefined and gives `none`. -/
def raRemoveUnsorted {α : Type} (b : Ra_Header α) (i : Nat) : Option (Ra_Header α) :=
  let last := (b.len + U64_MOD - 1) % U64_MOD
  if i < b.cap ∧ last < b.cap then
    some { b with buf := bufSet b.buf i (b.buf last), len := last }
  else none

/-- Source macro `raClear`: `memset` the first `len` elements to zero bytes
(`zero` is the element whose bytes are all zero), then `len = 0`.  A `memset`
running past the block is undefined and gives `none`. -/
def raClear {α : Type} (zero : α) (b : Ra_Header α) : Option (Ra_Header α) :=
  if b.len ≤ b.cap then
    some { b with buf := fun i => if i < b.len then some zero else b.buf i, len := 0 }
  else none

/-- Source macro `raResize`: grow to `n` elements when `n > cap`. -/
def raResize {α : Type} (b : Ra_Header α) (n : Nat) : Ra_Header α :=
  if n > b.cap then ra_GrowToSize b n else b

/-- Source macro `raElemin`: the count of elements stored. -/
def raElemin {α : Type} (b : Ra_Header α) : Nat := b.len

/-- Source macro `raMaxElemin`: the count of elements the block can hold. -/
def raMaxElemin {α : Type} (b : Ra_Header α) : Nat := b.cap

/-- A run of `raAdd` calls, one per element of the list, in order. -/
def raAddAll {α : Type} : Ra_Header α → List α → Option (Ra_Header α)
  | b, [] => some b
  | b, e :: rest => (raAdd b e).bind fun p => raAddAll p.2 rest

/-- One call on a growable buffer. -/
inductive RaOp (α : Type) where
  | add (elem : α)
  | removeUnsorted (i : Nat)
  | clear
  | resize (n : Nat)

/-- The buffer after one call, `none` when the call is undefined. -/
def raApply {α : Type} (zero : α) (b : Ra_Header α) : RaOp α → Option (Ra_Header α)
  | RaOp.add elem => (raAdd b elem).map Prod.snd
  | RaOp.removeUnsorted i => raRemoveUnsorted b i
  | RaOp.clear => raClear zero b
  | RaOp.resize n => some (raResize b n)

/-- A run of calls on a growable buffer, in order. -/
def raRun {α : Type} (zero : α) : Ra_Header α → List (RaOp α) → Option (Ra_Header α)
  | b, [] => some b
  | b, op :: rest => (raApply zero b op).bind fun b1 => raRun zero b1 rest

/-- The elements stored at the ordinals below `len`, in order. -/
def raElems {α : Type} (b : Ra_Header α) : List (Option α) :=
  (List.range b.len).map b.buf

/-- A buffer of capacity 4 that holds the elements 7, 8, 9. -/
def buf789 : Ra_Header Nat :=
  { cap := 4, len := 3,
    buf := bufSet (bufSet (bufSet (fun _ => none) 0 (some 7)) 1 (some 8)) 2 (some 9) }

/-- Source `map(T)`: the value buffer together with the `Map_Userdata` record
its header points to (the hash table from key to value index and the list of
vacated indices). -/
structure Map (α : Type) where
  values : Ra_Header α
  table : Hash_Table
  free_list : Ra_Header Nat

/-- Source `map_Create`: a value buffer whose length is bumped to 1 (index 0
is never handed out), a fresh hash table, an empty free list. -/
def map_Create (α : Type) (min_cap : Nat) : Option (Map α) :=
  (ht_Create 0).bind fun table =>
  some { values := { ra_Create α min_cap with len := (0 + 1) % U64_MOD },
         table := table,
         free_list := ra_Create Nat min_cap }

/-- Source macro `map_DirtySlots`. -/
def map_DirtySlots {α : Type} (m : Map α) : Nat := raElemin m.values

/-- Source macro `mapInsert`.  Key 0 is stopped by `claim(arg_key != 0)`.
With a non-empty free list the value goes to index `free_list[0]`, which is
then removed from the list; otherwise the value is appended and the index is
`rhdr->len - 1`.  The pointer `rhdr` is taken before `raAdd`, so when `raAdd`
grew the buffer and `memRealloc` handed back another block (`relocated`),
that read goes through a released block and is undefined.  Finally the pair
`(key, index)` is put into the hash table. -/
def mapInsert {α : Type} (relocated : Bool) (m : Map α) (key : Nat) (value : α) :
    Option (Map α) :=
  if key = 0 then none
  else if raElemin m.free_list > 0 then
    (m.free_list.buf 0).bind fun index =>
    if index < m.values.cap then
      (raRemoveUnsorted m.free_list 0).bind fun free_list =>
      (htInsert m.table key index).bind fun p =>
      some { values := { m.values with buf := bufSet m.values.buf index (some value) },
             table := p.2,
             free_list := free_list }
    else none
  else
    (raAdd m.values value).bind fun added =>
    if ra_IsFull m.values = true ∧ relocated = true then none
    else
      (htInsert m.table key ((added.2.len + U64_MOD - 1) % U64_MOD)).bind fun p =>
      some { values := added.2, table := p.2, free_list := m.free_list }

/-- Source `mapExists`. -/
def mapExists {α : Type} (m : Map α) (key : Nat) : Bool :=
  if key = 0 then false else decide (htLookup m.table key ≠ 0)

/-- Source macro `mapLookup`: the value cell at index `htLookup(table, key)`;
`none` when that cell holds no determinate value. -/
def mapLookup {α : Type} (m : Map α) (key : Nat) : Option α :=
  if htLookup m.table key < m.values.cap then m.values.buf (htLookup m.table key) else none

/-- Source `mapRemove`: key 0 is ignored; otherwise the looked-up index (0
when the key is absent) is appended to the free list and the key is removed
from the hash table. -/
def mapRemove {α : Type} (m : Map α) (key : Nat) : Option (Map α) :=
  if key = 0 then some m
  else
    (raAdd m.free_list (htLookup m.table key)).bind fun added =>
    some { m with free_list := added.2, table := (htRemove m.table key).2 }

/-- Maps that a program can hold: created by `map_Create`, then changed by
`mapInsert` (non-zero keys) and `mapRemove` calls that returned, all keys
being 64-bit words. -/
inductive MapReachable {α : Type} : Map α → Prop
  | create (min_cap : Nat) (m : Map α) :
      min_cap < U64_MOD → map_Create α min_cap = some m → MapReachable m
  | insert (m : Map α) (relocated : Bool) (key : Nat) (value : α) (m1 : Map α) :
      MapReachable m → key ≠ 0 → key < U64_MOD →
      mapInsert relocated m key value = some m1 → MapReachable m1
  | remove (m : Map α) (key : Nat) (m1 : Map α) :
      MapReachable m → key < U64_MOD → mapRemove m key = some m1 → MapReachable m1

/-- What every reachable map satisfies: index 0 of the value buffer is
reserved, both buffers respect their capacity, every entry of the free list
and every value of the hash table is an index below the length of the value
buffer, and the hash table has the shape of a reachable table. -/
structure MapInv {α : Type} (m : Map α) : Prop where
  values_pos : 1 ≤ m.values.len
  values_le : m.values.len ≤ m.values.cap
  values_cap : m.values.cap < U64_MOD
  free_le : m.free_list.len ≤ m.free_list.cap
  free_cap : m.free_list.cap < U64_MOD
  free_some : ∀ i, i < m.free_list.len →
    ∃ index, m.free_list.buf i = some index ∧ index < m.values.len
  table_size : SizeInv m.table
  table_values : ∀ i, m.table.values i < m.values.len

/-- The map returned by `map_Create` with minimum capacity 0, that is by the
`mapCreate()` macro. -/
def mapFresh : Map Nat :=
  { values := { cap := 16, len := 1, buf := fun _ => none },
    table := freshTable,
    free_list := { cap := 16, len := 0, buf := fun _ => none } }

/-- The fresh map after `mapRemove(m, 5)`: key 5 is absent, so the looked-up
index 0 is what the free list receives. -/
def mapB1 : Map Nat :=
  { mapFresh with
    free_list := { cap := 16, len := 1, buf := bufSet (fun _ => none) 0 (some 0) } }

/-- Then after `mapInsert(m, 7, 42)`: the value is written to index 0 and the
hash table is asked to store index 0 for key 7, which it treats as a
removal. -/
def mapB2 : Map Nat :=
  { values := { cap := 16, len := 1, buf := bufSet (fun _ => none) 0 (some 42) },
    table := freshTable,
    free_list := { cap := 16, len := 0,
                   buf := bufSet (bufSet (fun _ => none) 0 (some 0)) 0 (some 0) } }

/-- The fresh map after `mapInsert(m, 2, 10)`: value index 1, key 2 in slot 1
of the hash table. -/
def mapC1 : Map Nat :=
  { values := { cap := 16, len := 2, buf := bufSet (fun _ => none) 1 (some 10) },
    table := { freshTable with keys := arraySet zeroArray 1 2,
                               values := arraySet zeroArray 1 1, slot_filled := 1 },
    free_list := { cap := 16, len := 0, buf := fun _ => none } }

/-- Then after `mapInsert(m, 3, 20)`: value index 2, key 3 hashes to slot 1
too and lands in slot 2. -/
def mapC2 : Map Nat :=
  { values := { cap := 16, len := 3, buf := bufSet mapC1.values.buf 2 (some 20) },
    table := { mapC1.table with keys := arraySet mapC1.table.keys 2 3,
                                values := arraySet mapC1.table.values 2 2,
                                slot_filled := 2, collision_count := 1 },
    free_list := { cap := 16, len := 0, buf := fun _ => none } }

/-- Then after `mapRemove(m, 2)`: index 1 goes to the free list, slot 1 of the
hash table is zeroed. -/
def mapC3 : Map Nat :=
  { values := mapC2.values,
    table := { mapC2.table with values := arraySet mapC2.table.values 1 0,
                                keys := arraySet mapC2.table.keys 1 0,
                                slot_filled := 1 },
    free_list := { cap := 16, len := 1, buf := bufSet (fun _ => none) 0 (some 1) } }

/-- Then after `mapInsert(m, 3, 30)`: the value goes to the vacated index 1
and the pair `(3, 1)` to the empty slot 1, while the older pair `(3, 2)` is
still in slot 2. -/
def mapC4 : Map Nat :=
  { values := { cap := 16, len := 3, buf := bufSet mapC2.values.buf 1 (some 30) },
    table := { mapC3.table with keys := arraySet mapC3.table.keys 1 3,
                                values := arraySet mapC3.table.values 1 1,
                                slot_filled := 2 },
    free_list := { cap := 16, len := 0,
                   buf := bufSet (bufSet (fun _ => none) 0 (some 1)) 0 (some 1) } }

/-- Then after `mapRemove(m, 3)`: index 1 goes to the free list again, slot 1
is zeroed, the pair `(3, 2)` stays in slot 2. -/
def mapC5 : Map Nat :=
  { values := mapC4.values,
    table := { mapC4.table with values := arraySet mapC4.table.values 1 0,
                                keys := arraySet mapC4.table.keys 1 0,
                                slot_filled := 1 },
    free_list := { cap := 16, len := 1,
                   buf := bufSet mapC4.free_list.buf 0 (some 1) } }

/-- Source macro `mapForEach`: the traversal of the hash table in which the
statement `arg_val = arg_map[value]` runs before every test of the loop; the
pairs `(key, arg_map[value])` seen by the loop body, in order.  (The
statement runs once more with key 0 and reads index 0 before the loop
stops.) -/
def mapForEach {α : Type} (m : Map α) : Option (List (Nat × Option α)) :=
  (htForEach m.table).map fun pairs =>
    pairs.map fun p => (p.1, if p.2 < m.values.cap then m.values.buf p.2 else none)

/-- Source struct `Intern_List`: the parallel buffers of one bucket. -/
structure Intern_List where
  indices : Ra_Header Nat
  secondary_hashes : Ra_Header Nat

/-- Source struct `Intern` without its allocator: the buckets `lists[256]`,
addressed by the first hash byte. -/
structure Intern where
  lists : Nat → Intern_List

/-- Source `internCreateAlloc`: every bucket gets two fresh buffers. -/
def internCreateAlloc : Intern :=
  { lists := fun _ => { indices := ra_Create Nat 0, secondary_hashes := ra_Create Nat 0 } }

/-- The loop of `internCheck` from entry `i` with `fuel` entries left: the
index of the first entry whose second hash byte is `hash2` and for which
`eqf` holds.  Reading an entry that holds no determinate value gives
`none`. -/
def internCheckLoop (l : Intern_List) (hash2 : Nat) (eqf : Nat → Option Bool) :
    Nat → Nat → Option (Option Nat)
  | 0, _ => some none
  | fuel + 1, i =>
    match l.indices.buf i, l.secondary_hashes.buf i with
    | some index, some h =>
      if h = hash2 then
        match eqf index with
        | none => none
        | some true => some (some index)
        | some false => internCheckLoop l hash2 eqf fuel (i + 1)
      else internCheckLoop l hash2 eqf fuel (i + 1)
    | _, _ => none

/-- Source `internCheck`: scan bucket `hash1`; `some index` stands for `true`
with `*result = index`, `none` for `false`. -/
def internCheck (it : Intern) (hash1 hash2 : Nat) (eqf : Nat → Option Bool) :
    Option (Option Nat) :=
  internCheckLoop (it.lists hash1) hash2 eqf (raElemin (it.lists hash1).secondary_hashes) 0

/-- A store into `lists[h]`. -/
def listsSet (lists : Nat → Intern_List) (h : Nat) (l : Intern_List) : Nat → Intern_List :=
  fun j => if j = h then l else lists j

/-- Source `internData`: append `hash2` and `index` to bucket `hash1`; the
`claim` asks for equal lengths afterwards. -/
def internData (it : Intern) (hash1 hash2 index : Nat) : Option Intern :=
  (raAdd (it.lists hash1).secondary_hashes hash2).bind fun s =>
  (raAdd (it.lists hash1).indices index).bind fun x =>
  if raElemin s.2 = raElemin x.2 then
    some { lists := listsSet it.lists hash1 { indices := x.2, secondary_hashes := s.2 } }
  else none

/-- The loop of `internIntegerHash8Bit` over the bytes `i, i+1, ...` of the
key: `result += (U8)((U64) b[i] * q)`. -/
def hash8Loop (key q : Nat) : Nat → Nat → Nat → Nat
  | 0, _, result => result
  | fuel + 1, i, result =>
    hash8Loop key q fuel (i + 1)
      ((result + ((((key >>> (8 * i)) % 256) * q) % U64_MOD) % 256) % 256)

/-- Source `internIntegerHash8Bit`. -/
def internIntegerHash8Bit (key : Nat) (which : Bool) : Nat :=
  hash8Loop key (if which then 33149 else 146519) 8 0 0

/-- Source struct `Intern_Integer`. -/
structure Intern_Integer where
  intern : Intern
  integers : Ra_Header Nat

/-- Source `internIntegerCreate`. -/
def internIntegerCreate : Intern_Integer :=
  { intern := internCreateAlloc, integers := ra_Create Nat 0 }

/-- Source `internIntegerEquality`: `a[0] == b[b_index]`. -/
def internIntegerEquality (a : Nat) (b : Ra_Header Nat) (b_index : Nat) : Option Bool :=
  (b.buf b_index).map fun ib => decide (a = ib)

/-- Source `internInteger`: when the check fails the number is appended and
the bucket records `raElemin(ii->integers)`, read after the append. -/
def internInteger (ii : Intern_Integer) (num : Nat) : Option (Nat × Intern_Integer) :=
  (internCheck ii.intern (internIntegerHash8Bit num true) (internIntegerHash8Bit num false)
      (internIntegerEquality num ii.integers)).bind fun found =>
  match found with
  | some _ => some (num, ii)
  | none =>
    (raAdd ii.integers num).bind fun added =>
    (internData ii.intern (internIntegerHash8Bit num true) (internIntegerHash8Bit num false)
        (raElemin added.2)).bind fun it =>
    some (num, { intern := it, integers := added.2 })

/-- Source `internIntegerCheck`: `num` when the check succeeds, `false`
(zero) otherwise. -/
def internIntegerCheck (ii : Intern_Integer) (num : Nat) : Option Nat :=
  (internCheck ii.intern (internIntegerHash8Bit num true) (internIntegerHash8Bit num false)
      (internIntegerEquality num ii.integers)).map fun found =>
  match found with
  | some _ => num
  | none => 0

/-- Integer intern tables that a program can hold: created by
`internIntegerCreate`, then changed by `internInteger` calls that returned. -/
inductive IntReachable : Intern_Integer → Prop
  | create : IntReachable internIntegerCreate
  | intern (ii : Intern_Integer) (num : Nat) (ii1 : Intern_Integer) :
      IntReachable ii → num < U64_MOD → internInteger ii num = some (num, ii1) →
      IntReachable ii1

/-- The integer table after `internInteger(ii, 5)`: the number sits at
position 0 of the backing store, bucket 113 records index 1 with second hash
byte 179. -/
def intA1 : Intern_Integer :=
  { intern :=
      { lists :=
          listsSet internCreateAlloc.lists 113
            { indices :=
                { cap := 16, len := 1, buf := bufSet (fun _ => none) 0 (some 1) },
              secondary_hashes :=
                { cap := 16, len := 1, buf := bufSet (fun _ => none) 0 (some 179) } } },
    integers := { cap := 16, len := 1, buf := bufSet (fun _ => none) 0 (some 5) } }

/-- Then after `internInteger(ii, 7)`: position 1 of the backing store,
bucket 107 records index 2 with second hash byte 97. -/
def intA2 : Intern_Integer :=
  { intern :=
      { lists :=
          listsSet intA1.intern.lists 107
            { indices :=
                { cap := 16, len := 1, buf := bufSet (fun _ => none) 0 (some 2) },
              secondary_hashes :=
                { cap := 16, len := 1, buf := bufSet (fun _ => none) 0 (some 97) } } },
    integers := { cap := 16, len := 2, buf := bufSet intA1.integers.buf 1 (some 7) } }

/-- Then after a second `internInteger(ii, 5)`: the number is appended again
at position 2, bucket 113 gets a second entry with index 3. -/
def intA3 : Intern_Integer :=
  { intern :=
      { lists :=
          listsSet intA2.intern.lists 113
            { indices :=
                { cap := 16, len := 2,
                  buf := bufSet (bufSet (fun _ => none) 0 (some 1)) 1 (some 3) },
              secondary_hashes :=
                { cap := 16, len := 2,
                  buf := bufSet (bufSet (fun _ => none) 0 (some 179)) 1 (some 179) } } },
    integers := { cap := 16, len := 3, buf := bufSet intA2.integers.buf 2 (some 5) } }

/-- How the indices of a reachable map are shared out: no two slots of the
hash table hold the same non-zero index, no free-list entry is the index of a
filled slot, and no non-zero index is on the free list twice. -/
structure IndexInv {α : Type} (m : Map α) : Prop where
  slots_distinct : ∀ i j, m.table.values i ≠ 0 → m.table.values i = m.table.values j → i = j
  free_not_live : ∀ i j, j < m.free_list.len → m.table.values i ≠ 0 →
    m.free_list.buf j ≠ some (m.table.values i)
  free_distinct : ∀ i j, i < m.free_list.len → j < m.free_list.len →
    m.free_list.buf i ≠ some 0 → m.free_list.buf i = m.free_list.buf j → i = j

/-- Source table `hash_lookup_table1` of `internStringPearsonHash`. -/
def hash_lookup_table1 : List Nat :=
  [
    98, 6, 85, 150, 36, 23, 112, 164, 135, 207, 169, 5, 26, 64, 165, 219,
    61, 20, 68, 89, 130, 63, 52, 102, 24, 229, 132, 245, 80, 216, 195, 115,
    90, 168, 156, 203, 177, 120, 2, 190, 188, 7, 100, 185, 174, 243, 162, 10,
    237, 18, 253, 225, 8, 208, 172, 244, 255, 126, 101, 79, 145, 235, 228, 121,
    123, 251, 67, 250, 161, 0, 107, 97, 241, 111, 181, 82, 249, 33, 69, 55,
    59, 153, 29, 9, 213, 167, 84, 93, 30, 46, 94, 75, 151, 114, 73, 222,
    197, 96, 210, 45, 16, 227, 248, 202, 51, 152, 252, 125, 81, 206, 215, 186,
    39, 158, 178, 187, 131, 136, 1, 49, 50, 17, 141, 91, 47, 129, 60, 99,
    154, 35, 86, 171, 105, 34, 38, 200, 147, 58, 77, 118, 173, 246, 76, 254,
    133, 232, 196, 144, 198, 124, 53, 4, 108, 74, 223, 234, 134, 230, 157, 139,
    189, 205, 199, 128, 176, 19, 211, 236, 127, 192, 231, 70, 233, 88, 146, 44,
    183, 201, 22, 83, 13, 214, 116, 109, 159, 32, 95, 226, 140, 220, 57, 12,
    221, 31, 209, 182, 143, 92, 149, 184, 148, 62, 113, 65, 37, 27, 106, 166,
    3, 14, 204, 72, 21, 41, 56, 66, 28, 193, 40, 217, 25, 54, 179, 117,
    238, 87, 240, 155, 180, 170, 242, 212, 191, 163, 78, 218, 137, 194, 175, 110,
    43, 119, 224, 71, 122, 142, 42, 160, 104, 48, 247, 103, 15, 11, 138, 239
  ]

/-- Source table `hash_lookup_table2` of `internStringPearsonHash`. -/
def hash_lookup_table2 : List Nat :=
  [
    251, 175, 119, 215, 81, 14, 79, 191, 103, 49, 181, 143, 186, 157, 0, 232,
    31, 32, 55, 60, 152, 58, 17, 237, 174, 70, 160, 144, 220, 90, 57, 223,
    59, 3, 18, 140, 111, 166, 203, 196, 134, 243, 124, 95, 222, 179, 197, 65,
    180, 48, 36, 15, 107, 46, 233, 130, 165, 30, 123, 161, 209, 23, 97, 16,
    40, 91, 219, 61, 100, 10, 210, 109, 250, 127, 22, 138, 29, 108, 244, 67,
    207, 9, 178, 204, 74, 98, 126, 249, 167, 116, 34, 77, 193, 200, 121, 5,
    20, 113, 71, 35, 128, 13, 182, 94, 25, 226, 227, 199, 75, 27, 41, 245,
    230, 224, 43, 225, 177, 26, 155, 150, 212, 142, 218, 115, 241, 73, 88, 105,
    39, 114, 62, 255, 192, 201, 145, 214, 168, 158, 221, 148, 154, 122, 12, 84,
    82, 163, 44, 139, 228, 236, 205, 242, 217, 11, 187, 146, 159, 64, 86, 239,
    195, 42, 106, 198, 118, 112, 184, 172, 87, 2, 173, 117, 176, 229, 247, 253,
    137, 185, 99, 164, 102, 147, 45, 66, 231, 52, 141, 211, 194, 206, 246, 238,
    56, 110, 78, 248, 63, 240, 189, 93, 92, 51, 53, 183, 19, 171, 72, 50,
    33, 104, 101, 69, 8, 252, 83, 120, 76, 135, 85, 54, 202, 125, 188, 213,
    96, 235, 136, 208, 162, 129, 190, 132, 156, 38, 47, 1, 7, 254, 24, 4,
    216, 131, 89, 21, 28, 133, 37, 153, 149, 80, 170, 68, 6, 169, 234, 151
  ]

/-- Source `strlen`.  A C string is modelled as the list of its characters
before the terminator, each a number in `1 .. 127`.  The C library's `strlen`
counts these; the one nlib defines under `NLIB_NOLIBC` counts the terminator
as well. -/
def strlen (nolibc : Bool) (s : List Nat) : Nat :=
  if nolibc then s.length + 1 else s.length

/-- The loop of `internStringPearsonHash` from character `i` with `fuel`
characters left: `hash = table[hash ^ string[i]]`; the character behind the
last one is the terminator 0. -/
def pearsonLoop (string : List Nat) (which : Bool) : Nat → Nat → Nat → Nat
  | 0, _, hash => hash
  | fuel + 1, i, hash =>
    pearsonLoop string which fuel (i + 1)
      (if which = true then hash_lookup_table1.getD (hash ^^^ string.getD i 0) 0
       else hash_lookup_table2.getD (hash ^^^ string.getD i 0) 0)

/-- Source `internStringPearsonHash`: starts from `(U8) len`. -/
def internStringPearsonHash (buffer : List Nat) (len : Nat) (which : Bool) : Nat :=
  pearsonLoop buffer which len 0 (len % 256)

/-- The loop of `strcmp(str1, str2) == 0` with `str2` read from a character
buffer at offset `i`: stops at the first difference or at the end of
`str1`. -/
def streqLoop (str2 : Ra_Header Nat) : List Nat → Nat → Option Bool
  | [], i => (str2.buf i).map fun c => decide (c = 0)
  | a :: rest, i =>
    match str2.buf i with
    | none => none
    | some c => if a ≠ c then some false else streqLoop str2 rest (i + 1)

/-- Source `streq`, the second string being a stored character buffer. -/
def streq (str1 : List Nat) (str2 : Ra_Header Nat) : Option Bool :=
  streqLoop str2 str1 0

/-- Source struct `Intern_String`: the buckets and the backing store, a buffer
of character buffers. -/
structure Intern_String where
  intern : Intern
  strings : Ra_Header (Ra_Header Nat)

/-- Source `internStringEquality`: `streq(a, b[b_index])`. -/
def internStringEquality (a : List Nat) (b : Ra_Header (Ra_Header Nat)) (b_index : Nat) :
    Option Bool :=
  (b.buf b_index).bind fun sb => streq a sb

/-- Source `internStringCreate`. -/
def internStringCreate : Intern_String :=
  { intern := internCreateAlloc, strings := ra_Create (Ra_Header Nat) 0 }

/-- Source `internString`.  The returned reference `raPtr(is->strings[index])`
is given as `index`: every stored character buffer is a block of its own that
is never grown, so two references are equal exactly when the indices are.
When the check fails the string is copied character by character with its
terminator into a new buffer, which is appended to the backing store, and the
bucket records the index read before the append. -/
def internString (nolibc : Bool) (is : Intern_String) (str : List Nat) :
    Option (Nat × Intern_String) :=
  (internCheck is.intern (internStringPearsonHash str (strlen nolibc str) true)
      (internStringPearsonHash str (strlen nolibc str) false)
      (internStringEquality str is.strings)).bind fun found =>
  match found with
  | some index => some (index, is)
  | none =>
    (raAddAll (ra_Create Nat 0) (str ++ [0])).bind fun str_new =>
    (raAdd is.strings str_new).bind fun added =>
    (internData is.intern (internStringPearsonHash str (strlen nolibc str) true)
        (internStringPearsonHash str (strlen nolibc str) false)
        (raElemin is.strings)).bind fun it =>
    some (raElemin is.strings, { intern := it, strings := added.2 })

/-- Source `internStringCheck`: the reference when the check succeeds, `none`
for `NLIB_NULL`.  The function writes nothing to the table. -/
def internStringCheck (nolibc : Bool) (is : Intern_String) (str : List Nat) :
    Option (Option Nat) :=
  internCheck is.intern (internStringPearsonHash str (strlen nolibc str) true)
    (internStringPearsonHash str (strlen nolibc str) false)
    (internStringEquality str is.strings)

/-- A run of `internString` calls, one per string of the list, in order;
returns the references in the same order. -/
def internAll (nolibc : Bool) : Intern_String → List (List Nat) →
    Option (List Nat × Intern_String)
  | is, [] => some ([], is)
  | is, s :: rest =>
    (internString nolibc is s).bind fun p =>
    (internAll nolibc p.2 rest).map fun q => (p.1 :: q.1, q.2)

/-- A C string that a program can pass: characters in `1 .. 127` and a length
that fits in memory with its terminator. -/
def IsCString (s : List Nat) : Prop :=
  (∀ c ∈ s, 0 < c ∧ c < 128) ∧ 2 * (s.length + 1) ≤ U64_MOD

/-- The character buffer `sb` holds the string `s` and its terminator. -/
def HoldsString (sb : Ra_Header Nat) (s : List Nat) : Prop :=
  (∀ k, k < s.length → sb.buf k = s[k]?) ∧ sb.buf s.length = some 0

/-- String intern tables that a program can hold, with the list of the
strings passed to `internString` so far: created by `internStringCreate`,
then changed by `internString` calls that returned.  (`internStringCheck`
returns no table, so calls of it add nothing here.) -/
inductive StrReachable (nolibc : Bool) : List (List Nat) → Intern_String → Prop
  | create : StrReachable nolibc [] internStringCreate
  | intern (hist : List (List Nat)) (is : Intern_String) (str : List Nat) (index : Nat)
      (is1 : Intern_String) :
      StrReachable nolibc hist is → IsCString str →
      internString nolibc is str = some (index, is1) →
      StrReachable nolibc (hist ++ [str]) is1

/-- What every reachable string intern table satisfies, `L` being the list of
the stored strings in the order of the backing store: the strings are valid
and pairwise distinct, position `i` of the backing store holds `L[i]`, and
the buckets list every position exactly under the two hash bytes of its
string. -/
structure StrInv (nolibc : Bool) (L : List (List Nat)) (is : Intern_String) : Prop where
  len_eq : is.strings.len = L.length
  len_le : is.strings.len ≤ is.strings.cap
  cap_lt : is.strings.cap < U64_MOD
  stored : ∀ i s, L[i]? = some s → ∃ sb, is.strings.buf i = some sb ∧ HoldsString sb s
  valid : ∀ s, s ∈ L → IsCString s
  nodup : L.Nodup
  bucket_len : ∀ h, (is.intern.lists h).indices.len = (is.intern.lists h).secondary_hashes.len ∧
    (is.intern.lists h).indices.len ≤ L.length
  bucket_cap : ∀ h, (is.intern.lists h).indices.len ≤ (is.intern.lists h).indices.cap ∧
    (is.intern.lists h).indices.cap < U64_MOD ∧
    (is.intern.lists h).secondary_hashes.len ≤ (is.intern.lists h).secondary_hashes.cap ∧
    (is.intern.lists h).secondary_hashes.cap < U64_MOD
  bucket_entry : ∀ h j, j < (is.intern.lists h).indices.len →
    ∃ index s, (is.intern.lists h).indices.buf j = some index ∧ L[index]? = some s ∧
      internStringPearsonHash s (strlen nolibc s) true = h ∧
      (is.intern.lists h).secondary_hashes.buf j =
        some (internStringPearsonHash s (strlen nolibc s) false)
  complete : ∀ index s, L[index]? = some s →
    ∃ j, j < (is.intern.lists (internStringPearsonHash s (strlen nolibc s) true)).indices.len ∧
      (is.intern.lists (internStringPearsonHash s (strlen nolibc s) true)).indices.buf j =
        some index

instance (s : List Nat) : Decidable (IsCString s) := by
  unfold IsCString
  infer_instance

/-- The string table after `internString(is, "Hi")` in a build with the C
library: the copy with its terminator sits at position 0 of the backing
store, bucket 25 records index 0 with second hash byte 105. -/
def strA1 : Intern_String :=
  { intern :=
      { lists :=
          listsSet internCreateAlloc.lists 25
            { indices :=
                { cap := 16, len := 1, buf := bufSet (fun _ => none) 0 (some 0) },
              secondary_hashes :=
                { cap := 16, len := 1, buf := bufSet (fun _ => none) 0 (some 105) } } },
    strings :=
      { cap := 16, len := 1,
        buf := bufSet (fun _ => none) 0
          (some { cap := 16, len := 3,
                  buf := bufSet (bufSet (bufSet (fun _ => none) 0 (some 72)) 1 (some 105)) 2
                    (some 0) }) } }

/-- Thirteen further inserts of the unit test "Hash Table (forcing
allocations)": `htInsert(ht, i, 200 + i)` for `i = 4 .. 16`. -/
def ops13 : List (Nat × Nat) :=
  [(4, 204), (5, 205), (6, 206), (7, 207), (8, 208), (9, 209), (10, 210), (11, 211),
   (12, 212), (13, 213), (14, 214), (15, 215), (16, 216)]

/-- The probe loop as the specification words it, from step `i` with `fuel`
steps left: the stored value at the first probed slot that holds `key`, and 0
as soon as an empty slot (key 0) is reached before that. -/
def specLookupLoop (ht : Hash_Table) (key hash : Nat) : Nat → Nat → Nat
  | 0, _ => 0
  | fuel + 1, i =>
    if ht.keys (probeIndex ht hash i) = key then ht.values (probeIndex ht hash i)
    else if ht.keys (probeIndex ht hash i) = 0 then 0
    else specLookupLoop ht key hash fuel (i + 1)

/-- The lookup as the specification words it: zero for key zero, otherwise the
early-stopping probe from `h(key)` over at most `slot_count` slots. -/
def specLookup (ht : Hash_Table) (key : Nat) : Nat :=
  if key = 0 then 0
  else specLookupLoop ht key (hashUniversal ht.univ key) ht.slot_count 0

/-- The map holding key 2 after a second `mapInsert(m, 2, 20)`: the free list
was empty, so the value went to the new index 2 and the hash table now maps
key 2 to it; index 1 is still in the buffer. -/
def mapD2 : Map Nat :=
  { values := { cap := 16, len := 3, buf := bufSet mapC1.values.buf 2 (some 20) },
    table := { mapC1.table with keys := arraySet mapC1.table.keys 1 2,
                                values := arraySet mapC1.table.values 1 2 },
    free_list := { cap := 16, len := 0, buf := fun _ => none } }

/-- Generator state `univ.r` of a table that was created and has since doubled
`j` times.  `ht_Create` leaves 4116611502648400109 there whatever the slot
count; each doubling draws the odd multiplier from the state it finds and then
one more number, which becomes the new state.  The exponent `m` does not enter
the draws.  `none` when one of the odd draws does not come to an end. -/
def drawState : Nat → Option Nat
  | 0 => some 4116611502648400109
  | j + 1 => (drawState j).bind fun r => (oddDrawLoop U64_MOD r).map randomU64

/-- The generator state of the table is the one that `j` doublings after
creation leave, for some `j` that the exponent `m` allows (creation gives
`m >= 6`, every doubling adds one). -/
def DrawInv (ht : Hash_Table) : Prop :=
  ∃ j, drawState j = some ht.univ.r ∧ j + 6 ≤ ht.univ.m

/-- Forty inserts in the manner of the unit test "Hash Table (forcing
allocations)": `htInsert(ht, i, 200 + i)` for `i = 1 .. 39`, then key 1 again
with value 300.  The thirty-third call finds 32 of 64 slots filled and doubles
the table. -/
def ops40 : List (Nat × Nat) :=
  [(1, 201), (2, 202), (3, 203), (4, 204), (5, 205), (6, 206), (7, 207), (8, 208),
   (9, 209), (10, 210), (11, 211), (12, 212), (13, 213), (14, 214), (15, 215), (16, 216),
   (17, 217), (18, 218), (19, 219), (20, 220), (21, 221), (22, 222), (23, 223), (24, 224),
   (25, 225), (26, 226), (27, 227), (28, 228), (29, 229), (30, 230), (31, 231), (32, 232),
   (33, 233), (34, 234), (35, 235), (36, 236), (37, 237), (38, 238), (39, 239), (1, 300)]

/-- Number of distinct keys among the pairs of a run of inserts. -/
def distinctKeys (ops : List (Nat × Nat)) : Nat :=
  ((ops.map Prod.fst).dedup).length

theorem U64_MOD_eq : U64_MOD = 18446744073709551616 := by decide

theorem msbLoop_bounds (fuel x : Nat) (hx : 0 < x) (hlt : x < 2 ^ fuel) :
    2 ^ msbLoop fuel x ≤ x ∧ x < 2 ^ (msbLoop fuel x + 1) := by
  induction fuel generalizing x with
  | zero => simp at hlt; omega
  | succ f ih =>
    unfold msbLoop
    split_ifs with h2
    · have h := ih (x / 2) (by omega) (by rw [pow_succ] at hlt; omega)
      constructor
      · rw [pow_succ]; omega
      · rw [pow_succ]; omega
    · simp; omega

theorem mLog2U64_bounds (x : Nat) (hx : 0 < x) (hlt : x < U64_MOD) :
    2 ^ mLog2U64 x ≤ x ∧ x < 2 ^ (mLog2U64 x + 1) := by
  have h0 : x ≠ 0 := by omega
  simp only [mLog2U64, bitFindMSBU64, h0, ne_eq, not_false_eq_true, if_true, if_false]
  exact msbLoop_bounds 64 x hx hlt

theorem pow_two_sandwich (a j : Nat) (h1 : 2 ^ a ≤ 2 ^ j) (h2 : 2 ^ j < 2 ^ (a + 1)) : a = j := by
  have h3 : a ≤ j := (Nat.pow_le_pow_iff_right (by decide)).1 h1
  have h4 : j < a + 1 := (Nat.pow_lt_pow_iff_right (by decide)).1 h2
  omega

theorem mLog2U64_two_pow (j : Nat) (hj : j < 64) : mLog2U64 (2 ^ j) = j := by
  have hlt : 2 ^ j < U64_MOD := by
    unfold U64_MOD; exact Nat.pow_lt_pow_right (by decide) hj
  have h := mLog2U64_bounds (2 ^ j) (Nat.two_pow_pos j) hlt
  exact pow_two_sandwich _ _ h.1 h.2

theorem land_pred_eq_zero_iff (x : Nat) (hx : 0 < x) : x &&& (x - 1) = 0 ↔ ∃ j, x = 2 ^ j := by
  constructor
  · intro h
    induction x using Nat.strong_induction_on with
    | _ x ih =>
      have hd := Nat.and_div_two (a := x) (b := x - 1)
      rw [h] at hd
      rcases Nat.even_or_odd x with he | ho
      · obtain ⟨y, hy⟩ := he
        have hy0 : 0 < y := by omega
        have e1 : x / 2 = y := by omega
        have e2 : (x - 1) / 2 = y - 1 := by omega
        rw [e1, e2] at hd
        obtain ⟨j, hj⟩ := ih y (by omega) hy0 (by simpa using hd.symm)
        exact ⟨j + 1, by rw [pow_succ]; omega⟩
      · obtain ⟨y, hy⟩ := ho
        have e1 : x / 2 = y := by omega
        have e2 : (x - 1) / 2 = y := by omega
        rw [e1, e2, Nat.and_self] at hd
        exact ⟨0, by simp at hd; omega⟩
  · rintro ⟨j, rfl⟩
    rw [Nat.and_pow_two_sub_one_eq_mod]; simp

theorem mIsPowerOf2U64_iff (x : Nat) (hx : 0 < x) (hlt : x < U64_MOD) :
    mIsPowerOf2U64 x = true ↔ ∃ j, x = 2 ^ j := by
  have e : (x + U64_MOD - 1) % U64_MOD = x - 1 := by
    have : x + U64_MOD - 1 = (x - 1) + U64_MOD := by omega
    rw [this, Nat.add_mod_right, Nat.mod_eq_of_lt (by omega)]
  simp only [mIsPowerOf2U64, e, beq_iff_eq]
  exact land_pred_eq_zero_iff x hx

theorem mNextPowerOf2U64_spec (x : Nat) (hx : 0 < x) (hle : x ≤ 2 ^ 63) :
    ∃ j, mNextPowerOf2U64 x = some (2 ^ j) ∧ j < 64 ∧ x ≤ 2 ^ j ∧ ∀ i, x ≤ 2 ^ i → j ≤ i := by
  have hlt : x < U64_MOD := by rw [U64_MOD_eq]; omega
  unfold mNextPowerOf2U64
  by_cases hp : mIsPowerOf2U64 x = true
  · obtain ⟨j, rfl⟩ := (mIsPowerOf2U64_iff x hx hlt).1 hp
    have hj : j ≤ 63 := (Nat.pow_le_pow_iff_right (by decide)).1 hle
    refine ⟨j, by simp [hp], by omega, le_refl _, ?_⟩
    intro i hi
    exact (Nat.pow_le_pow_iff_right (by decide)).1 hi
  · have hb := mLog2U64_bounds x hx hlt
    have hne : 2 ^ mLog2U64 x ≠ x := by
      intro e
      exact hp ((mIsPowerOf2U64_iff x hx hlt).2 ⟨_, e.symm⟩)
    have hl : mLog2U64 x < 63 := by
      have : 2 ^ mLog2U64 x < 2 ^ 63 := by omega
      exact (Nat.pow_lt_pow_iff_right (by decide)).1 this
    refine ⟨mLog2U64 x + 1, ?_, by omega, by omega, ?_⟩
    · simp [hp]; omega
    · intro i hi
      have : 2 ^ mLog2U64 x < 2 ^ i := by omega
      have := (Nat.pow_lt_pow_iff_right (by decide)).1 this
      omega

theorem oddDrawLoop_zero : oddDrawLoop U64_MOD 0 = some 115924262728944859 := by decide
theorem hashUniversalConstantsUpdate_of_draw (h : Hash_Universal) (a : Nat)
    (hd : oddDrawLoop U64_MOD h.r = some a) :
    hashUniversalConstantsUpdate h =
      some { a := a, b := randomU64 a &&& ((U64_MOD - 1) >>> h.m), m := h.m, r := randomU64 a } := by
  unfold hashUniversalConstantsUpdate
  rw [hd]
theorem randomU64_first : randomU64 115924262728944859 = 4116611502648400109 := by decide
theorem hashUniversalConstantsUpdate_fresh (m : Nat) :
    hashUniversalConstantsUpdate { a := 0, b := 0, m := m, r := 0 } =
      some { a := 115924262728944859,
             b := 4116611502648400109 &&& ((U64_MOD - 1) >>> m),
             m := m, r := 4116611502648400109 } := by
  have h := hashUniversalConstantsUpdate_of_draw { a := 0, b := 0, m := m, r := 0 } _ oddDrawLoop_zero
  rw [randomU64_first] at h
  exact h

theorem searchLoop_cases (ht : Hash_Table) (key hash fuel i index : Nat) :
    (∃ t, i ≤ t ∧ t < i + fuel ∧ ht.keys (probeIndex ht hash t) = key ∧
        (∀ u, i ≤ u → u < t → ht.keys (probeIndex ht hash u) ≠ key) ∧
        searchLoop ht key hash fuel i index = (true, probeIndex ht hash t)) ∨
    ((∀ t, i ≤ t → t < i + fuel → ht.keys (probeIndex ht hash t) ≠ key) ∧
        (searchLoop ht key hash fuel i index).1 = false) := by
  induction fuel generalizing i index with
  | zero =>
    right
    exact ⟨fun t h1 h2 => by omega, rfl⟩
  | succ f ih =>
    by_cases hk : ht.keys (probeIndex ht hash i) = key
    · left
      exact ⟨i, le_refl _, by omega, hk, fun u h1 h2 => by omega, by simp [searchLoop, hk]⟩
    · have e : searchLoop ht key hash (f + 1) i index =
          searchLoop ht key hash f (i + 1) (probeIndex ht hash i) := by
        simp [searchLoop, hk]
      rcases ih (i + 1) (probeIndex ht hash i) with ⟨t, h1, h2, h3, h4, h5⟩ | ⟨h1, h2⟩
      · left
        refine ⟨t, by omega, by omega, h3, ?_, by rw [e, h5]⟩
        intro u hu1 hu2
        by_cases hui : u = i
        · subst hui; exact hk
        · exact h4 u (by omega) hu2
      · right
        refine ⟨?_, by rw [e, h2]⟩
        intro t ht1 ht2
        by_cases hti : t = i
        · subst hti; exact hk
        · exact h1 t (by omega) (by omega)

theorem htLookup_cases (ht : Hash_Table) (key : Nat) (hk : key ≠ 0) :
    (∃ t, t < ht.slot_count ∧ ht.keys (probeOf ht key t) = key ∧
        (∀ u, u < t → ht.keys (probeOf ht key u) ≠ key) ∧
        htLookup ht key = ht.values (probeOf ht key t)) ∨
    ((∀ t, t < ht.slot_count → ht.keys (probeOf ht key t) ≠ key) ∧ htLookup ht key = 0) := by
  rcases searchLoop_cases ht key (hashUniversal ht.univ key) ht.slot_count 0 0 with
    ⟨t, _, h2, h3, h4, h5⟩ | ⟨h1, h2⟩
  · left
    refine ⟨t, by omega, h3, fun u hu => h4 u (Nat.zero_le _) hu, ?_⟩
    simp [htLookup, hk, ht_LinearProbeSearch, h5, probeOf]
  · right
    refine ⟨fun t h => h1 t (Nat.zero_le _) (by omega), ?_⟩
    simp [htLookup, hk, ht_LinearProbeSearch, h2]

theorem htRemove_cases (ht : Hash_Table) (key : Nat) (hk : key ≠ 0) :
    (∃ t, t < ht.slot_count ∧ ht.keys (probeOf ht key t) = key ∧
        (∀ u, u < t → ht.keys (probeOf ht key u) ≠ key) ∧
        ht.values (probeOf ht key t) ≠ 0 ∧
        htRemove ht key = (ht.values (probeOf ht key t),
          { ht with values := arraySet ht.values (probeOf ht key t) 0,
                    keys := arraySet ht.keys (probeOf ht key t) 0,
                    slot_filled := (ht.slot_filled + U64_MOD - 1) % U64_MOD })) ∨
    (htLookup ht key = 0 ∧ htRemove ht key = (0, ht)) := by
  rcases searchLoop_cases ht key (hashUniversal ht.univ key) ht.slot_count 0 0 with
    ⟨t, _, h2, h3, h4, h5⟩ | ⟨h1, h2⟩
  · by_cases hv : ht.values (probeOf ht key t) = 0
    · right
      constructor
      · simp [htLookup, hk, ht_LinearProbeSearch, h5]; exact hv
      · have hv1 : ht.values (probeIndex ht (hashUniversal ht.univ key) t) = 0 := hv
        simp [htRemove, hk, ht_LinearProbeSearch, h5, hv1]
    · left
      have hv1 : ht.values (probeIndex ht (hashUniversal ht.univ key) t) ≠ 0 := hv
      refine ⟨t, by omega, h3, fun u hu => h4 u (Nat.zero_le _) hu, hv, ?_⟩
      simp [htRemove, hk, ht_LinearProbeSearch, h5, hv1, probeOf]
  · right
    constructor
    · simp [htLookup, hk, ht_LinearProbeSearch, h2]
    · simp [htRemove, hk, ht_LinearProbeSearch, h2]

theorem htLookup_zero_key (ht : Hash_Table) : htLookup ht 0 = 0 := by
  simp [htLookup]

theorem filledSlotLoop_cases (ht : Hash_Table) (fuel i : Nat) :
    (∃ j, i ≤ j ∧ j < i + fuel ∧ ht.keys j ≠ 0 ∧ (∀ u, i ≤ u → u < j → ht.keys u = 0) ∧
        filledSlotLoop ht fuel i = some j) ∨
    ((∀ u, i ≤ u → u < i + fuel → ht.keys u = 0) ∧ filledSlotLoop ht fuel i = none) := by
  induction fuel generalizing i with
  | zero => right; exact ⟨fun u h1 h2 => by omega, rfl⟩
  | succ f ih =>
    by_cases hk : ht.keys i = 0
    · have e : filledSlotLoop ht (f + 1) i = filledSlotLoop ht f (i + 1) := by
        simp [filledSlotLoop, hk]
      rcases ih (i + 1) with ⟨j, h1, h2, h3, h4, h5⟩ | ⟨h1, h2⟩
      · left
        refine ⟨j, by omega, by omega, h3, ?_, by rw [e, h5]⟩
        intro u hu1 hu2
        by_cases hui : u = i
        · subst hui; exact hk
        · exact h4 u (by omega) hu2
      · right
        refine ⟨?_, by rw [e, h2]⟩
        intro u hu1 hu2
        by_cases hui : u = i
        · subst hui; exact hk
        · exact h1 u (by omega) (by omega)
    · left
      exact ⟨i, le_refl _, by omega, hk, fun u h1 h2 => by omega, by simp [filledSlotLoop, hk]⟩

theorem filter_range'_all_zero (ht : Hash_Table) (i n : Nat)
    (h : ∀ u, i ≤ u → u < i + n → ht.keys u = 0) :
    (List.range' i n).filter (fun u => ht.keys u ≠ 0) = [] := by
  rw [List.filter_eq_nil_iff]
  intro u hu
  rw [List.mem_range'_1] at hu
  simp [h u hu.1 hu.2]

theorem forEachLoop_from (ht : Hash_Table) (hsc : ht.slot_count < U64_MOD) (d : Nat) :
    ∀ s fuel, s + d = ht.slot_count → d < fuel →
      forEachLoop ht fuel
        (match filledSlotLoop ht d s with
          | some index => (index, ht.keys index, ht.values index)
          | none => (0, 0, 0)) =
      some (((List.range' s d).filter (fun u => ht.keys u ≠ 0)).map
        (fun u => (ht.keys u, ht.values u))) := by
  induction d using Nat.strong_induction_on with
  | _ d ih =>
    intro s fuel hs hf
    obtain ⟨f, rfl⟩ : ∃ f, fuel = f + 1 := ⟨fuel - 1, by omega⟩
    rcases filledSlotLoop_cases ht d s with ⟨j, h1, h2, h3, h4, h5⟩ | ⟨h1, h2⟩
    · rw [h5]
      have hsplit : List.range' s d =
          List.range' s (j - s) ++ j :: List.range' (j + 1) (d - (j - s) - 1) := by
        have a1 := List.range'_append_1 s (j - s) ((d - (j - s) - 1) + 1)
        have a2 : (d - (j - s) - 1) + 1 + (j - s) = d := by omega
        have a3 : s + (j - s) = j := by omega
        rw [a2, a3, List.range'_succ] at a1
        exact a1.symm
      have hz : (List.range' s (j - s)).filter (fun u => ht.keys u ≠ 0) = [] :=
        filter_range'_all_zero ht s (j - s) (fun u hu1 hu2 => h4 u hu1 (by omega))
      have hnext : ht_GetFilledSlot ht (some j) =
          (match filledSlotLoop ht (d - (j - s) - 1) (j + 1) with
            | some index => (index, ht.keys index, ht.values index)
            | none => (0, 0, 0)) := by
        have e3 : (j + 1) % U64_MOD = j + 1 := Nat.mod_eq_of_lt (by omega)
        have e4 : ht.slot_count - (j + 1) = d - (j - s) - 1 := by omega
        simp only [ht_GetFilledSlot, e3, e4]
      have hrec := ih (d - (j - s) - 1) (by omega) (j + 1) f (by omega) (by omega)
      simp only [forEachLoop, ne_eq, h3, not_false_eq_true, if_true, hnext, hrec, Option.map_some']
      rw [hsplit, List.filter_append, hz, List.nil_append, List.filter_cons]
      simp [h3]
    · rw [h2]
      rw [filter_range'_all_zero ht s d h1]
      simp [forEachLoop]

/-- C8: for every table state (slot_count a `Size`), the `htForEach` traversal
returns, and the pairs it hands to the loop body are exactly
`(keys[i], values[i])` for the slots `i < slot_count` with `keys[i] != 0`,
each once, in increasing slot order. -/
theorem htForEach_yields_filled_slots (ht : Hash_Table) (hsc : ht.slot_count < U64_MOD) :
    htForEach ht =
      some (((List.range ht.slot_count).filter (fun i => ht.keys i ≠ 0)).map
        (fun i => (ht.keys i, ht.values i))) := by
  have h := forEachLoop_from ht hsc ht.slot_count 0 (ht.slot_count + 1) (by omega) (by omega)
  rw [List.range_eq_range']
  rw [← h]
  simp only [htForEach, ht_GetFilledSlot, Nat.sub_zero]

/-- C5: for every table state and key, `htInsert(ht, k, 0)` returns what
`htRemove(ht, k)` returns and leaves the very same table; the slot count,
the hash constants and the collision counter are those of the table before
the call, so no resize took place. -/
theorem htInsert_zero_value_is_htRemove (ht : Hash_Table) (k : Nat) :
    htInsert ht k 0 = some (htRemove ht k) ∧
    (htRemove ht k).2.slot_count = ht.slot_count ∧
    (htRemove ht k).2.univ = ht.univ ∧
    (htRemove ht k).2.collision_count = ht.collision_count := by
  by_cases hk : k = 0
  · subst hk
    simp [htInsert, htRemove]
  · refine ⟨by simp [htInsert, hk], ?_⟩
    rcases htRemove_cases ht k hk with ⟨t, _, _, _, _, h⟩ | ⟨_, h⟩
    · rw [h]; exact ⟨rfl, rfl, rfl⟩
    · rw [h]; exact ⟨rfl, rfl, rfl⟩

/-- C6: for every table state and every value `v`, `htInsert(ht, 0, v)`
returns 0 and leaves the table unchanged, `htRemove(ht, 0)` returns 0 and
leaves the table unchanged, and `htLookup(ht, 0)` is 0 (so key 0 is absent
from every table, whatever was done to it before). -/
theorem zero_key_is_never_present (ht : Hash_Table) (v : Nat) :
    htInsert ht 0 v = some (0, ht) ∧ htRemove ht 0 = (0, ht) ∧ htLookup ht 0 = 0 := by
  refine ⟨by simp [htInsert], by simp [htRemove], by simp [htLookup]⟩

theorem htLookup_of_keys_zero (ht : Hash_Table) (h : ∀ i, ht.keys i = 0) (k : Nat) :
    htLookup ht k = 0 := by
  by_cases hk : k = 0
  · subst hk; exact htLookup_zero_key ht
  · rcases htLookup_cases ht k hk with ⟨t, _, h1, _, _⟩ | ⟨_, h2⟩
    · rw [h] at h1; exact absurd h1.symm hk
    · exact h2

theorem ht_Create_of (n sc : Nat) (univ : Hash_Universal)
    (h1 : mNextPowerOf2U64 (mMax n 64) = some sc)
    (h2 : hashUniversalConstantsUpdate { a := 0, b := 0, m := mLog2U64 sc, r := 0 } = some univ) :
    ht_Create n =
      some { univ := univ, keys := zeroArray, values := zeroArray,
             slot_count := sc, slot_filled := 0, collision_count := 0 } := by
  unfold ht_Create
  rw [h1, Option.some_bind, h2, Option.some_bind]

theorem arraySet_same (a : Nat → Nat) (i v : Nat) : arraySet a i v i = v := by
  simp [arraySet]

theorem arraySet_other (a : Nat → Nat) (i v j : Nat) (h : j ≠ i) : arraySet a i v j = a j := by
  simp [arraySet, h]

theorem nonzeroCount_le (f : Nat → Nat) (n : Nat) : nonzeroCount f n ≤ n := by
  induction n with
  | zero => simp [nonzeroCount]
  | succ n ih => unfold nonzeroCount; split_ifs <;> omega

theorem nonzeroCount_zeroArray (n : Nat) : nonzeroCount zeroArray n = 0 := by
  induction n with
  | zero => rfl
  | succ n ih => simp [nonzeroCount, ih, zeroArray]

theorem nonzeroCount_set_ge (f : Nat → Nat) (i v n : Nat) (h : n ≤ i) :
    nonzeroCount (arraySet f i v) n = nonzeroCount f n := by
  induction n with
  | zero => rfl
  | succ n ih =>
    have e : arraySet f i v n = f n := arraySet_other f i v n (by omega)
    simp only [nonzeroCount, e, ih (by omega)]

theorem nonzeroCount_set_lt (f : Nat → Nat) (i v n : Nat) (h : i < n) :
    nonzeroCount (arraySet f i v) n + (if f i ≠ 0 then 1 else 0) =
      nonzeroCount f n + (if v ≠ 0 then 1 else 0) := by
  induction n with
  | zero => omega
  | succ n ih =>
    by_cases hin : i = n
    · subst hin
      simp only [nonzeroCount, arraySet_same, nonzeroCount_set_ge f i v i (le_refl _)]
      omega
    · have e : arraySet f i v n = f n := arraySet_other f i v n (fun h' => hin h'.symm)
      have := ih (by omega)
      simp only [nonzeroCount, e]
      omega

theorem nonzeroCount_set_le (f : Nat → Nat) (i v n : Nat) :
    nonzeroCount (arraySet f i v) n ≤ nonzeroCount f n + 1 := by
  by_cases h : i < n
  · have := nonzeroCount_set_lt f i v n h
    split_ifs at this <;> omega
  · rw [nonzeroCount_set_ge f i v n (by omega)]; omega

theorem exists_zero_of_nonzeroCount_lt (f : Nat → Nat) (n : Nat) (h : nonzeroCount f n < n) :
    ∃ i, i < n ∧ f i = 0 := by
  induction n with
  | zero => omega
  | succ n ih =>
    by_cases hz : f n = 0
    · exact ⟨n, by omega, hz⟩
    · simp only [nonzeroCount, hz, ne_eq, not_false_eq_true, if_true] at h
      obtain ⟨i, hi, hfi⟩ := ih (by omega)
      exact ⟨i, by omega, hfi⟩

theorem probeIndex_lt (ht : Hash_Table) (hash i : Nat) (h : 0 < ht.slot_count) :
    probeIndex ht hash i < ht.slot_count :=
  Nat.mod_lt _ h

theorem probeIndex_surj (ht : Hash_Table) (hash : Nat) (hpos : 0 < ht.slot_count)
    (hdvd : ht.slot_count ∣ U64_MOD) (j : Nat) (hj : j < ht.slot_count) :
    ∃ t, t < ht.slot_count ∧ probeIndex ht hash t = j := by
  have hh : hash % ht.slot_count < ht.slot_count := Nat.mod_lt _ hpos
  have key : ∀ t, probeIndex ht hash t = (hash % ht.slot_count + t) % ht.slot_count := by
    intro t
    unfold probeIndex
    rw [Nat.mod_mod_of_dvd _ hdvd]
    simp [Nat.add_mod]
  by_cases hc : hash % ht.slot_count ≤ j
  · refine ⟨j - hash % ht.slot_count, by omega, ?_⟩
    rw [key]
    have : hash % ht.slot_count + (j - hash % ht.slot_count) = j := by omega
    rw [this, Nat.mod_eq_of_lt hj]
  · refine ⟨j + ht.slot_count - hash % ht.slot_count, by omega, ?_⟩
    rw [key]
    have : hash % ht.slot_count + (j + ht.slot_count - hash % ht.slot_count) =
        j + ht.slot_count := by omega
    rw [this, Nat.add_mod_right, Nat.mod_eq_of_lt hj]

theorem insertionLoop_cases (hash key value fuel i : Nat) (ht : Hash_Table) :
    (insertionLoop hash key value fuel i ht).2.univ = ht.univ ∧
    (insertionLoop hash key value fuel i ht).2.slot_count = ht.slot_count ∧
    (insertionLoop hash key value fuel i ht).2.slot_filled = ht.slot_filled ∧
    ((∃ t, i ≤ t ∧ t < i + fuel ∧
        (ht.keys (probeIndex ht hash t) = key ∨ ht.values (probeIndex ht hash t) = 0) ∧
        (∀ u, i ≤ u → u < t →
          ht.keys (probeIndex ht hash u) ≠ key ∧ ht.values (probeIndex ht hash u) ≠ 0) ∧
        (insertionLoop hash key value fuel i ht).1 = ht.values (probeIndex ht hash t) ∧
        (insertionLoop hash key value fuel i ht).2.keys =
          arraySet ht.keys (probeIndex ht hash t) key ∧
        (insertionLoop hash key value fuel i ht).2.values =
          arraySet ht.values (probeIndex ht hash t) value) ∨
      ((∀ u, i ≤ u → u < i + fuel →
          ht.keys (probeIndex ht hash u) ≠ key ∧ ht.values (probeIndex ht hash u) ≠ 0) ∧
        (insertionLoop hash key value fuel i ht).1 = value ∧
        (insertionLoop hash key value fuel i ht).2.keys = ht.keys ∧
        (insertionLoop hash key value fuel i ht).2.values = ht.values)) := by
  induction fuel generalizing i ht with
  | zero =>
    refine ⟨rfl, rfl, rfl, Or.inr ⟨fun u h1 h2 => by omega, rfl, rfl, rfl⟩⟩
  | succ f ih =>
    by_cases hp : ht.keys (probeIndex ht hash i) = key ∨ ht.values (probeIndex ht hash i) = 0
    · have e : insertionLoop hash key value (f + 1) i ht =
          (ht.values (probeIndex ht hash i),
            { ht with keys := arraySet ht.keys (probeIndex ht hash i) key,
                      values := arraySet ht.values (probeIndex ht hash i) value }) := by
        simp only [insertionLoop, hp, if_true]
      rw [e]
      exact ⟨rfl, rfl, rfl, Or.inl ⟨i, le_refl _, by omega, hp, fun u h1 h2 => by omega,
        rfl, rfl, rfl⟩⟩
    · have e : insertionLoop hash key value (f + 1) i ht =
          insertionLoop hash key value f (i + 1)
            { ht with collision_count := (ht.collision_count + 1) % U64_MOD } := by
        simp only [insertionLoop, hp, if_false]
      rw [e]
      have hp' : ht.keys (probeIndex ht hash i) ≠ key ∧ ht.values (probeIndex ht hash i) ≠ 0 :=
        not_or.1 hp
      obtain ⟨h1, h2, h3, h4⟩ := ih (i + 1)
        { ht with collision_count := (ht.collision_count + 1) % U64_MOD }
      refine ⟨h1, h2, h3, ?_⟩
      rcases h4 with ⟨t, a1, a2, a3, a4, a5, a6, a7⟩ | ⟨b1, b2, b3, b4⟩
      · left
        refine ⟨t, by omega, by omega, a3, ?_, a5, a6, a7⟩
        intro u hu1 hu2
        by_cases hui : u = i
        · subst hui; exact hp'
        · exact a4 u (by omega) hu2
      · right
        refine ⟨?_, b2, b3, b4⟩
        intro u hu1 hu2
        by_cases hui : u = i
        · subst hui; exact hp'
        · exact b1 u (by omega) (by omega)

theorem ht_Resize_cases (ht ht1 : Hash_Table) (h : ht_Resize ht = some ht1) :
    ∃ g : Hash_Table,
      ((ht_GrowNeeded ht = false ∧ g = ht) ∨
        (ht_GrowNeeded ht = true ∧ (ht.univ.m + 1) % U64_MOD < 64 ∧
          ∃ univ, hashUniversalConstantsUpdate
              { ht.univ with m := (ht.univ.m + 1) % U64_MOD } = some univ ∧
            g = { ht with univ := univ, slot_count := 2 ^ ((ht.univ.m + 1) % U64_MOD) })) ∧
      ht1 = { rehashLoop ht.keys ht.values ht.slot_count 0
                { g with keys := zeroArray, values := zeroArray } with collision_count := 0 } := by
  unfold ht_Resize at h
  by_cases hg : ht_GrowNeeded ht = true
  · by_cases hm : (ht.univ.m + 1) % U64_MOD < 64
    · rcases Option.eq_none_or_eq_some
          (hashUniversalConstantsUpdate { ht.univ with m := (ht.univ.m + 1) % U64_MOD }) with
        hu | ⟨univ, hu⟩
      · simp only [hg, hm, hu, if_true] at h
        exact absurd h (by simp)
      · simp only [hg, hm, hu, if_true] at h
        refine ⟨_, Or.inr ⟨hg, hm, univ, hu, rfl⟩, ?_⟩
        exact (Option.some.inj h).symm
    · simp only [hg, hm, if_true, if_false] at h
      exact absurd h (by simp)
  · have hg' : ht_GrowNeeded ht = false := by simpa using hg
    simp only [hg', if_false] at h
    refine ⟨ht, Or.inl ⟨hg', rfl⟩, ?_⟩
    exact (Option.some.inj h).symm

theorem htInsert_cases (ht : Hash_Table) (k v r : Nat) (ht1 : Hash_Table)
    (hk : k ≠ 0) (hv : v ≠ 0) (h : htInsert ht k v = some (r, ht1)) :
    ∃ g : Hash_Table,
      ((ht_ResizeNeeded ht = false ∧ g = ht) ∨
        (ht_ResizeNeeded ht = true ∧ ht_Resize ht = some g)) ∧
      r = (ht_LinearProbeInsertion g (hashUniversal g.univ k) k v).1 ∧
      ht1 = (if r = 0 then
          { (ht_LinearProbeInsertion g (hashUniversal g.univ k) k v).2 with
            slot_filled :=
              ((ht_LinearProbeInsertion g (hashUniversal g.univ k) k v).2.slot_filled + 1)
                % U64_MOD }
        else (ht_LinearProbeInsertion g (hashUniversal g.univ k) k v).2) := by
  unfold htInsert at h
  simp only [hk, hv, if_false] at h
  have key : ∀ g : Hash_Table,
      (if (ht_LinearProbeInsertion g (hashUniversal g.univ k) k v).1 = 0 then
          some ((ht_LinearProbeInsertion g (hashUniversal g.univ k) k v).1,
            { (ht_LinearProbeInsertion g (hashUniversal g.univ k) k v).2 with
              slot_filled :=
                ((ht_LinearProbeInsertion g (hashUniversal g.univ k) k v).2.slot_filled + 1)
                  % U64_MOD })
        else some (ht_LinearProbeInsertion g (hashUniversal g.univ k) k v)) = some (r, ht1) →
      r = (ht_LinearProbeInsertion g (hashUniversal g.univ k) k v).1 ∧
      ht1 = (if r = 0 then
          { (ht_LinearProbeInsertion g (hashUniversal g.univ k) k v).2 with
            slot_filled :=
              ((ht_LinearProbeInsertion g (hashUniversal g.univ k) k v).2.slot_filled + 1)
                % U64_MOD }
        else (ht_LinearProbeInsertion g (hashUniversal g.univ k) k v).2) := by
    intro g hg
    split_ifs at hg with h0
    · have e := Option.some.inj hg
      have e1 : (ht_LinearProbeInsertion g (hashUniversal g.univ k) k v).1 = r :=
        congrArg Prod.fst e
      have e2 := congrArg Prod.snd e
      refine ⟨e1.symm, ?_⟩
      rw [if_pos (e1 ▸ h0)]
      exact e2.symm
    · have e := Option.some.inj hg
      have e1 : (ht_LinearProbeInsertion g (hashUniversal g.univ k) k v).1 = r :=
        congrArg Prod.fst e
      have e2 := congrArg Prod.snd e
      refine ⟨e1.symm, ?_⟩
      rw [if_neg (e1 ▸ h0)]
      exact e2.symm
  by_cases hr : ht_ResizeNeeded ht = true
  · rcases Option.eq_none_or_eq_some (ht_Resize ht) with hu | ⟨g, hu⟩
    · simp only [hr, hu, if_true] at h
      exact absurd h (by simp)
    · simp only [hr, hu, if_true] at h
      exact ⟨g, Or.inr ⟨hr, hu⟩, key g h⟩
  · have hr' : ht_ResizeNeeded ht = false := by simpa using hr
    simp only [hr', if_false] at h
    exact ⟨ht, Or.inl ⟨hr', rfl⟩, key ht h⟩

theorem hashUniversalConstantsUpdate_m (h u : Hash_Universal)
    (e : hashUniversalConstantsUpdate h = some u) : u.m = h.m := by
  unfold hashUniversalConstantsUpdate at e
  rcases Option.eq_none_or_eq_some (oddDrawLoop U64_MOD h.r) with hd | ⟨a, hd⟩
  · rw [hd] at e
    exact absurd e (by simp)
  · rw [hd] at e
    have := Option.some.inj e
    rw [← this]

theorem rehashLoop_props (keys values : Nat → Nat) (fuel i : Nat) (ht : Hash_Table) :
    (rehashLoop keys values fuel i ht).univ = ht.univ ∧
    (rehashLoop keys values fuel i ht).slot_count = ht.slot_count ∧
    (rehashLoop keys values fuel i ht).slot_filled = ht.slot_filled ∧
    nonzeroCount (rehashLoop keys values fuel i ht).values ht.slot_count + nonzeroCount values i ≤
      nonzeroCount ht.values ht.slot_count + nonzeroCount values (i + fuel) := by
  induction fuel generalizing i ht with
  | zero => exact ⟨rfl, rfl, rfl, le_refl _⟩
  | succ f ih =>
    by_cases hv : values i = 0
    · have e : rehashLoop keys values (f + 1) i ht = rehashLoop keys values f (i + 1) ht := by
        simp only [rehashLoop, hv, ne_eq, not_true_eq_false, if_false]
      rw [e]
      obtain ⟨h1, h2, h3, h4⟩ := ih (i + 1) ht
      refine ⟨h1, h2, h3, ?_⟩
      have e1 : nonzeroCount values (i + 1) = nonzeroCount values i := by
        simp [nonzeroCount, hv]
      have e2 : i + (f + 1) = i + 1 + f := by omega
      rw [e2]; omega
    · have e : rehashLoop keys values (f + 1) i ht =
          rehashLoop keys values f (i + 1)
            (ht_LinearProbeInsertion ht (hashUniversal ht.univ (keys i)) (keys i) (values i)).2 := by
        simp only [rehashLoop, hv, ne_eq, not_false_eq_true, if_true]
      rw [e]
      obtain ⟨c1, c2, c3, c4⟩ := insertionLoop_cases (hashUniversal ht.univ (keys i)) (keys i)
        (values i) ht.slot_count 0 ht
      obtain ⟨h1, h2, h3, h4⟩ := ih (i + 1)
        (ht_LinearProbeInsertion ht (hashUniversal ht.univ (keys i)) (keys i) (values i)).2
      have d1 : (ht_LinearProbeInsertion ht (hashUniversal ht.univ (keys i)) (keys i)
          (values i)).2.univ = ht.univ := c1
      have d2 : (ht_LinearProbeInsertion ht (hashUniversal ht.univ (keys i)) (keys i)
          (values i)).2.slot_count = ht.slot_count := c2
      have d3 : (ht_LinearProbeInsertion ht (hashUniversal ht.univ (keys i)) (keys i)
          (values i)).2.slot_filled = ht.slot_filled := c3
      have d4 : nonzeroCount (ht_LinearProbeInsertion ht (hashUniversal ht.univ (keys i)) (keys i)
          (values i)).2.values ht.slot_count ≤ nonzeroCount ht.values ht.slot_count + 1 := by
        rcases c4 with ⟨t, _, _, _, _, _, _, a7⟩ | ⟨_, _, _, b4⟩
        · show nonzeroCount (insertionLoop _ _ _ _ _ _).2.values _ ≤ _
          rw [a7]; exact nonzeroCount_set_le _ _ _ _
        · show nonzeroCount (insertionLoop _ _ _ _ _ _).2.values _ ≤ _
          rw [b4]; omega
      rw [d1] at h1; rw [d2] at h2 h4; rw [d3] at h3
      refine ⟨h1, h2, h3, ?_⟩
      have e1 : nonzeroCount values (i + 1) = nonzeroCount values i + 1 := by
        simp [nonzeroCount, hv]
      have e2 : i + (f + 1) = i + 1 + f := by omega
      rw [e2]; omega

theorem SizeInv.pos {ht : Hash_Table} (h : SizeInv ht) : 0 < ht.slot_count := by
  rw [h.count_eq]; exact Nat.two_pow_pos _

theorem SizeInv.dvd {ht : Hash_Table} (h : SizeInv ht) : ht.slot_count ∣ U64_MOD := by
  rw [h.count_eq]
  exact Nat.pow_dvd_pow 2 (Nat.le_of_lt h.m_hi)

theorem SizeInv.ge {ht : Hash_Table} (h : SizeInv ht) : 64 ≤ ht.slot_count := by
  rw [h.count_eq]
  have : 2 ^ 6 ≤ 2 ^ ht.univ.m := Nat.pow_le_pow_right (by decide) h.m_lo
  omega

theorem SizeInv.le {ht : Hash_Table} (h : SizeInv ht) : ht.slot_count ≤ 2 ^ 63 := by
  rw [h.count_eq]
  have h1 := h.m_hi
  exact Nat.pow_le_pow_right (by decide) (by omega)

theorem SizeInv.even {ht : Hash_Table} (h : SizeInv ht) : ht.slot_count % 2 = 0 := by
  rw [h.count_eq]
  obtain ⟨j, hj⟩ : ∃ j, ht.univ.m = j + 1 := ⟨ht.univ.m - 1, by have := h.m_lo; omega⟩
  rw [hj, pow_succ]; omega

theorem SizeInv.double_mod {ht : Hash_Table} (h : SizeInv ht) :
    (2 * ht.slot_filled) % U64_MOD = 2 * ht.slot_filled := by
  apply Nat.mod_eq_of_lt
  have h1 := h.load
  have h2 := h.le
  rw [U64_MOD_eq]; omega

theorem probeOf_congr (g h : Hash_Table) (k t : Nat) (hu : h.univ = g.univ)
    (hs : h.slot_count = g.slot_count) : probeOf h k t = probeOf g k t := by
  unfold probeOf probeIndex
  rw [hu, hs]

theorem htLookup_eq_of_first (ht : Hash_Table) (k : Nat) (hk : k ≠ 0) (t : Nat)
    (hlt : t < ht.slot_count) (hkey : ht.keys (probeOf ht k t) = k)
    (hfirst : ∀ u, u < t → ht.keys (probeOf ht k u) ≠ k) :
    htLookup ht k = ht.values (probeOf ht k t) := by
  rcases htLookup_cases ht k hk with ⟨t', h1, h2, h3, h4⟩ | ⟨h1, _⟩
  · have e : t' = t := by
      rcases Nat.lt_trichotomy t' t with hlt' | heq | hgt
      · exact absurd h2 (hfirst t' hlt')
      · exact heq
      · exact absurd hkey (h3 t hgt)
    rw [h4, e]
  · exact absurd hkey (h1 t hlt)

theorem htLookup_eq_zero_of_absent (ht : Hash_Table) (k : Nat)
    (h : ∀ t, t < ht.slot_count → ht.keys (probeOf ht k t) ≠ k) : htLookup ht k = 0 := by
  by_cases hk : k = 0
  · subst hk; exact htLookup_zero_key ht
  · rcases htLookup_cases ht k hk with ⟨t', h1, h2, _, _⟩ | ⟨_, h2⟩
    · exact absurd h2 (h t' h1)
    · exact h2

theorem ht_LinearProbeInsertion_room (g : Hash_Table) (hash key value : Nat)
    (hpos : 0 < g.slot_count) (hdvd : g.slot_count ∣ U64_MOD)
    (hroom : nonzeroCount g.values g.slot_count < g.slot_count) :
    (ht_LinearProbeInsertion g hash key value).2.univ = g.univ ∧
    (ht_LinearProbeInsertion g hash key value).2.slot_count = g.slot_count ∧
    (ht_LinearProbeInsertion g hash key value).2.slot_filled = g.slot_filled ∧
    ∃ t, t < g.slot_count ∧
      (g.keys (probeIndex g hash t) = key ∨ g.values (probeIndex g hash t) = 0) ∧
      (∀ u, u < t → g.keys (probeIndex g hash u) ≠ key ∧ g.values (probeIndex g hash u) ≠ 0) ∧
      (ht_LinearProbeInsertion g hash key value).1 = g.values (probeIndex g hash t) ∧
      (ht_LinearProbeInsertion g hash key value).2.keys =
        arraySet g.keys (probeIndex g hash t) key ∧
      (ht_LinearProbeInsertion g hash key value).2.values =
        arraySet g.values (probeIndex g hash t) value := by
  obtain ⟨c1, c2, c3, c4⟩ := insertionLoop_cases hash key value g.slot_count 0 g
  refine ⟨c1, c2, c3, ?_⟩
  rcases c4 with ⟨t, _, a2, a3, a4, a5, a6, a7⟩ | ⟨b1, _, _, _⟩
  · exact ⟨t, by omega, a3, fun u hu => a4 u (Nat.zero_le _) hu, a5, a6, a7⟩
  · obtain ⟨j, hj, hz⟩ := exists_zero_of_nonzeroCount_lt _ _ hroom
    obtain ⟨t, ht1, ht2⟩ := probeIndex_surj g hash hpos hdvd j hj
    have := (b1 t (Nat.zero_le _) (by omega)).2
    rw [ht2] at this
    exact absurd hz this

theorem htLookup_after_insertion (g : Hash_Table) (k v : Nat) (hk : k ≠ 0)
    (hpos : 0 < g.slot_count) (hdvd : g.slot_count ∣ U64_MOD)
    (hroom : nonzeroCount g.values g.slot_count < g.slot_count)
    (ht1 : Hash_Table) (hu : ht1.univ = g.univ) (hs : ht1.slot_count = g.slot_count)
    (hkeys : ht1.keys = (ht_LinearProbeInsertion g (hashUniversal g.univ k) k v).2.keys)
    (hvals : ht1.values = (ht_LinearProbeInsertion g (hashUniversal g.univ k) k v).2.values) :
    htLookup ht1 k = v := by
  obtain ⟨_, _, _, t, h1, _, h3, _, h5, h6⟩ :=
    ht_LinearProbeInsertion_room g (hashUniversal g.univ k) k v hpos hdvd hroom
  rw [h5] at hkeys
  rw [h6] at hvals
  have hp : ∀ u, probeOf ht1 k u = probeIndex g (hashUniversal g.univ k) u :=
    fun u => probeOf_congr g ht1 k u hu hs
  have e := htLookup_eq_of_first ht1 k hk t (by omega)
    (by rw [hp, hkeys, arraySet_same])
    (by
      intro u hu'
      rw [hp, hkeys]
      unfold arraySet
      split_ifs with hc
      · have := (h3 u hu').2
        have h3' := h3 u hu'
        rw [hc] at h3'
        intro _
        rcases ‹g.keys _ = k ∨ g.values _ = 0› with hx | hx
        · exact h3'.1 hx
        · exact h3'.2 hx
      · exact (h3 u hu').1)
  rw [e, hp, hvals, arraySet_same]

theorem ht_GrowNeeded_false_iff {ht : Hash_Table} (hi : SizeInv ht) :
    ht_GrowNeeded ht = false ↔ 2 * ht.slot_filled < ht.slot_count := by
  unfold ht_GrowNeeded
  rw [hi.double_mod]
  simp

theorem SizeInv_of_rehash (keys values : Nat → Nat) (sc0 : Nat) (g0 : Hash_Table)
    (h1 : 6 ≤ g0.univ.m) (h2 : g0.univ.m < 64) (h3 : g0.slot_count = 2 ^ g0.univ.m)
    (h4 : nonzeroCount values sc0 ≤ g0.slot_filled)
    (h5 : 2 * g0.slot_filled < g0.slot_count) :
    SizeInv { rehashLoop keys values sc0 0 { g0 with keys := zeroArray, values := zeroArray }
              with collision_count := 0 } ∧
    2 * (rehashLoop keys values sc0 0
      { g0 with keys := zeroArray, values := zeroArray }).slot_filled <
      (rehashLoop keys values sc0 0
        { g0 with keys := zeroArray, values := zeroArray }).slot_count := by
  obtain ⟨p1, p2, p3, p4⟩ := rehashLoop_props keys values sc0 0
    { g0 with keys := zeroArray, values := zeroArray }
  simp only [nonzeroCount_zeroArray, nonzeroCount, Nat.zero_add, Nat.add_zero] at p1 p2 p3 p4
  refine ⟨⟨?_, ?_, ?_, ?_, ?_⟩, ?_⟩
  · simp only [p1]; exact h1
  · simp only [p1]; exact h2
  · simp only [p1, p2]; exact h3
  · simp only [p2, p3]; omega
  · simp only [p2, p3]; omega
  · simp only [p2, p3]; omega

theorem SizeInv_of_resize (ht g : Hash_Table) (hi : SizeInv ht) (h : ht_Resize ht = some g) :
    SizeInv g ∧ 2 * g.slot_filled < g.slot_count := by
  obtain ⟨g0, hg0, rfl⟩ := ht_Resize_cases ht g h
  have hfl := hi.filled_le
  rcases hg0 with ⟨hgn, rfl⟩ | ⟨hgn, hm, univ, hu, rfl⟩
  · exact SizeInv_of_rehash g0.keys g0.values g0.slot_count g0 hi.m_lo hi.m_hi hi.count_eq hfl
      ((ht_GrowNeeded_false_iff hi).1 hgn)
  · have hmi := hi.m_hi
    have hml := hi.m_lo
    have em : (ht.univ.m + 1) % U64_MOD = ht.univ.m + 1 :=
      Nat.mod_eq_of_lt (by rw [U64_MOD_eq]; omega)
    have hum : univ.m = ht.univ.m + 1 := by
      have := hashUniversalConstantsUpdate_m _ _ hu
      rw [this]; exact em
    rw [em] at hm
    simp only [em]
    have hsc : (2 : Nat) ^ (ht.univ.m + 1) = 2 * ht.slot_count := by
      rw [hi.count_eq, pow_succ]; omega
    have hload := hi.load
    have hpos := hi.pos
    exact SizeInv_of_rehash ht.keys ht.values ht.slot_count
      { ht with univ := univ, slot_count := 2 ^ (ht.univ.m + 1) }
      (by show 6 ≤ univ.m; omega) (by show univ.m < 64; omega)
      (by show 2 ^ (ht.univ.m + 1) = 2 ^ univ.m; rw [hum]) hfl
      (by show 2 * ht.slot_filled < 2 ^ (ht.univ.m + 1); omega)

theorem SizeInv_before_insertion (ht g : Hash_Table) (hi : SizeInv ht)
    (h : (ht_ResizeNeeded ht = false ∧ g = ht) ∨
      (ht_ResizeNeeded ht = true ∧ ht_Resize ht = some g)) :
    SizeInv g ∧ 2 * g.slot_filled < g.slot_count := by
  rcases h with ⟨h1, rfl⟩ | ⟨_, h2⟩
  · refine ⟨hi, ?_⟩
    unfold ht_ResizeNeeded at h1
    rw [hi.double_mod] at h1
    simp at h1
    exact h1.2
  · exact SizeInv_of_resize ht g hi h2

theorem SizeInv_of_htInsert (ht : Hash_Table) (k v r : Nat) (ht1 : Hash_Table)
    (hi : SizeInv ht) (h : htInsert ht k v = some (r, ht1)) (hk : k ≠ 0) (hv : v ≠ 0) :
    SizeInv ht1 := by
  obtain ⟨g, hg, hr, rfl⟩ := htInsert_cases ht k v r ht1 hk hv h
  obtain ⟨gi, gl⟩ := SizeInv_before_insertion ht g hi hg
  have hroom : nonzeroCount g.values g.slot_count < g.slot_count := by
    have := gi.filled_le; omega
  obtain ⟨q1, q2, q3, t, _, hx, _, q5, _, q7⟩ :=
    ht_LinearProbeInsertion_room g (hashUniversal g.univ k) k v gi.pos gi.dvd hroom
  have hcount := nonzeroCount_set_lt g.values (probeIndex g (hashUniversal g.univ k) t) v
    g.slot_count (probeIndex_lt g _ t gi.pos)
  rw [← q7, ← q5, ← hr] at hcount
  simp only [hv, ne_eq, not_false_eq_true, if_true] at hcount
  have hfl := gi.filled_le
  have heven := gi.even
  have hle := gi.le
  by_cases h0 : r = 0
  · simp only [h0, if_true, ne_eq, not_true_eq_false, if_false, Nat.add_zero] at hcount ⊢
    have emod : (g.slot_filled + 1) % U64_MOD = g.slot_filled + 1 :=
      Nat.mod_eq_of_lt (by rw [U64_MOD_eq]; omega)
    refine ⟨?_, ?_, ?_, ?_, ?_⟩
    · simp only [q1]; exact gi.m_lo
    · simp only [q1]; exact gi.m_hi
    · simp only [q1, q2]; exact gi.count_eq
    · simp only [q2, q3, emod]; omega
    · simp only [q2, q3, emod]; omega
  · simp only [h0, if_false, ne_eq, not_false_eq_true, if_true] at hcount ⊢
    refine ⟨?_, ?_, ?_, ?_, ?_⟩
    · rw [q1]; exact gi.m_lo
    · rw [q1]; exact gi.m_hi
    · rw [q1, q2]; exact gi.count_eq
    · rw [q2, q3]; omega
    · rw [q2, q3]; omega

theorem SizeInv_of_htRemove (ht : Hash_Table) (k : Nat) (hi : SizeInv ht) :
    SizeInv (htRemove ht k).2 := by
  by_cases hk : k = 0
  · subst hk
    have : htRemove ht 0 = (0, ht) := by simp [htRemove]
    rw [this]; exact hi
  · rcases htRemove_cases ht k hk with ⟨t, ht1, _, _, hv, e⟩ | ⟨_, e⟩
    · rw [e]
      have hcount := nonzeroCount_set_lt ht.values (probeOf ht k t) 0 ht.slot_count
        (probeIndex_lt ht _ t hi.pos)
      simp only [hv, ne_eq, not_false_eq_true, if_true, not_true_eq_false, if_false,
        Nat.add_zero] at hcount
      have hfl := hi.filled_le
      have hld := hi.load
      have hle := hi.le
      have emod : (ht.slot_filled + U64_MOD - 1) % U64_MOD = ht.slot_filled - 1 := by
        have : ht.slot_filled + U64_MOD - 1 = (ht.slot_filled - 1) + U64_MOD := by omega
        rw [this, Nat.add_mod_right, Nat.mod_eq_of_lt (by rw [U64_MOD_eq]; omega)]
      refine ⟨hi.m_lo, hi.m_hi, hi.count_eq, ?_, ?_⟩
      · show nonzeroCount (arraySet ht.values (probeOf ht k t) 0) ht.slot_count ≤
          (ht.slot_filled + U64_MOD - 1) % U64_MOD
        rw [emod]; omega
      · show 2 * ((ht.slot_filled + U64_MOD - 1) % U64_MOD) ≤ ht.slot_count
        rw [emod]; omega
    · rw [e]; exact hi

theorem SizeInv_of_htInsert_any (ht : Hash_Table) (k v r : Nat) (ht1 : Hash_Table)
    (hi : SizeInv ht) (h : htInsert ht k v = some (r, ht1)) : SizeInv ht1 := by
  by_cases hk : k = 0
  · subst hk
    have e : htInsert ht 0 v = some (0, ht) := by simp [htInsert]
    rw [e] at h
    have e2 : ht = ht1 := congrArg Prod.snd (Option.some.inj h)
    rw [← e2]; exact hi
  · by_cases hv : v = 0
    · subst hv
      have e : htInsert ht k 0 = some (htRemove ht k) := by simp [htInsert, hk]
      rw [e] at h
      have e2 : (htRemove ht k).2 = ht1 := congrArg Prod.snd (Option.some.inj h)
      rw [← e2]; exact SizeInv_of_htRemove ht k hi
    · exact SizeInv_of_htInsert ht k v r ht1 hi h hk hv

theorem mNextPowerOf2U64_some (x sc : Nat) (hlo : 64 ≤ x) (hlt : x < U64_MOD)
    (h : mNextPowerOf2U64 x = some sc) : ∃ j, 6 ≤ j ∧ j < 64 ∧ sc = 2 ^ j := by
  unfold mNextPowerOf2U64 at h
  by_cases hp : mIsPowerOf2U64 x = true
  · simp only [hp, if_true] at h
    have hx := Option.some.inj h
    obtain ⟨j, hj⟩ := (mIsPowerOf2U64_iff x (by omega) hlt).1 hp
    refine ⟨j, ?_, ?_, by rw [← hx, hj]⟩
    · have : 2 ^ 6 ≤ 2 ^ j := by rw [← hj]; omega
      exact (Nat.pow_le_pow_iff_right (by decide)).1 this
    · have : 2 ^ j < 2 ^ 64 := by rw [← hj]; exact hlt
      exact (Nat.pow_lt_pow_iff_right (by decide)).1 this
  · have hp' : mIsPowerOf2U64 x = false := by simpa using hp
    simp only [hp', Bool.false_eq_true, if_false] at h
    split_ifs at h with hl
    have hx := Option.some.inj h
    have hb := mLog2U64_bounds x (by omega) hlt
    refine ⟨mLog2U64 x + 1, ?_, hl, hx.symm⟩
    have : 2 ^ 6 < 2 ^ (mLog2U64 x + 1) := by omega
    have := (Nat.pow_lt_pow_iff_right (by decide)).1 this
    omega

theorem SizeInv_of_ht_Create (n : Nat) (ht : Hash_Table) (hn : n < U64_MOD)
    (h : ht_Create n = some ht) : SizeInv ht := by
  unfold ht_Create at h
  rw [Option.bind_eq_some] at h
  obtain ⟨sc, h1, h2⟩ := h
  rw [Option.bind_eq_some] at h2
  obtain ⟨univ, h3, h4⟩ := h2
  have hmax : 64 ≤ mMax n 64 ∧ mMax n 64 < U64_MOD := by
    unfold mMax
    rw [U64_MOD_eq] at *
    split_ifs <;> omega
  obtain ⟨j, j1, j2, rfl⟩ := mNextPowerOf2U64_some _ _ hmax.1 hmax.2 h1
  have hm := hashUniversalConstantsUpdate_m _ _ h3
  have hm' : univ.m = j := by rw [hm]; exact mLog2U64_two_pow j j2
  have e := Option.some.inj h4
  rw [← e]
  refine ⟨?_, ?_, ?_, ?_, ?_⟩
  · show 6 ≤ univ.m; omega
  · show univ.m < 64; omega
  · show 2 ^ j = 2 ^ univ.m; rw [hm']
  · show nonzeroCount zeroArray (2 ^ j) ≤ 0
    rw [nonzeroCount_zeroArray]
  · show 2 * 0 ≤ 2 ^ j
    exact Nat.zero_le _

theorem Reachable.sizeInv {ht : Hash_Table} (h : Reachable ht) : SizeInv ht := by
  induction h with
  | create n ht hn hc => exact SizeInv_of_ht_Create n ht hn hc
  | insert ht k v r ht1 _ _ _ hins ih => exact SizeInv_of_htInsert_any ht k v r ht1 ih hins
  | remove ht k _ _ ih => exact SizeInv_of_htRemove ht k ih

theorem ht_Resize_isSome_iff (ht : Hash_Table) :
    (ht_Resize ht).isSome ↔
      (ht_GrowNeeded ht = false ∨
        ((ht.univ.m + 1) % U64_MOD < 64 ∧
          (hashUniversalConstantsUpdate
            { ht.univ with m := (ht.univ.m + 1) % U64_MOD }).isSome)) := by
  unfold ht_Resize
  by_cases hg : ht_GrowNeeded ht = true
  · by_cases hm : (ht.univ.m + 1) % U64_MOD < 64
    · rcases Option.eq_none_or_eq_some
          (hashUniversalConstantsUpdate { ht.univ with m := (ht.univ.m + 1) % U64_MOD }) with
        hu | ⟨univ, hu⟩
      · simp [hg, hm, hu]
      · simp [hg, hm, hu]
    · simp [hg, hm]
  · have hg' : ht_GrowNeeded ht = false := by simpa using hg
    simp [hg']

theorem htInsert_isSome_iff (ht : Hash_Table) (k v : Nat) (hk : k ≠ 0) (hv : v ≠ 0) :
    (htInsert ht k v).isSome ↔
      (ht_GrowNeeded ht = false ∨
        ((ht.univ.m + 1) % U64_MOD < 64 ∧
          (hashUniversalConstantsUpdate
            { ht.univ with m := (ht.univ.m + 1) % U64_MOD }).isSome)) := by
  rw [← ht_Resize_isSome_iff]
  unfold htInsert
  simp only [hk, hv, if_false]
  by_cases hr : ht_ResizeNeeded ht = true
  · rcases Option.eq_none_or_eq_some (ht_Resize ht) with hu | ⟨g, hu⟩
    · simp [hr, hu]
    · simp only [hr, hu, if_true, Option.isSome_some, iff_true]
      split_ifs <;> rfl
  · have hr' : ht_ResizeNeeded ht = false := by simpa using hr
    have hg : ht_GrowNeeded ht = false := by
      unfold ht_ResizeNeeded at hr'
      unfold ht_GrowNeeded
      simp only [Bool.or_eq_false_iff] at hr'
      exact hr'.2
    have hs : (ht_Resize ht).isSome := (ht_Resize_isSome_iff ht).2 (Or.inl hg)
    simp only [hr', Bool.false_eq_true, if_false, hs, iff_true]
    split_ifs <;> rfl

theorem ht_Create_zero : ht_Create 0 = some freshTable := by
  have h1 : mNextPowerOf2U64 (mMax 0 64) = some 64 := by decide
  have h2 : hashUniversalConstantsUpdate { a := 0, b := 0, m := mLog2U64 64, r := 0 } =
      some { a := 115924262728944859, b := 81386236524435693, m := 6,
             r := 4116611502648400109 } := by decide
  exact ht_Create_of 0 64 _ h1 h2

theorem freshTable_reachable : Reachable freshTable :=
  Reachable.create 0 freshTable (by decide) ht_Create_zero

theorem probeOf_lt (ht : Hash_Table) (k t : Nat) (h : 0 < ht.slot_count) :
    probeOf ht k t < ht.slot_count :=
  probeIndex_lt ht _ t h

theorem htLookup_congr (g h : Hash_Table) (k : Nat) (hu : h.univ = g.univ)
    (hs : h.slot_count = g.slot_count) (hkeys : h.keys = g.keys) (hvals : h.values = g.values) :
    htLookup h k = htLookup g k := by
  by_cases hk : k = 0
  · subst hk; rw [htLookup_zero_key, htLookup_zero_key]
  · have hp : ∀ u, probeOf h k u = probeOf g k u := fun u => probeOf_congr g h k u hu hs
    rcases htLookup_cases g k hk with ⟨t, h1, h2, h3, h4⟩ | ⟨h1, h2⟩
    · rw [h4, htLookup_eq_of_first h k hk t (by omega) (by rw [hp, hkeys]; exact h2)
        (by intro u hu'; rw [hp, hkeys]; exact h3 u hu'), hp, hvals]
    · rw [h2]
      apply htLookup_eq_zero_of_absent
      intro t ht'
      rw [hp, hkeys]
      exact h1 t (by omega)

theorem Canonical_congr (g h : Hash_Table) (hu : h.univ = g.univ)
    (hs : h.slot_count = g.slot_count) (hkeys : h.keys = g.keys) (hvals : h.values = g.values)
    (hc : Canonical g) : Canonical h := by
  intro j hj
  have hp : ∀ x u, probeOf h x u = probeOf g x u := fun x u => probeOf_congr g h x u hu hs
  rw [hs] at hj
  obtain ⟨c1, c2⟩ := hc j hj
  rw [hkeys, hvals, hs]
  refine ⟨c1, ?_⟩
  intro hne
  obtain ⟨t, t1, t2, t3⟩ := c2 hne
  refine ⟨t, t1, by rw [hp]; exact t2, ?_⟩
  intro u hu'
  rw [hp]
  exact t3 u hu'

/-- In a canonical table the lookup of a stored key is the value next to it. -/
theorem Canonical.lookup_stored {ht : Hash_Table} (hc : Canonical ht) (j : Nat)
    (hj : j < ht.slot_count) (hne : ht.keys j ≠ 0) : htLookup ht (ht.keys j) = ht.values j := by
  obtain ⟨t, t1, t2, t3⟩ := (hc j hj).2 hne
  rw [htLookup_eq_of_first ht (ht.keys j) hne t t1 (by rw [t2])
    (fun u hu => (t3 u hu).2), t2]

theorem htLookup_absent (ht : Hash_Table) (k : Nat) (hpos : 0 < ht.slot_count)
    (h : ∀ j, j < ht.slot_count → ht.keys j ≠ k) : htLookup ht k = 0 :=
  htLookup_eq_zero_of_absent ht k (fun t _ => h _ (probeOf_lt ht k t hpos))

/-- In a canonical table the first usable slot of the probe sequence of `k`
is the only slot that can hold `k`. -/
theorem Canonical.stored_at_first {ht : Hash_Table} (hc : Canonical ht) (k t : Nat)
    (hk : k ≠ 0)
    (huse : ht.keys (probeOf ht k t) = k ∨ ht.values (probeOf ht k t) = 0)
    (hfirst : ∀ u, u < t → ht.keys (probeOf ht k u) ≠ k ∧ ht.values (probeOf ht k u) ≠ 0)
    (j : Nat) (hj : j < ht.slot_count) (hkj : ht.keys j = k) : j = probeOf ht k t := by
  have hne : ht.keys j ≠ 0 := by rw [hkj]; exact hk
  obtain ⟨tj, t1, t2, t3⟩ := (hc j hj).2 hne
  rw [hkj] at t2 t3
  rcases Nat.lt_trichotomy tj t with hlt | heq | hgt
  · have := (hfirst tj hlt).1
    rw [t2] at this
    exact absurd hkj this
  · rw [← heq, t2]
  · have := t3 t hgt
    rcases huse with hx | hx
    · exact absurd hx this.2
    · exact absurd hx this.1

theorem Canonical_insertion (g : Hash_Table) (k v : Nat) (hk : k ≠ 0) (hv : v ≠ 0)
    (hc : Canonical g) (hpos : 0 < g.slot_count) (hdvd : g.slot_count ∣ U64_MOD)
    (hroom : nonzeroCount g.values g.slot_count < g.slot_count)
    (h1 : Hash_Table) (hu : h1.univ = g.univ) (hs : h1.slot_count = g.slot_count)
    (hkeys : h1.keys = (ht_LinearProbeInsertion g (hashUniversal g.univ k) k v).2.keys)
    (hvals : h1.values = (ht_LinearProbeInsertion g (hashUniversal g.univ k) k v).2.values) :
    Canonical h1 ∧
    (∀ k', k' ≠ k → htLookup h1 k' = htLookup g k') ∧
    (ht_LinearProbeInsertion g (hashUniversal g.univ k) k v).1 = htLookup g k ∧
    ∃ idx, idx < g.slot_count ∧ h1.keys = arraySet g.keys idx k ∧
      h1.values = arraySet g.values idx v ∧ (g.keys idx = k ∨ g.values idx = 0) ∧
      ∀ j, j < g.slot_count → g.keys j = k → j = idx := by
  obtain ⟨_, _, _, t, t1, t2, t3, t4, t5, t6⟩ :=
    ht_LinearProbeInsertion_room g (hashUniversal g.univ k) k v hpos hdvd hroom
  rw [t5] at hkeys
  rw [t6] at hvals
  have hidx : probeIndex g (hashUniversal g.univ k) t = probeOf g k t := rfl
  have t3' : ∀ u, u < t → g.keys (probeOf g k u) ≠ k ∧ g.values (probeOf g k u) ≠ 0 := t3
  rw [hidx] at t2 t4 hkeys hvals
  have huniq : ∀ j, j < g.slot_count → g.keys j = k → j = probeOf g k t :=
    fun j hj hkj => hc.stored_at_first k t hk t2 t3' j hj hkj
  have hidx_lt : probeOf g k t < g.slot_count := probeOf_lt g k t hpos
  have hp : ∀ x u, probeOf h1 x u = probeOf g x u := fun x u => probeOf_congr g h1 x u hu hs
  -- the new table is canonical
  have hcan : Canonical h1 := by
    intro j hj
    rw [hs] at hj
    obtain ⟨c1, c2⟩ := hc j hj
    by_cases hji : j = probeOf g k t
    · subst hji
      rw [hkeys, hvals, arraySet_same, arraySet_same]
      refine ⟨by simp [hk, hv], fun _ => ⟨t, by omega, by rw [hp], ?_⟩⟩
      intro u hu'
      rw [hp]
      have hne : probeOf g k u ≠ probeOf g k t := by
        intro e
        have := t3' u hu'
        rw [e] at this
        rcases t2 with hx | hx
        · exact this.1 hx
        · exact this.2 hx
      rw [arraySet_other _ _ _ _ hne, arraySet_other _ _ _ _ hne]
      exact ⟨(t3' u hu').2, (t3' u hu').1⟩
    · rw [hkeys, hvals, arraySet_other _ _ _ _ hji, arraySet_other _ _ _ _ hji]
      refine ⟨c1, ?_⟩
      intro hne
      have hxk : g.keys j ≠ k := fun e => hji (huniq j hj e)
      obtain ⟨tj, s1, s2, s3⟩ := c2 hne
      refine ⟨tj, by omega, by rw [hp]; exact s2, ?_⟩
      intro u hu'
      rw [hp]
      by_cases hui : probeOf g (g.keys j) u = probeOf g k t
      · rw [hui, arraySet_same, arraySet_same]
        exact ⟨hv, fun e => hxk e.symm⟩
      · rw [arraySet_other _ _ _ _ hui, arraySet_other _ _ _ _ hui]
        exact s3 u hu'
  refine ⟨hcan, ?_, ?_, probeOf g k t, hidx_lt, hkeys, hvals, t2, huniq⟩
  · -- other keys keep their lookup
    intro k' hk'
    by_cases hk0 : k' = 0
    · subst hk0; rw [htLookup_zero_key, htLookup_zero_key]
    · by_cases hex : ∃ j, j < g.slot_count ∧ g.keys j = k'
      · obtain ⟨j, hj, hkj⟩ := hex
        have hji : j ≠ probeOf g k t := by
          intro e
          rw [e] at hkj
          rcases t2 with hx | hx
          · exact hk' (hkj.symm.trans hx)
          · have := ((hc _ hidx_lt).1).2 hx
            exact hk0 (hkj.symm.trans this)
        have e1 := hc.lookup_stored j hj (by rw [hkj]; exact hk0)
        have hkj' : h1.keys j = k' := by rw [hkeys, arraySet_other _ _ _ _ hji]; exact hkj
        have e2 := hcan.lookup_stored j (by rw [hs]; exact hj) (by rw [hkj']; exact hk0)
        rw [hkj] at e1
        rw [hkj'] at e2
        rw [e1, e2, hvals, arraySet_other _ _ _ _ hji]
      · have hab : ∀ j, j < g.slot_count → g.keys j ≠ k' := fun j hj e => hex ⟨j, hj, e⟩
        rw [htLookup_absent g k' hpos hab]
        apply htLookup_absent h1 k' (by rw [hs]; exact hpos)
        intro j hj
        rw [hs] at hj
        rw [hkeys]
        unfold arraySet
        split_ifs
        · exact fun e => hk' e.symm
        · exact hab j hj
  · -- the returned value is the previous lookup
    rw [t4]
    rcases t2 with hx | hx
    · have := hc.lookup_stored _ hidx_lt (by rw [hx]; exact hk)
      rw [hx] at this
      exact this.symm
    · rw [hx]
      symm
      apply htLookup_absent g k hpos
      intro j hj e
      have := huniq j hj e
      rw [this] at e
      have h0 := ((hc _ hidx_lt).1).2 hx
      exact hk (e.symm.trans h0)

theorem nonzeroCount_mono (f : Nat → Nat) (n m : Nat) (h : n ≤ m) :
    nonzeroCount f n ≤ nonzeroCount f m := by
  induction m with
  | zero =>
    have : n = 0 := by omega
    subst this; exact le_refl _
  | succ m ih =>
    by_cases hn : n = m + 1
    · subst hn; exact le_refl _
    · have := ih (by omega)
      have e : nonzeroCount f (m + 1) = nonzeroCount f m + (if f m ≠ 0 then 1 else 0) := rfl
      rw [e]
      omega

theorem Canonical.distinct {ht : Hash_Table} (hc : Canonical ht) (i j : Nat)
    (hi : i < ht.slot_count) (hj : j < ht.slot_count) (hne : ht.keys i ≠ 0)
    (he : ht.keys i = ht.keys j) : i = j := by
  obtain ⟨t, t1, t2, t3⟩ := (hc i hi).2 hne
  have h1 := hc.stored_at_first (ht.keys i) t hne (Or.inl (by rw [t2]))
    (fun u hu => ⟨(t3 u hu).2, (t3 u hu).1⟩) j hj he.symm
  rw [h1, t2]

theorem rehashLoop_inv (keys0 values0 : Nat → Nat) (sc0 : Nat)
    (hK : ∀ j, j < sc0 → (keys0 j = 0 ↔ values0 j = 0))
    (hD : ∀ i j, i < sc0 → j < sc0 → keys0 i ≠ 0 → keys0 i = keys0 j → i = j)
    (fuel : Nat) :
    ∀ i g, i + fuel = sc0 → RehashInv keys0 values0 sc0 i g →
      RehashInv keys0 values0 sc0 sc0 (rehashLoop keys0 values0 fuel i g) := by
  induction fuel with
  | zero =>
    intro i g hi hinv
    have : i = sc0 := by omega
    subst this
    exact hinv
  | succ f ih =>
    intro i g hi hinv
    have hisc : i < sc0 := by omega
    by_cases hv : values0 i = 0
    · have e : rehashLoop keys0 values0 (f + 1) i g = rehashLoop keys0 values0 f (i + 1) g := by
        simp only [rehashLoop, hv, ne_eq, not_true_eq_false, if_false]
      rw [e]
      apply ih (i + 1) g (by omega)
      have hk0 : keys0 i = 0 := (hK i hisc).2 hv
      refine ⟨hinv.pos, hinv.dvd, hinv.canon, ?_, ?_, ?_, hinv.room⟩
      · intro j hj hne
        obtain ⟨j0, a1, a2, a3, a4⟩ := hinv.from_old j hj hne
        exact ⟨j0, by omega, a2, a3, a4⟩
      · intro j0 h1 h2 hne
        have : j0 ≠ i := fun e => hne (e ▸ hk0)
        exact hinv.to_new j0 (by omega) h2 hne
      · have := hinv.count_le
        have e1 : nonzeroCount values0 (i + 1) = nonzeroCount values0 i := by
          simp [nonzeroCount, hv]
        omega
    · have e : rehashLoop keys0 values0 (f + 1) i g =
          rehashLoop keys0 values0 f (i + 1)
            (ht_LinearProbeInsertion g (hashUniversal g.univ (keys0 i)) (keys0 i)
              (values0 i)).2 := by
        simp only [rehashLoop, hv, ne_eq, not_false_eq_true, if_true]
      rw [e]
      apply ih (i + 1) _ (by omega)
      have hk : keys0 i ≠ 0 := fun h0 => hv ((hK i hisc).1 h0)
      have hroom : nonzeroCount g.values g.slot_count < g.slot_count := by
        have h1 := hinv.count_le
        have h2 := nonzeroCount_mono values0 i sc0 (by omega)
        have h3 := hinv.room
        omega
      obtain ⟨q1, q2, _, _⟩ := ht_LinearProbeInsertion_room g (hashUniversal g.univ (keys0 i))
        (keys0 i) (values0 i) hinv.pos hinv.dvd hroom
      obtain ⟨c1, _, _, idx, d1, d2, d3, d4, d5⟩ := Canonical_insertion g (keys0 i) (values0 i)
        hk hv hinv.canon hinv.pos hinv.dvd hroom _ q1 q2 rfl rfl
      have hfresh : ∀ j, j < g.slot_count → g.keys j ≠ 0 → j ≠ idx := by
        intro j hj hne e
        subst e
        rcases d4 with hx | hx
        · obtain ⟨j0, a1, a2, a3, _⟩ := hinv.from_old j hj hne
          have := hD j0 i a2 hisc (by rw [a3]; exact hne) (by rw [a3, hx])
          omega
        · exact hne (((hinv.canon j hj).1).2 hx)
      refine ⟨by rw [q2]; exact hinv.pos, by rw [q2]; exact hinv.dvd, c1, ?_, ?_, ?_,
        by rw [q2]; exact hinv.room⟩
      · intro j hj hne
        rw [q2] at hj
        by_cases hji : j = idx
        · subst hji
          refine ⟨i, by omega, hisc, ?_, ?_⟩
          · rw [d2, arraySet_same]
          · rw [d3, arraySet_same]
        · rw [d2, arraySet_other _ _ _ _ hji] at hne
          obtain ⟨j0, a1, a2, a3, a4⟩ := hinv.from_old j hj hne
          refine ⟨j0, by omega, a2, ?_, ?_⟩
          · rw [d2, arraySet_other _ _ _ _ hji]; exact a3
          · rw [d3, arraySet_other _ _ _ _ hji]; exact a4
      · intro j0 h1 h2 hne
        by_cases hj0 : j0 = i
        · subst hj0
          refine ⟨idx, by rw [q2]; exact d1, ?_, ?_⟩
          · rw [d2, arraySet_same]
          · rw [d3, arraySet_same]
        · obtain ⟨j, b1, b2, b3⟩ := hinv.to_new j0 (by omega) h2 hne
          have hji := hfresh j b1 (by rw [b2]; exact hne)
          refine ⟨j, by rw [q2]; exact b1, ?_, ?_⟩
          · rw [d2, arraySet_other _ _ _ _ hji]; exact b2
          · rw [d3, arraySet_other _ _ _ _ hji]; exact b3
      · rw [q2, d3]
        have h1 := nonzeroCount_set_le g.values idx (values0 i) g.slot_count
        have h2 := hinv.count_le
        have e1 : nonzeroCount values0 (i + 1) = nonzeroCount values0 i + 1 := by
          simp [nonzeroCount, hv]
        omega

theorem Canonical_of_keys_zero (ht : Hash_Table) (hk : ∀ j, ht.keys j = 0)
    (hv : ∀ j, ht.values j = 0) : Canonical ht := by
  intro j _
  exact ⟨by simp [hk, hv], fun hne => absurd (hk j) hne⟩

theorem Canonical_of_rehash (ht g0 : Hash_Table) (hc : Canonical ht)
    (hpos0 : 0 < ht.slot_count) (hpos : 0 < g0.slot_count) (hdvd : g0.slot_count ∣ U64_MOD)
    (hroom : nonzeroCount ht.values ht.slot_count < g0.slot_count) :
    Canonical (rehashLoop ht.keys ht.values ht.slot_count 0
      { g0 with keys := zeroArray, values := zeroArray }) ∧
    ∀ k, htLookup (rehashLoop ht.keys ht.values ht.slot_count 0
      { g0 with keys := zeroArray, values := zeroArray }) k = htLookup ht k := by
  have hinit : RehashInv ht.keys ht.values ht.slot_count 0
      { g0 with keys := zeroArray, values := zeroArray } := by
    refine ⟨hpos, hdvd, Canonical_of_keys_zero _ (fun _ => rfl) (fun _ => rfl), ?_, ?_, ?_, hroom⟩
    · intro j _ hne
      exact absurd rfl hne
    · intro j0 h0
      omega
    · show nonzeroCount zeroArray g0.slot_count ≤ _
      rw [nonzeroCount_zeroArray]
      exact Nat.zero_le _
  have hfin := rehashLoop_inv ht.keys ht.values ht.slot_count
    (fun j hj => (hc j hj).1)
    (fun i j hi hj hne he => hc.distinct i j hi hj hne he)
    ht.slot_count 0 _ (by omega) hinit
  refine ⟨hfin.canon, ?_⟩
  intro k
  by_cases hk0 : k = 0
  · subst hk0; rw [htLookup_zero_key, htLookup_zero_key]
  · by_cases hex : ∃ j0, j0 < ht.slot_count ∧ ht.keys j0 = k
    · obtain ⟨j0, h1, h2⟩ := hex
      obtain ⟨j, b1, b2, b3⟩ := hfin.to_new j0 h1 h1 (by rw [h2]; exact hk0)
      have e1 := hc.lookup_stored j0 h1 (by rw [h2]; exact hk0)
      have e2 := hfin.canon.lookup_stored j b1 (by rw [b2, h2]; exact hk0)
      rw [h2] at e1
      rw [b2, h2] at e2
      rw [e1, e2, b3]
    · have hab : ∀ j, j < ht.slot_count → ht.keys j ≠ k := fun j hj e => hex ⟨j, hj, e⟩
      rw [htLookup_absent ht k hpos0 hab]
      apply htLookup_absent _ k hfin.pos
      intro j hj e
      obtain ⟨j0, _, a2, a3, _⟩ := hfin.from_old j hj (by rw [e]; exact hk0)
      exact hab j0 a2 (a3.trans e)

theorem Canonical_of_resize (ht g : Hash_Table) (hi : SizeInv ht) (hc : Canonical ht)
    (h : ht_Resize ht = some g) : Canonical g ∧ ∀ k, htLookup g k = htLookup ht k := by
  obtain ⟨g0, hg0, rfl⟩ := ht_Resize_cases ht g h
  have hfl := hi.filled_le
  have key : 0 < g0.slot_count ∧ g0.slot_count ∣ U64_MOD ∧
      nonzeroCount ht.values ht.slot_count < g0.slot_count := by
    rcases hg0 with ⟨hgn, rfl⟩ | ⟨hgn, hm, univ, hu, rfl⟩
    · have := (ht_GrowNeeded_false_iff hi).1 hgn
      exact ⟨hi.pos, hi.dvd, by omega⟩
    · have hmi := hi.m_hi
      have em : (ht.univ.m + 1) % U64_MOD = ht.univ.m + 1 :=
        Nat.mod_eq_of_lt (by rw [U64_MOD_eq]; omega)
      rw [em] at hm
      simp only [em]
      have hsc : (2 : Nat) ^ (ht.univ.m + 1) = 2 * ht.slot_count := by
        rw [hi.count_eq, pow_succ]; omega
      have hload := hi.load
      have hpos := hi.pos
      refine ⟨Nat.two_pow_pos _, Nat.pow_dvd_pow 2 (by omega), ?_⟩
      show nonzeroCount ht.values ht.slot_count < 2 ^ (ht.univ.m + 1)
      omega
  obtain ⟨k1, k2, k3⟩ := key
  obtain ⟨c1, c2⟩ := Canonical_of_rehash ht g0 hc hi.pos k1 k2 k3
  refine ⟨Canonical_congr _ _ rfl rfl rfl rfl c1, ?_⟩
  intro k
  rw [← c2 k]
  exact htLookup_congr _ _ k rfl rfl rfl rfl

theorem Canonical_of_htInsert (ht : Hash_Table) (k v r : Nat) (ht1 : Hash_Table)
    (hi : SizeInv ht) (hc : Canonical ht) (hk : k ≠ 0) (hv : v ≠ 0)
    (h : htInsert ht k v = some (r, ht1)) :
    Canonical ht1 ∧ (∀ k', htLookup ht1 k' = if k' = k then v else htLookup ht k') ∧
      r = htLookup ht k := by
  obtain ⟨g, hg, hr, rfl⟩ := htInsert_cases ht k v r ht1 hk hv h
  obtain ⟨gi, gl⟩ := SizeInv_before_insertion ht g hi hg
  have hgc : Canonical g ∧ ∀ k', htLookup g k' = htLookup ht k' := by
    rcases hg with ⟨_, rfl⟩ | ⟨_, h2⟩
    · exact ⟨hc, fun _ => rfl⟩
    · exact Canonical_of_resize ht g hi hc h2
  have hroom : nonzeroCount g.values g.slot_count < g.slot_count := by
    have := gi.filled_le; omega
  obtain ⟨q1, q2, _⟩ :=
    ht_LinearProbeInsertion_room g (hashUniversal g.univ k) k v gi.pos gi.dvd hroom
  have hu : (if r = 0 then
      { (ht_LinearProbeInsertion g (hashUniversal g.univ k) k v).2 with
        slot_filled :=
          ((ht_LinearProbeInsertion g (hashUniversal g.univ k) k v).2.slot_filled + 1)
            % U64_MOD }
      else (ht_LinearProbeInsertion g (hashUniversal g.univ k) k v).2).univ = g.univ := by
    split_ifs
    · exact q1
    · exact q1
  have hs : (if r = 0 then
      { (ht_LinearProbeInsertion g (hashUniversal g.univ k) k v).2 with
        slot_filled :=
          ((ht_LinearProbeInsertion g (hashUniversal g.univ k) k v).2.slot_filled + 1)
            % U64_MOD }
      else (ht_LinearProbeInsertion g (hashUniversal g.univ k) k v).2).slot_count =
        g.slot_count := by
    split_ifs
    · exact q2
    · exact q2
  obtain ⟨c1, c2, c3, _⟩ := Canonical_insertion g k v hk hv hgc.1 gi.pos gi.dvd hroom _ hu hs
    (by split_ifs <;> rfl) (by split_ifs <;> rfl)
  refine ⟨c1, ?_, by rw [hr, c3, hgc.2]⟩
  intro k'
  by_cases hkk : k' = k
  · subst hkk
    rw [if_pos rfl]
    exact htLookup_after_insertion g k' v hk gi.pos gi.dvd hroom _ hu hs
      (by split_ifs <;> rfl) (by split_ifs <;> rfl)
  · rw [if_neg hkk, c2 k' hkk, hgc.2]

theorem Canonical_of_ht_Create (n : Nat) (ht : Hash_Table) (h : ht_Create n = some ht) :
    Canonical ht ∧ ∀ k, htLookup ht k = 0 := by
  unfold ht_Create at h
  rw [Option.bind_eq_some] at h
  obtain ⟨sc, _, h2⟩ := h
  rw [Option.bind_eq_some] at h2
  obtain ⟨univ, _, h4⟩ := h2
  have e := Option.some.inj h4
  rw [← e]
  exact ⟨Canonical_of_keys_zero _ (fun _ => rfl) (fun _ => rfl),
    htLookup_of_keys_zero _ (fun _ => rfl)⟩

theorem ht_Resize_sizes (ht g : Hash_Table) (hi : SizeInv ht) (h : ht_Resize ht = some g) :
    g.slot_filled = ht.slot_filled ∧ g.collision_count = 0 ∧
    ((ht_GrowNeeded ht = false ∧ g.slot_count = ht.slot_count ∧ g.univ = ht.univ) ∨
      (ht_GrowNeeded ht = true ∧ g.slot_count = 2 * ht.slot_count ∧
        hashUniversalConstantsUpdate { ht.univ with m := ht.univ.m + 1 } = some g.univ)) := by
  obtain ⟨g0, hg0, rfl⟩ := ht_Resize_cases ht g h
  obtain ⟨p1, p2, p3, _⟩ := rehashLoop_props ht.keys ht.values ht.slot_count 0
    { g0 with keys := zeroArray, values := zeroArray }
  simp only at p1 p2 p3
  rcases hg0 with ⟨hgn, rfl⟩ | ⟨hgn, hm, univ, hu, rfl⟩
  · exact ⟨p3, rfl, Or.inl ⟨hgn, p2, p1⟩⟩
  · have hmi := hi.m_hi
    have em : (ht.univ.m + 1) % U64_MOD = ht.univ.m + 1 :=
      Nat.mod_eq_of_lt (by rw [U64_MOD_eq]; omega)
    rw [em] at hu
    simp only [em] at p1 p2 p3 ⊢
    have hsc : (2 : Nat) ^ (ht.univ.m + 1) = 2 * ht.slot_count := by
      rw [hi.count_eq, pow_succ]; omega
    refine ⟨p3, trivial, Or.inr ⟨hgn, ?_, ?_⟩⟩
    · rw [p2]; exact hsc
    · rw [p1]; exact hu

theorem ht_ResizeNeeded_of_grow (ht : Hash_Table) (h : ht_GrowNeeded ht = true) :
    ht_ResizeNeeded ht = true := by
  unfold ht_GrowNeeded at h
  unfold ht_ResizeNeeded
  rw [h]; simp

theorem htInsert_sizes (ht : Hash_Table) (k v r : Nat) (ht1 : Hash_Table) (hi : SizeInv ht)
    (hk : k ≠ 0) (hv : v ≠ 0) (h : htInsert ht k v = some (r, ht1)) :
    ht1.slot_count = (if ht_GrowNeeded ht = true then 2 * ht.slot_count else ht.slot_count) ∧
    ht1.slot_filled = (if r = 0 then ht.slot_filled + 1 else ht.slot_filled) ∧
    (ht_GrowNeeded ht = false → ht1.univ = ht.univ) := by
  obtain ⟨g, hg, hr, rfl⟩ := htInsert_cases ht k v r ht1 hk hv h
  obtain ⟨gi, gl⟩ := SizeInv_before_insertion ht g hi hg
  obtain ⟨c1, c2, c3, _⟩ := insertionLoop_cases (hashUniversal g.univ k) k v g.slot_count 0 g
  have q1 : (ht_LinearProbeInsertion g (hashUniversal g.univ k) k v).2.univ = g.univ := c1
  have q2 : (ht_LinearProbeInsertion g (hashUniversal g.univ k) k v).2.slot_count =
      g.slot_count := c2
  have q3 : (ht_LinearProbeInsertion g (hashUniversal g.univ k) k v).2.slot_filled =
      g.slot_filled := c3
  have hle := gi.le
  have emod : (g.slot_filled + 1) % U64_MOD = g.slot_filled + 1 :=
    Nat.mod_eq_of_lt (by rw [U64_MOD_eq]; omega)
  have hgs : g.slot_count = (if ht_GrowNeeded ht = true then 2 * ht.slot_count
        else ht.slot_count) ∧ g.slot_filled = ht.slot_filled ∧
      (ht_GrowNeeded ht = false → g.univ = ht.univ) := by
    rcases hg with ⟨hn, rfl⟩ | ⟨_, h2⟩
    · have hgn : ht_GrowNeeded g = false := by
        by_contra hc
        have := ht_ResizeNeeded_of_grow g (by simpa using hc)
        rw [hn] at this
        exact absurd this (by simp)
      exact ⟨by simp [hgn], rfl, fun _ => rfl⟩
    · obtain ⟨s1, _, s3⟩ := ht_Resize_sizes ht g hi h2
      rcases s3 with ⟨a1, a2, a3⟩ | ⟨a1, a2, _⟩
      · exact ⟨by simp [a1, a2], s1, fun _ => a3⟩
      · exact ⟨by simp [a1, a2], s1, fun hc => by rw [a1] at hc; exact absurd hc (by simp)⟩
  by_cases h0 : r = 0
  · simp only [h0, if_true]
    refine ⟨?_, ?_, ?_⟩
    · show (ht_LinearProbeInsertion g (hashUniversal g.univ k) k v).2.slot_count = _
      rw [q2]; exact hgs.1
    · show ((ht_LinearProbeInsertion g (hashUniversal g.univ k) k v).2.slot_filled + 1)
        % U64_MOD = _
      rw [q3, emod, hgs.2.1]
    · intro hc
      show (ht_LinearProbeInsertion g (hashUniversal g.univ k) k v).2.univ = _
      rw [q1]; exact hgs.2.2 hc
  · simp only [h0, if_false]
    exact ⟨by rw [q2]; exact hgs.1, by rw [q3]; exact hgs.2.1,
      fun hc => by rw [q1]; exact hgs.2.2 hc⟩

theorem insertAll_isSome (ops : List (Nat × Nat)) :
    ∀ ht, SizeInv ht → (∀ kv, kv ∈ ops → kv.1 ≠ 0 ∧ kv.2 ≠ 0) →
      2 * (ht.slot_filled + ops.length) ≤ ht.slot_count → (insertAll ht ops).isSome := by
  induction ops with
  | nil => intro ht _ _ _; rfl
  | cons kv rest ih =>
    intro ht hi hnz hlen
    have hkv := hnz kv (List.mem_cons_self _ _)
    simp only [List.length_cons] at hlen
    have hgn : ht_GrowNeeded ht = false := (ht_GrowNeeded_false_iff hi).2 (by omega)
    have hsome := (htInsert_isSome_iff ht kv.1 kv.2 hkv.1 hkv.2).2 (Or.inl hgn)
    obtain ⟨p, hp⟩ := Option.isSome_iff_exists.1 hsome
    have hp' : htInsert ht kv.1 kv.2 = some (p.1, p.2) := hp
    obtain ⟨s1, s2, _⟩ := htInsert_sizes ht kv.1 kv.2 p.1 p.2 hi hkv.1 hkv.2 hp'
    simp only [hgn, Bool.false_eq_true, if_false] at s1
    have hi1 := SizeInv_of_htInsert ht kv.1 kv.2 p.1 p.2 hi hp' hkv.1 hkv.2
    have e : insertAll ht (kv :: rest) = insertAll p.2 rest := by
      simp only [insertAll, hp]
    rw [e]
    apply ih p.2 hi1 (fun x hx => hnz x (List.mem_cons_of_mem _ hx))
    rw [s1, s2]
    split_ifs <;> omega

theorem insertAll_lookup (ops : List (Nat × Nat)) :
    ∀ ht ht1, SizeInv ht → Canonical ht → (∀ kv, kv ∈ ops → kv.1 ≠ 0 ∧ kv.2 ≠ 0) →
      insertAll ht ops = some ht1 →
      ∀ k, htLookup ht1 k =
        match ops.reverse.find? (fun kv => kv.1 = k) with
        | some kv => kv.2
        | none => htLookup ht k := by
  induction ops with
  | nil =>
    intro ht ht1 _ _ _ h k
    have : ht = ht1 := Option.some.inj h
    subst this
    rfl
  | cons kv rest ih =>
    intro ht ht1 hi hc hnz h k
    have hkv := hnz kv (List.mem_cons_self _ _)
    rcases Option.eq_none_or_eq_some (htInsert ht kv.1 kv.2) with hn | ⟨p, hp⟩
    · simp only [insertAll, hn] at h
      exact absurd h (by simp)
    · have hp' : htInsert ht kv.1 kv.2 = some (p.1, p.2) := hp
      have e : insertAll ht (kv :: rest) = insertAll p.2 rest := by
        simp only [insertAll, hp]
      rw [e] at h
      have hi1 := SizeInv_of_htInsert ht kv.1 kv.2 p.1 p.2 hi hp' hkv.1 hkv.2
      obtain ⟨c1, c2, _⟩ := Canonical_of_htInsert ht kv.1 kv.2 p.1 p.2 hi hc hkv.1 hkv.2 hp'
      have hrec := ih p.2 ht1 hi1 c1 (fun x hx => hnz x (List.mem_cons_of_mem _ hx)) h k
      rw [hrec, List.reverse_cons, List.find?_append]
      cases hf : rest.reverse.find? (fun x => x.1 = k) with
      | some x => simp
      | none =>
        rw [c2 k]
        by_cases hkk : k = kv.1
        · subst hkk
          simp
        · have hkk' : ¬ kv.1 = k := fun e => hkk e.symm
          simp [hkk, hkk']

theorem htInsert_fresh_2 : htInsert freshTable 2 10 = some (0, tableA1) := by rfl

theorem htInsert_tableA1_3 : htInsert tableA1 3 20 = some (0, tableA2) := by rfl

theorem htRemove_tableA2_2 : htRemove tableA2 2 = (10, tableA3) := by rfl

theorem htInsert_tableA3_3 : htInsert tableA3 3 30 = some (0, tableA4) := by rfl

theorem tableA2_reachable : Reachable tableA2 :=
  Reachable.insert tableA1 3 20 0 tableA2
    (Reachable.insert freshTable 2 10 0 tableA1 freshTable_reachable (by decide) (by decide)
      htInsert_fresh_2)
    (by decide) (by decide) htInsert_tableA1_3

theorem tableA3_reachable : Reachable tableA3 := by
  have h := Reachable.remove tableA2 2 tableA2_reachable (by decide)
  rw [htRemove_tableA2_2] at h
  exact h

theorem tableA4_reachable : Reachable tableA4 :=
  Reachable.insert tableA3 3 30 0 tableA4 tableA3_reachable (by decide) (by decide)
    htInsert_tableA3_3

/-- C2, evaluated on the test table after `htInsert(2,10)`, `htInsert(3,20)`,
`htRemove(2)`, `htInsert(3,30)`: key 3 is present with value 30 and
`htRemove(ht, 3)` returns 30, but afterwards `htLookup(ht, 3)` is 20, not 0:
the older pair `(3, 20)` is still stored one slot further. -/
theorem htRemove_leaves_older_copy :
    Reachable tableA4 ∧ htLookup tableA4 3 = 30 ∧ (htRemove tableA4 3).1 = 30 ∧
      htLookup (htRemove tableA4 3).2 3 = 20 :=
  ⟨tableA4_reachable, by decide, by decide, by decide⟩

/-- C4, evaluated on the test table after `htInsert(2,10)`, `htInsert(3,20)`,
`htRemove(2)`: `htLookup(ht, 3)` is 20, yet `htInsert(ht, 3, 30)` returns 0 as
if key 3 were new, and counts one more filled slot. -/
theorem htInsert_returns_zero_for_present_key :
    Reachable tableA3 ∧ htLookup tableA3 3 = 20 ∧
      htInsert tableA3 3 30 = some (0, tableA4) ∧
      tableA4.slot_filled = tableA3.slot_filled + 1 :=
  ⟨tableA3_reachable, by decide, htInsert_tableA3_3, by decide⟩

theorem ht_Create_big : ht_Create 4294967296 = some bigTable0 := by
  have h1 : mNextPowerOf2U64 (mMax 4294967296 64) = some 4294967296 := by decide
  have h2 : hashUniversalConstantsUpdate { a := 0, b := 0, m := mLog2U64 4294967296, r := 0 } =
      some { a := 115924262728944859, b := 3584366829, m := 32,
             r := 4116611502648400109 } := by decide
  exact ht_Create_of 4294967296 4294967296 _ h1 h2

theorem htInsert_bigTable0 : htInsert bigTable0 1 10 = some (0, bigTable1) := by rfl

theorem htInsert_bigTable1 :
    htInsert bigTable1 501333272911171412 20 = some (0, bigTable2) := by rfl

theorem bigTable2_reachable : Reachable bigTable2 :=
  Reachable.insert bigTable1 501333272911171412 20 0 bigTable2
    (Reachable.insert bigTable0 1 10 0 bigTable1
      (Reachable.create 4294967296 bigTable0 (by decide) ht_Create_big)
      (by decide) (by decide) htInsert_bigTable0)
    (by decide) (by decide) htInsert_bigTable1

/-- C9, evaluated on the table made by `ht_Create(2^32)` and two inserts whose
keys collide: on entry `collision_count` is 1, `slot_count` is `2^32` and
`slot_filled` is 2, so neither `collision_count > slot_count` nor
`2 * slot_filled >= slot_count` holds; yet the resize test of `htInsert`,
which compares with `(Uint) slot_count = 0`, is true, and every `htInsert` of
a non-zero pair goes through the rehash (and returns). -/
theorem htInsert_rehashes_on_truncated_limit :
    Reachable bigTable2 ∧ bigTable2.slot_count = 2 ^ 32 ∧ bigTable2.collision_count = 1 ∧
      bigTable2.slot_filled = 2 ∧
      ¬ (bigTable2.collision_count > bigTable2.slot_count ∨
          2 * bigTable2.slot_filled ≥ bigTable2.slot_count) ∧
      ht_ResizeNeeded bigTable2 = true ∧
      ∀ k v, k ≠ 0 → v ≠ 0 →
        ∃ r ht1 g, htInsert bigTable2 k v = some (r, ht1) ∧ ht_Resize bigTable2 = some g ∧
          g.collision_count = 0 ∧ g.slot_count = bigTable2.slot_count := by
  have hneed : ht_ResizeNeeded bigTable2 = true := by decide
  have hgrow : ht_GrowNeeded bigTable2 = false := by decide
  refine ⟨bigTable2_reachable, by decide, by decide, by decide, by decide, hneed, ?_⟩
  intro k v hk hv
  have hsome := (htInsert_isSome_iff bigTable2 k v hk hv).2 (Or.inl hgrow)
  obtain ⟨p, hp⟩ := Option.isSome_iff_exists.1 hsome
  have hp' : htInsert bigTable2 k v = some (p.1, p.2) := hp
  obtain ⟨g, hg, _⟩ := htInsert_cases bigTable2 k v p.1 p.2 hk hv hp'
  rcases hg with ⟨h1, _⟩ | ⟨_, h2⟩
  · rw [hneed] at h1
    exact absurd h1 (by simp)
  · obtain ⟨_, s2, s3⟩ := ht_Resize_sizes bigTable2 g bigTable2_reachable.sizeInv h2
    rcases s3 with ⟨_, a2, _⟩ | ⟨a1, _, _⟩
    · exact ⟨p.1, p.2, g, hp', h2, s2, a2⟩
    · rw [hgrow] at a1
      exact absurd a1 (by simp)

theorem insertAll_reachable (ops : List (Nat × Nat)) :
    ∀ ht ht1, Reachable ht → (∀ kv, kv ∈ ops → kv.1 < U64_MOD ∧ kv.2 < U64_MOD) →
      insertAll ht ops = some ht1 → Reachable ht1 := by
  induction ops with
  | nil =>
    intro ht ht1 hr _ h
    have : ht = ht1 := Option.some.inj h
    rw [← this]; exact hr
  | cons kv rest ih =>
    intro ht ht1 hr hb h
    have hkv := hb kv (List.mem_cons_self _ _)
    rcases Option.eq_none_or_eq_some (htInsert ht kv.1 kv.2) with hn | ⟨p, hp⟩
    · simp only [insertAll, hn] at h
      exact absurd h (by simp)
    · have e : insertAll ht (kv :: rest) = insertAll p.2 rest := by
        simp only [insertAll, hp]
      rw [e] at h
      exact ih p.2 ht1 (Reachable.insert ht kv.1 kv.2 p.1 p.2 hr hkv.1 hkv.2 hp)
        (fun x hx => hb x (List.mem_cons_of_mem _ hx)) h

theorem ops16_state :
    ∃ ht, insertAll freshTable ops16 = some ht ∧ Reachable ht ∧
      ht.collision_count = 69 ∧ ht.slot_count = 64 ∧ ht.slot_filled = 16 := by
  have h : (insertAll freshTable ops16).map (fun ht =>
      decide (ht.collision_count = 69 ∧ ht.slot_count = 64 ∧ ht.slot_filled = 16)) =
      some true := by decide
  obtain ⟨ht, h1, h2⟩ := Option.map_eq_some'.1 h
  have h3 := of_decide_eq_true h2
  exact ⟨ht, h1, insertAll_reachable ops16 freshTable ht freshTable_reachable (by decide) h1,
    h3.1, h3.2.1, h3.2.2⟩

/-- Witness for C8 on the table holding the pairs `(2, 10)` and `(3, 20)`. -/
theorem htForEach_yields_filled_slots_witness :
    tableA2.slot_count < U64_MOD ∧
    htForEach tableA2 =
      some (((List.range tableA2.slot_count).filter (fun i => tableA2.keys i ≠ 0)).map
        (fun i => (tableA2.keys i, tableA2.values i))) ∧
    htForEach tableA2 = some [(2, 10), (3, 20)] :=
  ⟨by decide, htForEach_yields_filled_slots tableA2 (by decide), by decide⟩

theorem ht_ResizeNeeded_iff_of_small {ht : Hash_Table} (hi : SizeInv ht)
    (hsmall : ht.slot_count < UINT_MOD) :
    ht_ResizeNeeded ht = true ↔
      (ht.collision_count > ht.slot_count ∨ 2 * ht.slot_filled ≥ ht.slot_count) := by
  unfold ht_ResizeNeeded
  rw [hi.double_mod, Nat.mod_eq_of_lt hsmall]
  simp

theorem htInsert_slot_count_rule (ht : Hash_Table) (k v r : Nat) (ht1 : Hash_Table)
    (hr : Reachable ht) (hk : k ≠ 0) (hv : v ≠ 0) (h : htInsert ht k v = some (r, ht1)) :
    ht1.slot_count =
      (if 2 * ht.slot_filled ≥ ht.slot_count then 2 * ht.slot_count else ht.slot_count) := by
  have hi := hr.sizeInv
  obtain ⟨s1, _, _⟩ := htInsert_sizes ht k v r ht1 hi hk hv h
  rw [s1]
  by_cases hg : ht_GrowNeeded ht = true
  · have : ¬ 2 * ht.slot_filled < ht.slot_count := by
      intro hlt
      have := (ht_GrowNeeded_false_iff hi).2 hlt
      rw [hg] at this
      exact absurd this (by simp)
    rw [if_pos hg, if_pos (by omega)]
  · have hg' : ht_GrowNeeded ht = false := by simpa using hg
    have := (ht_GrowNeeded_false_iff hi).1 hg'
    rw [if_neg hg, if_neg (by omega)]

theorem ht_ResizeNeeded_of_collisions (ht : Hash_Table)
    (h : ht.collision_count > ht.slot_count) : ht_ResizeNeeded ht = true := by
  unfold ht_ResizeNeeded
  have : ht.slot_count % UINT_MOD ≤ ht.slot_count := Nat.mod_le _ _
  have h1 : ht.collision_count > ht.slot_count % UINT_MOD := by omega
  simp [h1]

theorem bufSet_same {α : Type} (buf : Nat → Option α) (i : Nat) (x : Option α) :
    bufSet buf i x i = x := by
  unfold bufSet; simp

theorem bufSet_other {α : Type} (buf : Nat → Option α) (i j : Nat) (x : Option α)
    (h : j ≠ i) : bufSet buf i x j = buf j := by
  unfold bufSet; simp [h]

theorem mMax_eq_max (x y : Nat) : mMax x y = max x y := by
  unfold mMax
  split_ifs <;> omega

theorem ra_IsFull_of_lt {α : Type} (b : Ra_Header α) (h : b.len < b.cap) :
    ra_IsFull b = false := by
  unfold ra_IsFull
  have := Nat.mod_le (b.len + 1) U64_MOD
  simp only [decide_eq_false_iff_not, gt_iff_lt, not_lt]
  omega

theorem ra_IsFull_of_eq {α : Type} (b : Ra_Header α) (h : b.len = b.cap)
    (hc : 2 * b.cap < U64_MOD) : ra_IsFull b = true := by
  unfold ra_IsFull
  have h1 : 1 < U64_MOD := by rw [U64_MOD_eq]; omega
  have : (b.len + 1) % U64_MOD = b.len + 1 := Nat.mod_eq_of_lt (by omega)
  simp only [decide_eq_true_eq, gt_iff_lt]
  omega

/-- A call of `raAdd` on a buffer with room left stores in place. -/
theorem raAdd_of_lt {α : Type} (b : Ra_Header α) (e : α) (h : b.len < b.cap) :
    raAdd b e = some (b.len,
      { cap := b.cap, len := (b.len + 1) % U64_MOD, buf := bufSet b.buf b.len (some e) }) := by
  unfold raAdd ra_CheckAndGrow
  rw [ra_IsFull_of_lt b h]
  simp [h]

/-- The grown buffer. -/
theorem ra_Grow_eq {α : Type} (b : Ra_Header α) :
    ra_Grow b = { cap := max ((2 * b.cap) % U64_MOD) 16, len := b.len,
                  buf := fun i => if i < b.cap ∧ i < max ((2 * b.cap) % U64_MOD) 16
                    then b.buf i else none } := by
  unfold ra_Grow ra_GrowToSize
  simp only [mMax_eq_max]
  have : max (max ((2 * b.cap) % U64_MOD) 16) 16 = max ((2 * b.cap) % U64_MOD) 16 := by omega
  rw [this]

/-- Every returning `raAdd` call, described by the buffer it stored into. -/
theorem raAdd_cases {α : Type} (b : Ra_Header α) (e : α) (n : Nat) (b1 : Ra_Header α)
    (h : raAdd b e = some (n, b1)) :
    ∃ sb : Ra_Header α,
      ((ra_IsFull b = false ∧ sb = b) ∨ (ra_IsFull b = true ∧ sb = ra_Grow b)) ∧
      sb.len < sb.cap ∧ n = sb.len ∧
      b1 = { sb with buf := bufSet sb.buf sb.len (some e), len := (sb.len + 1) % U64_MOD } := by
  unfold raAdd at h
  refine ⟨ra_CheckAndGrow b, ?_, ?_⟩
  · unfold ra_CheckAndGrow
    cases hf : ra_IsFull b
    · left; simp
    · right; simp
  · simp only at h
    split_ifs at h with hlt
    simp only [Option.some.injEq, Prod.mk.injEq] at h
    exact ⟨hlt, h.1.symm, h.2.symm⟩

/-- A call of `raAdd` on a buffer filled to capacity, the doubled capacity
being a `Size`: the buffer grows and the element is stored behind the old
ones. -/
theorem raAdd_of_eq {α : Type} (b : Ra_Header α) (e : α) (h : b.len = b.cap)
    (hc : 2 * b.cap < U64_MOD) :
    raAdd b e = some (b.len,
      { cap := max (2 * b.cap) 16, len := b.len + 1,
        buf := bufSet (fun i => if i < b.cap ∧ i < max (2 * b.cap) 16 then b.buf i else none)
          b.len (some e) }) := by
  have h16 : 16 < U64_MOD := by rw [U64_MOD_eq]; omega
  have e1 : (2 * b.cap) % U64_MOD = 2 * b.cap := Nat.mod_eq_of_lt hc
  have e2 : (b.len + 1) % U64_MOD = b.len + 1 := Nat.mod_eq_of_lt (by omega)
  unfold raAdd ra_CheckAndGrow
  rw [ra_IsFull_of_eq b h hc, ra_Grow_eq, e1]
  have hlt : b.len < max (2 * b.cap) 16 := by omega
  simp [hlt, e2]

/-- A call of `raAdd` on a buffer filled to capacity does not return when the
doubled capacity is no `Size`. -/
theorem raAdd_of_wrap {α : Type} (b : Ra_Header α) (e : α) (h : b.len = b.cap)
    (hc : U64_MOD ≤ 2 * b.cap) : raAdd b e = none := by
  have h16 : 32 < U64_MOD := by rw [U64_MOD_eq]; omega
  have hpos : 0 < U64_MOD := by omega
  have hm : (2 * b.cap) % U64_MOD ≤ b.cap := by
    by_cases hb : b.cap < U64_MOD
    · have : (2 * b.cap) % U64_MOD = 2 * b.cap - U64_MOD := by
        rw [Nat.mod_eq_sub_mod hc]
        exact Nat.mod_eq_of_lt (by omega)
      omega
    · have := Nat.mod_lt (2 * b.cap) hpos
      omega
  unfold raAdd ra_CheckAndGrow
  cases hf : ra_IsFull b
  · simp [h]
  · simp only [if_true, ra_Grow_eq]
    have : ¬ b.len < max ((2 * b.cap) % U64_MOD) 16 := by omega
    simp [this]

/-- C14: for every buffer state with capacity `c` and length `l` and every
element, `raAdd` returns and leaves the capacity unchanged when `l < c`; when
`l = c` it returns with capacity `max(2*c, 16)` as long as `2*c` is a `Size`,
and no call with `l = c` returns with any other capacity. -/
theorem raAdd_capacity_rule {α : Type} (b : Ra_Header α) (e : α) :
    (b.len < b.cap → ∃ b1, raAdd b e = some (b.len, b1) ∧ raMaxElemin b1 = b.cap) ∧
    (b.len = b.cap → 2 * b.cap < U64_MOD →
      ∃ b1, raAdd b e = some (b.len, b1) ∧ raMaxElemin b1 = max (2 * b.cap) 16) ∧
    (∀ n b1, raAdd b e = some (n, b1) → b.len = b.cap →
      raMaxElemin b1 = max (2 * b.cap) 16) := by
  refine ⟨fun h => ⟨_, raAdd_of_lt b e h, rfl⟩, fun h hc => ⟨_, raAdd_of_eq b e h hc, rfl⟩, ?_⟩
  intro n b1 hr h
  by_cases hc : 2 * b.cap < U64_MOD
  · rw [raAdd_of_eq b e h hc] at hr
    simp only [Option.some.injEq, Prod.mk.injEq] at hr
    rw [← hr.2]
    rfl
  · rw [raAdd_of_wrap b e h (by omega)] at hr
    exact absurd hr (by simp)

/-- Witness for C14: a buffer created with capacity 1 keeps capacity 1 on the
first `raAdd` and has capacity 16 after the second. -/
theorem raAdd_capacity_rule_witness :
    (∃ b1, raAdd (ra_Create Nat 1) 7 = some (0, b1) ∧ raMaxElemin b1 = 1) ∧
    (∃ b1, raAdd { cap := 1, len := 1, buf := bufSet (fun _ => none) 0 (some 7) } 8 =
        some (1, b1) ∧ raMaxElemin b1 = max (2 * 1) 16) :=
  ⟨(raAdd_capacity_rule (ra_Create Nat 1) 7).1 (by decide),
   (raAdd_capacity_rule
      { cap := 1, len := 1, buf := bufSet (fun _ => none) 0 (some 7) } 8).2.1
      rfl (by decide)⟩

/-- C12: for every buffer state (length at most capacity, capacity a `Size`)
and element `e`, `raAdd(buf, e)` returns unless the buffer is full and twice
its capacity is no `Size`; a call that returns yields the length before the
call, holds `e` at that ordinal, has length one more, and keeps every element
stored before at its ordinal. -/
theorem raAdd_spec {α : Type} (b : Ra_Header α) (e : α) (hlen : b.len ≤ b.cap)
    (hcap : b.cap < U64_MOD) :
    ((raAdd b e).isSome ↔ (b.len < b.cap ∨ 2 * b.cap < U64_MOD)) ∧
    ∀ n b1, raAdd b e = some (n, b1) →
      n = raElemin b ∧ raElemin b1 = raElemin b + 1 ∧ b1.buf n = some e ∧
      ∀ i, i < raElemin b → b1.buf i = b.buf i := by
  unfold raElemin
  by_cases h : b.len < b.cap
  · have e2 : (b.len + 1) % U64_MOD = b.len + 1 := Nat.mod_eq_of_lt (by omega)
    rw [raAdd_of_lt b e h, e2]
    refine ⟨by simp [h], ?_⟩
    intro n b1 hr
    simp only [Option.some.injEq, Prod.mk.injEq] at hr
    obtain ⟨rfl, rfl⟩ := hr
    refine ⟨rfl, rfl, bufSet_same _ _ _, ?_⟩
    intro i hi
    exact bufSet_other _ _ _ _ (by omega)
  · have heq : b.len = b.cap := by omega
    by_cases hc : 2 * b.cap < U64_MOD
    · rw [raAdd_of_eq b e heq hc]
      refine ⟨by simp [hc], ?_⟩
      intro n b1 hr
      simp only [Option.some.injEq, Prod.mk.injEq] at hr
      obtain ⟨rfl, rfl⟩ := hr
      refine ⟨rfl, rfl, bufSet_same (fun i => if i < b.cap ∧ i < max (2 * b.cap) 16
        then b.buf i else none) b.len (some e), ?_⟩
      intro i hi
      have hi2 : i < b.cap ∧ i < max (2 * b.cap) 16 := by omega
      simp only
      rw [bufSet_other _ _ _ _ (by omega)]
      simp [hi2]
    · rw [raAdd_of_wrap b e heq (by omega)]
      refine ⟨by simp [h, hc], ?_⟩
      intro n b1 hr
      exact absurd hr (by simp)

/-- Witness for C12 on a buffer of capacity 1 that holds one element. -/
theorem raAdd_spec_witness :
    (raAdd ({ cap := 1, len := 1, buf := bufSet (fun _ => none) 0 (some 7) } :
        Ra_Header Nat) 8).isSome = true ∧
    ∀ n b1, raAdd ({ cap := 1, len := 1, buf := bufSet (fun _ => none) 0 (some 7) } :
        Ra_Header Nat) 8 = some (n, b1) →
      n = 1 ∧ raElemin b1 = 1 + 1 ∧ b1.buf n = some 8 ∧
      ∀ i, i < 1 → b1.buf i = bufSet (fun _ => none) 0 (some 7) i :=
  ⟨by decide,
   (raAdd_spec { cap := 1, len := 1, buf := bufSet (fun _ => none) 0 (some 7) } 8
      (by decide) (by decide)).2⟩

/-- C16: for every buffer state (length at most capacity) `raClear` returns,
sets the length to 0, leaves the capacity unchanged, writes zero over every
position below the old length and touches no other position. -/
theorem raClear_spec {α : Type} (zero : α) (b : Ra_Header α) (hlen : b.len ≤ b.cap) :
    ∃ b1, raClear zero b = some b1 ∧ raElemin b1 = 0 ∧ raMaxElemin b1 = raMaxElemin b ∧
      (∀ i, i < raElemin b → b1.buf i = some zero) ∧
      ∀ i, raElemin b ≤ i → b1.buf i = b.buf i := by
  refine ⟨{ b with buf := fun i => if i < b.len then some zero else b.buf i, len := 0 },
    ?_, rfl, rfl, ?_, ?_⟩
  · unfold raClear
    simp [hlen]
  · intro i hi
    unfold raElemin at hi
    simp [hi]
  · intro i hi
    unfold raElemin at hi
    have : ¬ i < b.len := by omega
    simp [this]

/-- Witness for C16 on a buffer of capacity 4 holding the elements 7, 8, 9. -/
theorem raClear_spec_witness :
    ∃ b1, raClear 0 buf789 = some b1 ∧ raElemin b1 = 0 ∧ raMaxElemin b1 = 4 ∧
      (∀ i, i < 3 → b1.buf i = some 0) ∧
      ∀ i, 3 ≤ i → b1.buf i = buf789.buf i :=
  raClear_spec 0 buf789 (by decide)

theorem perm_append_set {β : Type} (x : β) :
    ∀ (l : List β) (i : Nat) (h : i < l.length),
      List.Perm (l ++ [x]) (l.get ⟨i, h⟩ :: l.set i x) := by
  intro l
  induction l with
  | nil => intro i h; exact absurd h (by simp)
  | cons a t ih =>
    intro i h
    cases i with
    | zero =>
      simp only [List.cons_append, List.get_eq_getElem, List.getElem_cons_zero, List.set_cons_zero]
      refine List.Perm.cons a ?_
      exact List.perm_append_singleton x t
    | succ j =>
      have hj : j < t.length := by simpa using h
      have := ih j hj
      simp only [List.cons_append, List.get_eq_getElem, List.getElem_cons_succ,
        List.set_cons_succ]
      simp only [List.get_eq_getElem] at this
      exact (List.Perm.cons a this).trans (List.Perm.swap _ _ _)

theorem map_bufSet_range {α : Type} (buf : Nat → Option α) (i n : Nat) (x : Option α) :
    (List.range n).map (bufSet buf i x) = ((List.range n).map buf).set i x := by
  apply List.ext_getElem
  · simp
  · intro j h1 h2
    simp only [List.length_map, List.length_range] at h1
    simp only [List.getElem_map, List.getElem_range, List.getElem_set]
    unfold bufSet
    by_cases hji : j = i
    · subst hji; simp
    · have : ¬ i = j := fun h => hji h.symm
      simp [hji, this]

/-- The elements of a buffer after `raRemoveUnsorted` are those before it,
less the one at the removed position. -/
theorem raElems_remove {α : Type} (buf : Nat → Option α) (n i : Nat) (hi : i < n + 1) :
    List.Perm ((List.range (n + 1)).map buf)
      (buf i :: (List.range n).map (bufSet buf i (buf n))) := by
  rw [List.range_succ, List.map_append, List.map_singleton, map_bufSet_range]
  by_cases hin : i < n
  · have hl : i < ((List.range n).map buf).length := by simpa using hin
    have := perm_append_set (buf n) ((List.range n).map buf) i hl
    simpa using this
  · have hi2 : i = n := by omega
    subst hi2
    have : ((List.range i).map buf).set i (buf i) = (List.range i).map buf := by
      apply List.set_eq_of_length_le
      simp
    rw [this]
    exact List.perm_append_singleton _ _

/-- C15: for every buffer of length `n >= 1` (at most the capacity, a `Size`)
and every position `i < n`, `raRemoveUnsorted(buf, i)` returns a buffer of
length `n - 1` and the same capacity in which position `i` holds the former
last element (when `i < n - 1`) and every other position is unchanged; the
stored elements are those stored before with one occurrence of the element at
`i` taken out. -/
theorem raRemoveUnsorted_spec {α : Type} (b : Ra_Header α) (i : Nat)
    (hn : 1 ≤ b.len) (hi : i < b.len) (hlen : b.len ≤ b.cap) (hcap : b.cap < U64_MOD) :
    ∃ b1, raRemoveUnsorted b i = some b1 ∧ raElemin b1 = raElemin b - 1 ∧
      raMaxElemin b1 = raMaxElemin b ∧
      (i < raElemin b - 1 → b1.buf i = b.buf (raElemin b - 1)) ∧
      (∀ j, j ≠ i → b1.buf j = b.buf j) ∧
      List.Perm (raElems b) (b.buf i :: raElems b1) := by
  have hlast : (b.len + U64_MOD - 1) % U64_MOD = b.len - 1 := by
    have : b.len + U64_MOD - 1 = (b.len - 1) + U64_MOD := by omega
    rw [this, Nat.add_mod_right]
    exact Nat.mod_eq_of_lt (by omega)
  refine ⟨{ b with buf := bufSet b.buf i (b.buf (b.len - 1)), len := b.len - 1 },
    ?_, rfl, rfl, ?_, ?_, ?_⟩
  · unfold raRemoveUnsorted
    simp only [hlast]
    have : i < b.cap ∧ b.len - 1 < b.cap := by omega
    simp [this]
  · intro _
    exact bufSet_same _ _ _
  · intro j hj
    exact bufSet_other _ _ _ _ hj
  · unfold raElems
    simp only
    obtain ⟨n, hn1⟩ : ∃ n, b.len = n + 1 := ⟨b.len - 1, by omega⟩
    rw [hn1]
    simp only [Nat.add_sub_cancel]
    exact raElems_remove b.buf n i (by omega)

/-- Witness for C15 on a buffer holding 7, 8, 9 with position 0 removed. -/
theorem raRemoveUnsorted_spec_witness :
    ∃ b1, raRemoveUnsorted buf789 0 = some b1 ∧
      raElemin b1 = 3 - 1 ∧ raMaxElemin b1 = 4 ∧
      (0 < 3 - 1 → b1.buf 0 = some 9) ∧
      (∀ j, j ≠ 0 → b1.buf j = buf789.buf j) ∧
      List.Perm [some 7, some 8, some 9] (some 7 :: raElems b1) :=
  raRemoveUnsorted_spec buf789 0 (by decide) (by decide) (by decide) (by decide)

theorem raAdd_len_le_cap {α : Type} (b : Ra_Header α) (e : α) (n : Nat) (b1 : Ra_Header α)
    (h : raAdd b e = some (n, b1)) : b1.len ≤ b1.cap := by
  obtain ⟨sb, _, hlt, _, rfl⟩ := raAdd_cases b e n b1 h
  have := Nat.mod_le (sb.len + 1) U64_MOD
  simp only
  omega

theorem raRemoveUnsorted_len_le_cap {α : Type} (b : Ra_Header α) (i : Nat) (b1 : Ra_Header α)
    (h : raRemoveUnsorted b i = some b1) : b1.len ≤ b1.cap := by
  unfold raRemoveUnsorted at h
  simp only at h
  split_ifs at h with hc
  simp only [Option.some.injEq] at h
  rw [← h]
  simp only
  omega

theorem raClear_len_le_cap {α : Type} (zero : α) (b b1 : Ra_Header α)
    (h : raClear zero b = some b1) : b1.len ≤ b1.cap := by
  unfold raClear at h
  split_ifs at h
  simp only [Option.some.injEq] at h
  rw [← h]
  exact Nat.zero_le _

theorem raResize_len_le_cap {α : Type} (b : Ra_Header α) (n : Nat) (h : b.len ≤ b.cap) :
    (raResize b n).len ≤ (raResize b n).cap := by
  unfold raResize
  split_ifs with hn
  · unfold ra_GrowToSize
    simp only [mMax_eq_max]
    omega
  · exact h

theorem raApply_len_le_cap {α : Type} (zero : α) (b : Ra_Header α) (op : RaOp α)
    (b1 : Ra_Header α) (hb : b.len ≤ b.cap) (h : raApply zero b op = some b1) :
    b1.len ≤ b1.cap := by
  cases op with
  | add elem =>
    simp only [raApply, Option.map_eq_some'] at h
    obtain ⟨p, hp, hp2⟩ := h
    rw [← hp2]
    exact raAdd_len_le_cap b elem p.1 p.2 hp
  | removeUnsorted i => exact raRemoveUnsorted_len_le_cap b i b1 h
  | clear => exact raClear_len_le_cap zero b b1 h
  | resize n =>
    simp only [raApply, Option.some.injEq] at h
    rw [← h]
    exact raResize_len_le_cap b n hb

theorem raRun_len_le_cap {α : Type} (zero : α) (ops : List (RaOp α)) :
    ∀ b b1 : Ra_Header α, b.len ≤ b.cap → raRun zero b ops = some b1 → b1.len ≤ b1.cap := by
  induction ops with
  | nil =>
    intro b b1 hb h
    simp only [raRun, Option.some.injEq] at h
    rw [← h]; exact hb
  | cons op rest ih =>
    intro b b1 hb h
    simp only [raRun] at h
    rw [Option.bind_eq_some] at h
    obtain ⟨b2, h2, h3⟩ := h
    exact ih b2 b1 (raApply_len_le_cap zero b op b2 hb h2) h3

/-- C13: length at most capacity holds for the buffer `ra_Create` returns and
after every run of `raAdd`, `raRemoveUnsorted`, `raClear` and `raResize`
calls on it; on every such buffer `raClear` and `raResize` return, so does
`raRemoveUnsorted` at every position below the length, and `raAdd` unless
the buffer is full and twice its capacity is no `Size`. -/
theorem ra_len_le_cap {α : Type} (zero : α) (min_cap : Nat) (ops : List (RaOp α))
    (b : Ra_Header α) (h : raRun zero (ra_Create α min_cap) ops = some b) :
    raElemin (ra_Create α min_cap) ≤ raMaxElemin (ra_Create α min_cap) ∧
    raElemin b ≤ raMaxElemin b ∧
    (∀ e, b.len < b.cap ∨ 2 * b.cap < U64_MOD → (raApply zero b (RaOp.add e)).isSome) ∧
    (∀ i, i < b.len → (raApply zero b (RaOp.removeUnsorted i)).isSome) ∧
    (raApply zero b RaOp.clear).isSome ∧
    (∀ n, (raApply zero b (RaOp.resize n)).isSome) := by
  have h0 : (ra_Create α min_cap).len ≤ (ra_Create α min_cap).cap := Nat.zero_le _
  have hb : b.len ≤ b.cap := raRun_len_le_cap zero ops _ b h0 h
  refine ⟨h0, hb, ?_, ?_, ?_, ?_⟩
  · intro e hc
    simp only [raApply, Option.isSome_map']
    rcases Nat.lt_or_ge b.len b.cap with hlt | hge
    · rw [raAdd_of_lt b e hlt]; rfl
    · have heq : b.len = b.cap := by omega
      have hc2 : 2 * b.cap < U64_MOD := by omega
      rw [raAdd_of_eq b e heq hc2]; rfl
  · intro i hi
    have hm := Nat.mod_le (b.len + U64_MOD - 1) U64_MOD
    have hpos : 0 < U64_MOD := by rw [U64_MOD_eq]; omega
    have hlast : (b.len + U64_MOD - 1) % U64_MOD ≤ b.len - 1 := by
      have : b.len + U64_MOD - 1 = (b.len - 1) + U64_MOD := by omega
      rw [this, Nat.add_mod_right]
      exact Nat.mod_le _ _
    have hc : i < b.cap ∧ (b.len + U64_MOD - 1) % U64_MOD < b.cap := by omega
    simp only [raApply, raRemoveUnsorted]
    simp [hc]
  · simp only [raApply, raClear]
    simp [hb]
  · intro n
    rfl

/-- Witness for C13: a run that adds 17 elements to a fresh buffer (growing
it once), removes position 3, resizes to 100 and clears. -/
theorem ra_len_le_cap_witness :
    ∃ b, raRun 0 (ra_Create Nat 0)
        ((List.range 17).map RaOp.add ++
          [RaOp.removeUnsorted 3, RaOp.resize 100, RaOp.clear, RaOp.add 5]) = some b ∧
      raElemin b = 1 ∧ raMaxElemin b = 100 ∧ raElemin b ≤ raMaxElemin b := by
  have hs : (raRun 0 (ra_Create Nat 0)
      ((List.range 17).map RaOp.add ++
        [RaOp.removeUnsorted 3, RaOp.resize 100, RaOp.clear, RaOp.add 5])).isSome = true := by
    decide
  obtain ⟨b, hb⟩ := Option.isSome_iff_exists.mp hs
  have hv : (raRun 0 (ra_Create Nat 0)
      ((List.range 17).map RaOp.add ++
        [RaOp.removeUnsorted 3, RaOp.resize 100, RaOp.clear, RaOp.add 5])).map
        (fun b => (raElemin b, raMaxElemin b)) = some (1, 100) := by decide
  rw [hb] at hv
  simp only [Option.map_some', Option.some.injEq, Prod.mk.injEq] at hv
  exact ⟨b, hb, hv.1, hv.2, (ra_len_le_cap 0 0 _ b hb).2.1⟩

/-- A call of `raAdd` that has room, or can double the capacity, returns. -/
theorem raAdd_returns {α : Type} (b : Ra_Header α) (e : α) (hlen : b.len ≤ b.cap)
    (hl : b.len + 1 < U64_MOD) (h : b.len < b.cap ∨ 2 * b.cap < U64_MOD) :
    ∃ b1, raAdd b e = some (b.len, b1) ∧ b1.len = b.len + 1 ∧ b1.len ≤ b1.cap ∧
      b.cap ≤ b1.cap ∧ (b.cap < U64_MOD → b1.cap < U64_MOD) ∧
      b1.buf b.len = some e ∧ ∀ i, i < b.len → b1.buf i = b.buf i := by
  have h16 : 16 < U64_MOD := by rw [U64_MOD_eq]; omega
  by_cases hlt : b.len < b.cap
  · have e2 : (b.len + 1) % U64_MOD = b.len + 1 := Nat.mod_eq_of_lt hl
    refine ⟨_, raAdd_of_lt b e hlt, e2, ?_, Nat.le_refl _, fun hc => hc,
      bufSet_same _ _ _, ?_⟩
    · simp only [e2]; omega
    · intro i hi
      exact bufSet_other _ _ _ _ (by omega)
  · have heq : b.len = b.cap := by omega
    have hc : 2 * b.cap < U64_MOD := by omega
    refine ⟨_, raAdd_of_eq b e heq hc, rfl, ?_, ?_, ?_,
      bufSet_same (fun i => if i < b.cap ∧ i < max (2 * b.cap) 16 then b.buf i else none)
        b.len (some e), ?_⟩
    · simp only; omega
    · simp only; omega
    · intro _; simp only; omega
    · intro i hi
      have hi2 : i < b.cap ∧ i < max (2 * b.cap) 16 := by omega
      simp only
      rw [bufSet_other _ _ _ _ (by omega)]
      simp [hi2]

theorem raAddAll_from {α : Type} (es : List α) :
    ∀ b : Ra_Header α, b.len ≤ b.cap → 2 * (b.len + es.length) ≤ U64_MOD →
      ∃ b1, raAddAll b es = some b1 ∧ b1.len = b.len + es.length ∧ b1.len ≤ b1.cap ∧
        (∀ i, i < b.len → b1.buf i = b.buf i) ∧
        ∀ i, i < es.length → b1.buf (b.len + i) = es[i]? := by
  induction es with
  | nil =>
    intro b hb _
    exact ⟨b, rfl, rfl, hb, fun _ _ => rfl, fun i hi => absurd hi (by simp)⟩
  | cons e rest ih =>
    intro b hb hn
    simp only [List.length_cons] at hn
    have hM : U64_MOD = 18446744073709551616 := U64_MOD_eq
    obtain ⟨b2, h2, hl2, hc2, _, _, hs2, hk2⟩ :=
      raAdd_returns b e hb (by omega) (by omega)
    obtain ⟨b1, h1, hl1, hc1, hk1, hs1⟩ := ih b2 hc2 (by rw [hl2]; omega)
    refine ⟨b1, ?_, ?_, hc1, ?_, ?_⟩
    · simp only [raAddAll]
      rw [h2, Option.some_bind]
      exact h1
    · rw [hl1, hl2, List.length_cons]; omega
    · intro i hi
      rw [hk1 i (by omega), hk2 i hi]
    · intro i hi
      cases i with
      | zero =>
        rw [Nat.add_zero, hk1 b.len (by omega), hs2]
        simp
      | succ j =>
        have hj : j < rest.length := by simpa using hi
        have := hs1 j hj
        rw [hl2] at this
        rw [List.getElem?_cons_succ, ← this]
        congr 1
        omega

theorem map_Create_zero : map_Create Nat 0 = some mapFresh := by
  unfold map_Create
  rw [ht_Create_zero, Option.some_bind]
  rfl

theorem mapRemove_mapFresh_5 : mapRemove mapFresh 5 = some mapB1 := by rfl

theorem mapInsert_mapB1_7 (relocated : Bool) :
    mapInsert relocated mapB1 7 42 = some mapB2 := by rfl

theorem mapInsert_mapFresh_2 (relocated : Bool) :
    mapInsert relocated mapFresh 2 10 = some mapC1 := by
  cases relocated <;> rfl

theorem mapInsert_mapC1_3 (relocated : Bool) :
    mapInsert relocated mapC1 3 20 = some mapC2 := by
  cases relocated <;> rfl

theorem mapRemove_mapC2_2 : mapRemove mapC2 2 = some mapC3 := by rfl

theorem mapInsert_mapC3_3 (relocated : Bool) :
    mapInsert relocated mapC3 3 30 = some mapC4 := by rfl

theorem mapRemove_mapC4_3 : mapRemove mapC4 3 = some mapC5 := by rfl

theorem mapFresh_reachable : MapReachable mapFresh :=
  MapReachable.create 0 mapFresh (by decide) map_Create_zero

theorem mapB1_reachable : MapReachable mapB1 :=
  MapReachable.remove mapFresh 5 mapB1 mapFresh_reachable (by decide) mapRemove_mapFresh_5

theorem mapC2_reachable : MapReachable mapC2 :=
  MapReachable.insert mapC1 false 3 20 mapC2
    (MapReachable.insert mapFresh false 2 10 mapC1 mapFresh_reachable (by decide) (by decide)
      (mapInsert_mapFresh_2 false))
    (by decide) (by decide) (mapInsert_mapC1_3 false)

theorem mapC4_reachable : MapReachable mapC4 :=
  MapReachable.insert mapC3 false 3 30 mapC4
    (MapReachable.remove mapC2 2 mapC3 mapC2_reachable (by decide) mapRemove_mapC2_2)
    (by decide) (by decide) (mapInsert_mapC3_3 false)

/-- C17, evaluated on the map obtained from `mapCreate()` by `mapRemove(m, 5)`
(key 5 is absent): the map is reachable and key 7 is not zero, yet after
`mapInsert(m, 7, 42)`, whatever the allocator does, `mapExists(m, 7)` is
false.  The free list held index 0, so the value went to the reserved index 0
and the hash table was asked to store index 0, which removes the key. -/
theorem mapInsert_after_absent_mapRemove :
    MapReachable mapB1 ∧ mapExists mapFresh 5 = false ∧
      mapRemove mapFresh 5 = some mapB1 ∧
      (∀ relocated, mapInsert relocated mapB1 7 42 = some mapB2) ∧
      mapExists mapB2 7 = false ∧ htLookup mapB2.table 7 = 0 ∧
      map_DirtySlots mapB2 = map_DirtySlots mapFresh :=
  ⟨mapB1_reachable, by decide, mapRemove_mapFresh_5, mapInsert_mapB1_7, by decide, by decide,
    by decide⟩

/-- C19, evaluated on the map after `mapInsert(m, 2, 10)`, `mapInsert(m, 3, 20)`,
`mapRemove(m, 2)`, `mapInsert(m, 3, 30)`: the map is reachable and key 3 is
present; `mapRemove(m, 3)` makes `slot_filled` one less, but afterwards
`mapExists(m, 3)` is still true and `mapLookup(m, 3)` is the older value 20:
the older pair of key 3 is still stored one slot further. -/
theorem mapRemove_leaves_key_present :
    MapReachable mapC4 ∧ mapExists mapC4 3 = true ∧ mapLookup mapC4 3 = some 30 ∧
      mapRemove mapC4 3 = some mapC5 ∧
      mapC5.table.slot_filled + 1 = mapC4.table.slot_filled ∧
      mapExists mapC5 3 = true ∧ mapLookup mapC5 3 = some 20 :=
  ⟨mapC4_reachable, by decide, by decide, mapRemove_mapC4_3, by decide, by decide, by decide⟩

/-- C20: for every map state `mapExists(m, 0)` is false, and `mapRemove(m, 0)`
returns with the whole map unchanged (value buffer, `map_DirtySlots`, free
list, hash table and its `slot_filled`). -/
theorem zero_key_leaves_map_alone {α : Type} (m : Map α) :
    mapExists m 0 = false ∧ mapRemove m 0 = some m :=
  ⟨rfl, rfl⟩

theorem arraySet_lt (f : Nat → Nat) (i v n : Nat) (hf : ∀ j, f j < n) (hv : v < n) :
    ∀ j, arraySet f i v j < n := by
  intro j
  by_cases h : j = i
  · subst h; rw [arraySet_same]; exact hv
  · rw [arraySet_other f i v j h]; exact hf j

theorem insertionLoop_values_lt (hash key value n : Nat) (hv : value < n) (fuel : Nat) :
    ∀ (i : Nat) (ht : Hash_Table), (∀ j, ht.values j < n) →
      ∀ j, (insertionLoop hash key value fuel i ht).2.values j < n := by
  induction fuel with
  | zero => intro i ht h j; exact h j
  | succ fuel ih =>
    intro i ht h j
    simp only [insertionLoop]
    split_ifs
    · exact arraySet_lt ht.values _ value n h hv j
    · refine ih (i + 1) _ ?_ j
      exact h

theorem rehashLoop_values_lt (keys values : Nat → Nat) (n : Nat)
    (hs : ∀ j, values j < n) (fuel : Nat) :
    ∀ (i : Nat) (ht : Hash_Table), (∀ j, ht.values j < n) →
      ∀ j, (rehashLoop keys values fuel i ht).values j < n := by
  induction fuel with
  | zero => intro i ht h j; exact h j
  | succ fuel ih =>
    intro i ht h j
    simp only [rehashLoop]
    split_ifs
    · refine ih (i + 1) _ ?_ j
      exact insertionLoop_values_lt _ _ _ n (hs i) _ 0 ht h
    · exact ih (i + 1) ht h j

theorem ht_Resize_values_lt (ht ht1 : Hash_Table) (n : Nat) (hn : 0 < n)
    (h : ht_Resize ht = some ht1) (hv : ∀ j, ht.values j < n) :
    ∀ j, ht1.values j < n := by
  obtain ⟨g, _, rfl⟩ := ht_Resize_cases ht ht1 h
  intro j
  exact rehashLoop_values_lt ht.keys ht.values n hv _ 0 _ (fun _ => hn) j

theorem htRemove_values_lt (ht : Hash_Table) (key n : Nat) (hn : 0 < n)
    (hv : ∀ j, ht.values j < n) : ∀ j, (htRemove ht key).2.values j < n := by
  intro j
  simp only [htRemove]
  split_ifs
  all_goals first
    | exact hv j
    | exact arraySet_lt ht.values _ 0 n hv hn j

theorem htLookup_lt (ht : Hash_Table) (key n : Nat) (hn : 0 < n)
    (hv : ∀ j, ht.values j < n) : htLookup ht key < n := by
  simp only [htLookup]
  split_ifs
  all_goals first
    | exact hn
    | exact hv _

theorem htInsert_values_lt (ht : Hash_Table) (k v r : Nat) (ht1 : Hash_Table) (n : Nat)
    (hvn : v < n) (h : htInsert ht k v = some (r, ht1)) (hv : ∀ j, ht.values j < n) :
    ∀ j, ht1.values j < n := by
  have hn : 0 < n := by omega
  by_cases hk : k = 0
  · subst hk
    have : htInsert ht 0 v = some (0, ht) := by unfold htInsert; simp
    rw [this] at h
    have e2 : ht = ht1 := congrArg Prod.snd (Option.some.inj h)
    rw [← e2]; exact hv
  · by_cases hv0 : v = 0
    · subst hv0
      have : htInsert ht k 0 = some (htRemove ht k) := by unfold htInsert; simp [hk]
      rw [this] at h
      have e2 : (htRemove ht k).2 = ht1 := congrArg Prod.snd (Option.some.inj h)
      rw [← e2]
      exact htRemove_values_lt ht k n hn hv
    · obtain ⟨g, hg, _, rfl⟩ := htInsert_cases ht k v r ht1 hk hv0 h
      have hgv : ∀ j, g.values j < n := by
        rcases hg with ⟨_, rfl⟩ | ⟨_, hres⟩
        · exact hv
        · exact ht_Resize_values_lt ht g n hn hres hv
      have := insertionLoop_values_lt (hashUniversal g.univ k) k v n hvn g.slot_count 0 g hgv
      intro j
      split_ifs
      · exact this j
      · exact this j

/-- What a returning `raAdd` call did to a buffer that respects its
capacity. -/
theorem raAdd_some_props {α : Type} (b : Ra_Header α) (e : α) (n : Nat) (b1 : Ra_Header α)
    (hlen : b.len ≤ b.cap) (hcap : b.cap < U64_MOD) (h : raAdd b e = some (n, b1)) :
    (b.len < b.cap ∨ 2 * b.cap < U64_MOD) ∧
    n = b.len ∧ b1.len = b.len + 1 ∧ b1.len ≤ b1.cap ∧ b.cap ≤ b1.cap ∧
      b1.cap < U64_MOD ∧ b1.buf b.len = some e ∧ ∀ i, i < b.len → b1.buf i = b.buf i := by
  have h16 : 16 < U64_MOD := by rw [U64_MOD_eq]; omega
  by_cases hc : b.len < b.cap ∨ 2 * b.cap < U64_MOD
  · obtain ⟨b2, h2, p1, p2, p3, p4, p5, p6⟩ := raAdd_returns b e hlen (by omega) hc
    rw [h2] at h
    simp only [Option.some.injEq, Prod.mk.injEq] at h
    obtain ⟨rfl, rfl⟩ := h
    exact ⟨hc, rfl, p1, p2, p3, p4 hcap, p5, p6⟩
  · rw [raAdd_of_wrap b e (by omega) (by omega)] at h
    exact absurd h (by simp)

/-- The buffer after `raRemoveUnsorted` at a position below the length. -/
theorem raRemoveUnsorted_of_valid {α : Type} (b : Ra_Header α) (i : Nat)
    (hi : i < b.len) (hlen : b.len ≤ b.cap) (hcap : b.cap < U64_MOD) :
    raRemoveUnsorted b i =
      some { b with buf := bufSet b.buf i (b.buf (b.len - 1)), len := b.len - 1 } := by
  have hlast : (b.len + U64_MOD - 1) % U64_MOD = b.len - 1 := by
    have : b.len + U64_MOD - 1 = (b.len - 1) + U64_MOD := by omega
    rw [this, Nat.add_mod_right]
    exact Nat.mod_eq_of_lt (by omega)
  unfold raRemoveUnsorted
  simp only [hlast]
  have : i < b.cap ∧ b.len - 1 < b.cap := by omega
  simp [this]

/-- The free-list branch of `mapInsert`. -/
theorem mapInsert_of_free {α : Type} (relocated : Bool) (m : Map α) (key : Nat) (value : α)
    (index : Nat) (free_list : Ra_Header Nat) (hk : key ≠ 0) (hpos : 0 < m.free_list.len)
    (h0 : m.free_list.buf 0 = some index) (hidx : index < m.values.cap)
    (hfl : raRemoveUnsorted m.free_list 0 = some free_list) :
    mapInsert relocated m key value =
      (htInsert m.table key index).bind fun p =>
        some { values := { m.values with buf := bufSet m.values.buf index (some value) },
               table := p.2,
               free_list := free_list } := by
  unfold mapInsert
  rw [if_neg hk, if_pos (show raElemin m.free_list > 0 from hpos), h0, Option.some_bind,
    if_pos hidx, hfl, Option.some_bind]

/-- The appending branch of `mapInsert`. -/
theorem mapInsert_of_empty {α : Type} (relocated : Bool) (m : Map α) (key : Nat) (value : α)
    (hk : key ≠ 0) (h0 : m.free_list.len = 0) :
    mapInsert relocated m key value =
      (raAdd m.values value).bind fun added =>
        if ra_IsFull m.values = true ∧ relocated = true then none
        else
          (htInsert m.table key ((added.2.len + U64_MOD - 1) % U64_MOD)).bind fun p =>
          some { values := added.2, table := p.2, free_list := m.free_list } := by
  unfold mapInsert
  rw [if_neg hk, if_neg (show ¬ raElemin m.free_list > 0 by unfold raElemin; omega)]

theorem mapRemove_of_ne {α : Type} (m : Map α) (key : Nat) (hk : key ≠ 0) :
    mapRemove m key =
      (raAdd m.free_list (htLookup m.table key)).bind fun added =>
        some { m with free_list := added.2, table := (htRemove m.table key).2 } := by
  unfold mapRemove
  rw [if_neg hk]

theorem MapInv_of_map_Create {α : Type} (min_cap : Nat) (m : Map α)
    (hc : min_cap < U64_MOD) (h : map_Create α min_cap = some m) : MapInv m := by
  unfold map_Create at h
  rw [ht_Create_zero, Option.some_bind] at h
  have hm := Option.some.inj h
  have e1 : (0 + 1) % U64_MOD = 1 := by decide
  have h16 : 16 < U64_MOD := by rw [U64_MOD_eq]; omega
  have hcap : (ra_Create α min_cap).cap < U64_MOD ∧ 1 ≤ (ra_Create α min_cap).cap := by
    unfold ra_Create
    simp only
    split_ifs <;> omega
  have hcap2 : (ra_Create Nat min_cap).cap < U64_MOD := by
    unfold ra_Create
    simp only
    split_ifs <;> omega
  rw [← hm]
  refine ⟨?_, ?_, hcap.1, Nat.zero_le _, hcap2, ?_, freshTable_reachable.sizeInv, ?_⟩
  · show 1 ≤ (0 + 1) % U64_MOD
    rw [e1]
  · show (0 + 1) % U64_MOD ≤ (ra_Create α min_cap).cap
    rw [e1]; exact hcap.2
  · intro i hi
    exact absurd hi (Nat.not_lt_zero _)
  · intro i
    show (0 : Nat) < (0 + 1) % U64_MOD
    rw [e1]; exact Nat.one_pos

theorem MapInv_of_mapRemove {α : Type} (m : Map α) (key : Nat) (m1 : Map α)
    (hi : MapInv m) (h : mapRemove m key = some m1) : MapInv m1 := by
  by_cases hk : key = 0
  · subst hk
    have : mapRemove m 0 = some m := rfl
    rw [this] at h
    rw [← Option.some.inj h]; exact hi
  · rw [mapRemove_of_ne m key hk, Option.bind_eq_some] at h
    obtain ⟨⟨n, fl⟩, hadd, hm⟩ := h
    have hm := Option.some.inj hm
    obtain ⟨_, _, p1, p2, _, p4, p5, p6⟩ :=
      raAdd_some_props m.free_list _ n fl hi.free_le hi.free_cap hadd
    rw [← hm]
    refine ⟨hi.values_pos, hi.values_le, hi.values_cap, p2, p4, ?_,
      SizeInv_of_htRemove m.table key hi.table_size,
      htRemove_values_lt m.table key _ hi.values_pos hi.table_values⟩
    intro i hil
    simp only at hil ⊢
    by_cases hlt : i < m.free_list.len
    · rw [p6 i hlt]; exact hi.free_some i hlt
    · have : i = m.free_list.len := by omega
      subst this
      exact ⟨_, p5, htLookup_lt m.table key _ hi.values_pos hi.table_values⟩

theorem MapInv_of_mapInsert {α : Type} (relocated : Bool) (m : Map α) (key : Nat) (value : α)
    (m1 : Map α) (hi : MapInv m) (hk : key ≠ 0)
    (h : mapInsert relocated m key value = some m1) : MapInv m1 := by
  by_cases h0 : m.free_list.len = 0
  · rw [mapInsert_of_empty relocated m key value hk h0, Option.bind_eq_some] at h
    obtain ⟨⟨n, vs⟩, hadd, hm⟩ := h
    obtain ⟨_, _, p1, p2, p3, p4, p5, p6⟩ :=
      raAdd_some_props m.values value n vs hi.values_le hi.values_cap hadd
    split_ifs at hm
    rw [Option.bind_eq_some] at hm
    obtain ⟨⟨r, t⟩, hins, hm⟩ := hm
    have hm := Option.some.inj hm
    have hidx : (vs.len + U64_MOD - 1) % U64_MOD = m.values.len := by
      have := hi.values_le
      have := hi.values_cap
      rw [p1]
      have : m.values.len + 1 + U64_MOD - 1 = m.values.len + U64_MOD := by omega
      rw [this, Nat.add_mod_right]
      exact Nat.mod_eq_of_lt (by omega)
    simp only [hidx] at hins
    rw [← hm]
    refine ⟨?_, p2, p4, hi.free_le, hi.free_cap, ?_,
      SizeInv_of_htInsert_any m.table key _ r t hi.table_size hins, ?_⟩
    · simp only; omega
    · intro i hil
      obtain ⟨index, e1, e2⟩ := hi.free_some i hil
      exact ⟨index, e1, by simp only; omega⟩
    · simp only
      rw [p1]
      refine htInsert_values_lt m.table key _ r t _ (Nat.lt_succ_self _) hins ?_
      intro j
      exact Nat.lt_succ_of_lt (hi.table_values j)
  · have hpos : 0 < m.free_list.len := by omega
    obtain ⟨index, e1, e2⟩ := hi.free_some 0 hpos
    have := hi.values_le
    rw [mapInsert_of_free relocated m key value index _ hk hpos e1 (by omega)
      (raRemoveUnsorted_of_valid m.free_list 0 hpos hi.free_le hi.free_cap),
      Option.bind_eq_some] at h
    obtain ⟨⟨r, t⟩, hins, hm⟩ := h
    have hm := Option.some.inj hm
    rw [← hm]
    refine ⟨hi.values_pos, hi.values_le, hi.values_cap, ?_, hi.free_cap, ?_,
      SizeInv_of_htInsert_any m.table key _ r t hi.table_size hins,
      htInsert_values_lt m.table key _ r t _ e2 hins hi.table_values⟩
    · have := hi.free_le
      simp only; omega
    · intro i hil
      simp only at hil ⊢
      by_cases hi0 : i = 0
      · subst hi0
        rw [bufSet_same]
        exact hi.free_some _ (by omega)
      · rw [bufSet_other _ _ _ _ hi0]
        exact hi.free_some i (by omega)

/-- Every reachable map satisfies `MapInv`. -/
theorem MapReachable.inv {α : Type} {m : Map α} (h : MapReachable m) : MapInv m := by
  induction h with
  | create min_cap m hc hm => exact MapInv_of_map_Create min_cap m hc hm
  | insert m relocated key value m1 _ hk _ hm ih =>
    exact MapInv_of_mapInsert relocated m key value m1 ih hk hm
  | remove m key m1 _ _ hm ih => exact MapInv_of_mapRemove m key m1 ih hm

/-- After a returning `htInsert` of a non-zero pair into a table of sound
size the key looks up to the stored value. -/
theorem htLookup_of_htInsert (ht : Hash_Table) (k v r : Nat) (ht1 : Hash_Table)
    (hi : SizeInv ht) (hk : k ≠ 0) (hv : v ≠ 0) (h : htInsert ht k v = some (r, ht1)) :
    htLookup ht1 k = v := by
  obtain ⟨g, hg, _, rfl⟩ := htInsert_cases ht k v r ht1 hk hv h
  obtain ⟨gi, gl⟩ := SizeInv_before_insertion ht g hi hg
  have hroom : nonzeroCount g.values g.slot_count < g.slot_count := by
    have := gi.filled_le; omega
  obtain ⟨q1, q2, _⟩ :=
    ht_LinearProbeInsertion_room g (hashUniversal g.univ k) k v gi.pos gi.dvd hroom
  apply htLookup_after_insertion g k v hk gi.pos gi.dvd hroom
  · split_ifs
    · exact q1
    · exact q1
  · split_ifs
    · exact q2
    · exact q2
  · split_ifs <;> rfl
  · split_ifs <;> rfl

theorem internInteger_create_5 : internInteger internIntegerCreate 5 = some (5, intA1) := by rfl

theorem internInteger_intA1_7 : internInteger intA1 7 = some (7, intA2) := by rfl

theorem internInteger_intA2_5 : internInteger intA2 5 = some (5, intA3) := by rfl

theorem intA2_reachable : IntReachable intA2 :=
  IntReachable.intern intA1 7 intA2
    (IntReachable.intern internIntegerCreate 5 intA1 IntReachable.create (by decide)
      internInteger_create_5)
    (by decide) internInteger_intA1_7

/-- C28, evaluated on the integer table after `internInteger(ii, 5)` and
`internInteger(ii, 7)`: the table is reachable and 5 is stored at position 0,
yet a second `internInteger(ii, 5)` appends 5 again at position 2.  The bucket
entry of the first 5 records index 1, where 7 is stored, so the check compares
5 with 7. -/
theorem internInteger_appends_second_copy :
    IntReachable intA2 ∧ raElemin intA2.integers = 2 ∧ intA2.integers.buf 0 = some 5 ∧
      intA2.integers.buf 1 = some 7 ∧
      internInteger intA2 5 = some (5, intA3) ∧
      raElemin intA3.integers = 3 ∧ intA3.integers.buf 0 = some 5 ∧
      intA3.integers.buf 2 = some 5 ∧
      (intA2.intern.lists (internIntegerHash8Bit 5 true)).indices.buf 0 = some 1 :=
  ⟨intA2_reachable, by decide, by decide, by decide, internInteger_intA2_5, by decide,
    by decide, by decide, by decide⟩

/-- C29, evaluated on the integer table after `internInteger(ii, 5)` and
`internInteger(ii, 7)`: the table is reachable and 5 has been interned in it,
yet `internIntegerCheck(ii, 5)` returns 0 (absent), while for 9, never
interned, it returns 0 as well. -/
theorem internIntegerCheck_misses_interned :
    IntReachable intA2 ∧ internInteger internIntegerCreate 5 = some (5, intA1) ∧
      internInteger intA1 7 = some (7, intA2) ∧ (5 : Nat) ≠ 0 ∧
      internIntegerCheck intA2 5 = some 0 ∧ internIntegerCheck intA2 9 = some 0 :=
  ⟨intA2_reachable, internInteger_create_5, internInteger_intA1_7, by decide, by decide,
    by decide⟩

/-- C30: for every hashing-constant triple with `1 <= m <= 63` and every key,
`hashUniversal` is `((a*key + b) mod 2^64)` shifted right by `64 - m`, and the
result is below `2^m`, the slot count of a table with that `m`. -/
theorem hashUniversal_lt (h : Hash_Universal) (key : Nat) (h1 : 1 ≤ h.m) (h2 : h.m ≤ 63) :
    hashUniversal h key = ((h.a * key + h.b) % 2 ^ 64) >>> (64 - h.m) ∧
    hashUniversal h key < 2 ^ h.m := by
  have e : hashUniversal h key = ((h.a * key + h.b) % 2 ^ 64) >>> (64 - h.m) := by
    unfold hashUniversal
    have hM : U64_MOD = 2 ^ 64 := by rw [U64_MOD_eq]; norm_num
    rw [hM, Nat.mod_add_mod]
  refine ⟨e, ?_⟩
  rw [e, Nat.shiftRight_eq_div_pow]
  have hlt : (h.a * key + h.b) % 2 ^ 64 < 2 ^ 64 := Nat.mod_lt _ (Nat.two_pow_pos 64)
  have hp : (2 : Nat) ^ h.m * 2 ^ (64 - h.m) = 2 ^ 64 := by
    rw [← Nat.pow_add]
    congr 1
    omega
  rw [Nat.div_lt_iff_lt_mul (Nat.two_pow_pos _), hp]
  exact hlt

/-- Witness for C30 with the constants of a fresh table and key 2. -/
theorem hashUniversal_lt_witness :
    hashUniversal freshTable.univ 2 =
      ((freshTable.univ.a * 2 + freshTable.univ.b) % 2 ^ 64) >>> (64 - freshTable.univ.m) ∧
    hashUniversal freshTable.univ 2 < 2 ^ freshTable.univ.m ∧
    hashUniversal freshTable.univ 2 = 1 :=
  ⟨(hashUniversal_lt freshTable.univ 2 (by decide) (by decide)).1,
   (hashUniversal_lt freshTable.univ 2 (by decide) (by decide)).2, by decide⟩

theorem mapC3_reachable : MapReachable mapC3 :=
  MapReachable.remove mapC2 2 mapC3 mapC2_reachable (by decide) mapRemove_mapC2_2

/-- C21, evaluated on the map after `mapInsert(m, 2, 10)`, `mapInsert(m, 3, 20)`,
`mapRemove(m, 2)`: the map is reachable and key 3 is present with value 20;
`mapInsert(m, 3, 30)` makes `mapLookup(m, 3)` 30, but `slot_filled` goes from
1 to 2 although no key was added: the pair lands in the slot that
`mapRemove(m, 2)` emptied, in front of the older pair of key 3. -/
theorem mapInsert_present_key_counts_twice :
    MapReachable mapC3 ∧ mapExists mapC3 3 = true ∧ mapLookup mapC3 3 = some 20 ∧
      (∀ relocated, mapInsert relocated mapC3 3 30 = some mapC4) ∧
      mapLookup mapC4 3 = some 30 ∧
      mapC3.table.slot_filled = 1 ∧ mapC4.table.slot_filled = 2 :=
  ⟨mapC3_reachable, by decide, by decide, mapInsert_mapC3_3, by decide, by decide, by decide⟩

/-- C23, evaluated on the map obtained from `mapCreate()` by `mapRemove(m, 5)`
(key 5 is absent): the map is reachable and its free list holds index 0;
the next `mapInsert(m, 7, 42)` takes that index, stores 42 at index 0 of the
value buffer and hands index 0 to `htInsert`. -/
theorem free_list_receives_index_zero :
    MapReachable mapB1 ∧ raElemin mapB1.free_list = 1 ∧ mapB1.free_list.buf 0 = some 0 ∧
      (∀ relocated, mapInsert relocated mapB1 7 42 = some mapB2) ∧
      mapFresh.values.buf 0 = none ∧ mapB2.values.buf 0 = some 42 ∧
      (htInsert mapB1.table 7 0).map Prod.fst = some 0 ∧ mapExists mapB2 7 = false :=
  ⟨mapB1_reachable, by decide, by decide, mapInsert_mapB1_7, by decide, by decide, by decide,
    by decide⟩

/-- C24, evaluated on the map after `mapInsert(m, 2, 10)`, `mapInsert(m, 3, 20)`,
`mapRemove(m, 2)`, `mapInsert(m, 3, 30)`: the map is reachable, key 3 is its
only live key and `mapLookup(m, 3)` is 30, yet `mapForEach` yields two pairs
for key 3, the second with the older value 20. -/
theorem mapForEach_yields_key_twice :
    MapReachable mapC4 ∧ mapExists mapC4 3 = true ∧ mapExists mapC4 2 = false ∧
      mapLookup mapC4 3 = some 30 ∧
      mapForEach mapC4 = some [(3, some 30), (3, some 20)] :=
  ⟨mapC4_reachable, by decide, by decide, by decide, by decide⟩

/-- No two places of `f` hold the same non-zero entry. -/
theorem distinct_arraySet_fresh (f : Nat → Nat) (p v : Nat)
    (hd : ∀ i j, f i ≠ 0 → f i = f j → i = j) (hv : ∀ i, f i ≠ v) :
    ∀ i j, arraySet f p v i ≠ 0 → arraySet f p v i = arraySet f p v j → i = j := by
  intro i j hi he
  by_cases h1 : i = p
  · by_cases h2 : j = p
    · rw [h1, h2]
    · rw [h1, arraySet_same, arraySet_other f p v j h2] at he
      exact absurd he.symm (hv j)
  · by_cases h2 : j = p
    · rw [h2, arraySet_same, arraySet_other f p v i h1] at he
      exact absurd he (hv i)
    · rw [arraySet_other f p v i h1] at hi he
      rw [arraySet_other f p v j h2] at he
      exact hd i j hi he

theorem distinct_arraySet_zero (f : Nat → Nat) (p : Nat)
    (hd : ∀ i j, f i ≠ 0 → f i = f j → i = j) :
    ∀ i j, arraySet f p 0 i ≠ 0 → arraySet f p 0 i = arraySet f p 0 j → i = j := by
  intro i j hi he
  by_cases h1 : i = p
  · rw [h1, arraySet_same] at hi
    exact absurd rfl hi
  · rw [arraySet_other f p 0 i h1] at hi he
    by_cases h2 : j = p
    · rw [h2, arraySet_same] at he
      exact absurd he hi
    · rw [arraySet_other f p 0 j h2] at he
      exact hd i j hi he

theorem insertionLoop_values_eq (hash key value : Nat) (fuel : Nat) :
    ∀ (i : Nat) (ht : Hash_Table),
      (insertionLoop hash key value fuel i ht).2.values = ht.values ∨
      ∃ p, (insertionLoop hash key value fuel i ht).2.values = arraySet ht.values p value := by
  induction fuel with
  | zero => intro i ht; left; rfl
  | succ fuel ih =>
    intro i ht
    simp only [insertionLoop]
    split_ifs
    · right; exact ⟨_, rfl⟩
    · exact ih (i + 1) _

/-- Storing a fresh non-zero value keeps the slot values distinct, and every
slot value afterwards is the new one or an old one. -/
theorem insertion_distinct (g : Hash_Table) (hash k v : Nat)
    (hd : ∀ i j, g.values i ≠ 0 → g.values i = g.values j → i = j)
    (hv : ∀ i, g.values i ≠ v) :
    (∀ i j, (ht_LinearProbeInsertion g hash k v).2.values i ≠ 0 →
      (ht_LinearProbeInsertion g hash k v).2.values i =
        (ht_LinearProbeInsertion g hash k v).2.values j → i = j) ∧
    ∀ j, (ht_LinearProbeInsertion g hash k v).2.values j ≠ 0 →
      (ht_LinearProbeInsertion g hash k v).2.values j = v ∨
      ∃ i, (ht_LinearProbeInsertion g hash k v).2.values j = g.values i := by
  unfold ht_LinearProbeInsertion
  rcases insertionLoop_values_eq hash k v g.slot_count 0 g with h | ⟨p, h⟩
  · rw [h]
    exact ⟨hd, fun j _ => Or.inr ⟨j, rfl⟩⟩
  · rw [h]
    refine ⟨distinct_arraySet_fresh g.values p v hd hv, ?_⟩
    intro j _
    by_cases hj : j = p
    · left; rw [hj, arraySet_same]
    · right; exact ⟨j, arraySet_other g.values p v j hj⟩

theorem rehashLoop_distinct (keys values : Nat → Nat)
    (hV : ∀ i j, values i ≠ 0 → values i = values j → i = j) (fuel : Nat) :
    ∀ (i : Nat) (g : Hash_Table),
      (∀ a b, g.values a ≠ 0 → g.values a = g.values b → a = b) →
      (∀ j, g.values j ≠ 0 → ∃ i1, i1 < i ∧ g.values j = values i1) →
      (∀ a b, (rehashLoop keys values fuel i g).values a ≠ 0 →
        (rehashLoop keys values fuel i g).values a =
          (rehashLoop keys values fuel i g).values b → a = b) ∧
      ∀ j, (rehashLoop keys values fuel i g).values j ≠ 0 →
        ∃ i1, (rehashLoop keys values fuel i g).values j = values i1 := by
  induction fuel with
  | zero =>
    intro i g hd hs
    refine ⟨hd, ?_⟩
    intro j hj
    obtain ⟨i1, _, h⟩ := hs j hj
    exact ⟨i1, h⟩
  | succ fuel ih =>
    intro i g hd hs
    simp only [rehashLoop]
    split_ifs with hz
    · have hfresh : ∀ a, g.values a ≠ values i := by
        intro a ha
        have hne : g.values a ≠ 0 := by rw [ha]; exact hz
        obtain ⟨i1, hlt, h1⟩ := hs a hne
        have : i1 = i := hV i1 i (by rw [← h1]; exact hne) (by rw [← h1]; exact ha)
        omega
      obtain ⟨d1, d2⟩ := insertion_distinct g (hashUniversal g.univ (keys i)) (keys i)
        (values i) hd hfresh
      refine ih (i + 1) _ d1 ?_
      intro j hj
      rcases d2 j hj with h | ⟨a, h⟩
      · exact ⟨i, by omega, h⟩
      · rw [h] at hj
        obtain ⟨i1, hlt, h1⟩ := hs a hj
        exact ⟨i1, by omega, by rw [h, h1]⟩
    · refine ih (i + 1) g hd ?_
      intro j hj
      obtain ⟨i1, hlt, h1⟩ := hs j hj
      exact ⟨i1, by omega, h1⟩

theorem ht_Resize_distinct (ht ht1 : Hash_Table) (h : ht_Resize ht = some ht1)
    (hd : ∀ i j, ht.values i ≠ 0 → ht.values i = ht.values j → i = j) :
    (∀ i j, ht1.values i ≠ 0 → ht1.values i = ht1.values j → i = j) ∧
    ∀ j, ht1.values j ≠ 0 → ∃ i, ht1.values j = ht.values i := by
  obtain ⟨g, _, rfl⟩ := ht_Resize_cases ht ht1 h
  exact rehashLoop_distinct ht.keys ht.values hd ht.slot_count 0
    { g with keys := zeroArray, values := zeroArray }
    (fun a _ ha => absurd rfl ha) (fun j hj => absurd rfl hj)

/-- The slot values after `htRemove`: unchanged when the key has no value,
otherwise the slot that held the looked-up value is zeroed. -/
theorem htRemove_values (ht : Hash_Table) (key : Nat) :
    (htLookup ht key = 0 ∧ (htRemove ht key).2.values = ht.values) ∨
    ∃ p, ht.values p = htLookup ht key ∧ htLookup ht key ≠ 0 ∧
      (htRemove ht key).2.values = arraySet ht.values p 0 := by
  by_cases hk : key = 0
  · left
    subst hk
    exact ⟨htLookup_zero_key ht, rfl⟩
  · simp only [htRemove, htLookup, if_neg hk]
    split_ifs with h1 h2 h3
    · right
      exact ⟨_, rfl, h2, rfl⟩
    · left
      simp only [ne_eq, not_not] at h2
      exact ⟨h2, rfl⟩
    · exact absurd rfl h3
    · left
      exact ⟨rfl, rfl⟩

theorem htRemove_distinct (ht : Hash_Table) (key : Nat)
    (hd : ∀ i j, ht.values i ≠ 0 → ht.values i = ht.values j → i = j) :
    (∀ i j, (htRemove ht key).2.values i ≠ 0 →
      (htRemove ht key).2.values i = (htRemove ht key).2.values j → i = j) ∧
    (∀ j, (htRemove ht key).2.values j ≠ 0 →
      (htRemove ht key).2.values j = ht.values j) ∧
    (htLookup ht key ≠ 0 → ∀ j, (htRemove ht key).2.values j ≠ htLookup ht key) := by
  rcases htRemove_values ht key with ⟨h0, h⟩ | ⟨p, hp, hne, h⟩
  · rw [h]
    exact ⟨hd, fun _ _ => rfl, fun hne => absurd h0 hne⟩
  · rw [h]
    refine ⟨distinct_arraySet_zero ht.values p hd, ?_, ?_⟩
    · intro j hj
      by_cases hjp : j = p
      · rw [hjp, arraySet_same] at hj
        exact absurd rfl hj
      · exact arraySet_other ht.values p 0 j hjp
    · intro _ j hj
      by_cases hjp : j = p
      · rw [hjp, arraySet_same] at hj
        exact hne hj.symm
      · rw [arraySet_other ht.values p 0 j hjp] at hj
        have : j = p := hd j p (by rw [hj]; exact hne) (by rw [hj, hp])
        exact hjp this

/-- A returning `htInsert` of a value that is zero or not yet in the table
keeps the slot values distinct; every slot value afterwards is the new one or
an old one. -/
theorem htInsert_distinct (ht : Hash_Table) (k v r : Nat) (ht1 : Hash_Table)
    (h : htInsert ht k v = some (r, ht1))
    (hd : ∀ i j, ht.values i ≠ 0 → ht.values i = ht.values j → i = j)
    (hv : v ≠ 0 → ∀ i, ht.values i ≠ v) :
    (∀ i j, ht1.values i ≠ 0 → ht1.values i = ht1.values j → i = j) ∧
    ∀ j, ht1.values j ≠ 0 → ht1.values j = v ∨ ∃ i, ht1.values j = ht.values i := by
  by_cases hk : k = 0
  · subst hk
    have : htInsert ht 0 v = some (0, ht) := by unfold htInsert; simp
    rw [this] at h
    have e2 : ht = ht1 := congrArg Prod.snd (Option.some.inj h)
    rw [← e2]
    exact ⟨hd, fun j _ => Or.inr ⟨j, rfl⟩⟩
  · by_cases hv0 : v = 0
    · subst hv0
      have : htInsert ht k 0 = some (htRemove ht k) := by unfold htInsert; simp [hk]
      rw [this] at h
      have e2 : (htRemove ht k).2 = ht1 := congrArg Prod.snd (Option.some.inj h)
      rw [← e2]
      obtain ⟨d1, d2, _⟩ := htRemove_distinct ht k hd
      exact ⟨d1, fun j hj => Or.inr ⟨j, d2 j hj⟩⟩
    · obtain ⟨g, hg, _, hht1⟩ := htInsert_cases ht k v r ht1 hk hv0 h
      have hgd : (∀ i j, g.values i ≠ 0 → g.values i = g.values j → i = j) ∧
          ∀ j, g.values j ≠ 0 → ∃ i, g.values j = ht.values i := by
        rcases hg with ⟨_, rfl⟩ | ⟨_, hres⟩
        · exact ⟨hd, fun j _ => ⟨j, rfl⟩⟩
        · exact ht_Resize_distinct ht g hres hd
      have hfresh : ∀ i, g.values i ≠ v := by
        intro i hi
        obtain ⟨a, ha⟩ := hgd.2 i (by rw [hi]; exact hv0)
        exact hv hv0 a (by rw [← ha, hi])
      obtain ⟨d1, d2⟩ := insertion_distinct g (hashUniversal g.univ k) k v hgd.1 hfresh
      have hvals : ht1.values =
          (ht_LinearProbeInsertion g (hashUniversal g.univ k) k v).2.values := by
        rw [hht1]
        split_ifs <;> rfl
      rw [hvals]
      refine ⟨d1, ?_⟩
      intro j hj
      rcases d2 j hj with h1 | ⟨a, h1⟩
      · left; exact h1
      · right
        rw [h1] at hj
        obtain ⟨b, hb⟩ := hgd.2 a hj
        exact ⟨b, by rw [h1, hb]⟩

theorem IndexInv_of_map_Create {α : Type} (min_cap : Nat) (m : Map α)
    (h : map_Create α min_cap = some m) : IndexInv m := by
  unfold map_Create at h
  rw [ht_Create_zero, Option.some_bind] at h
  have hm := Option.some.inj h
  rw [← hm]
  refine ⟨?_, ?_, ?_⟩
  · intro i j hi
    exact absurd rfl hi
  · intro i j _ hi
    exact absurd rfl hi
  · intro i j hi
    exact absurd hi (Nat.not_lt_zero _)

theorem IndexInv_of_mapRemove {α : Type} (m : Map α) (key : Nat) (m1 : Map α)
    (hi : MapInv m) (hx : IndexInv m) (h : mapRemove m key = some m1) : IndexInv m1 := by
  by_cases hk : key = 0
  · subst hk
    have : mapRemove m 0 = some m := rfl
    rw [this] at h
    rw [← Option.some.inj h]; exact hx
  · rw [mapRemove_of_ne m key hk, Option.bind_eq_some] at h
    obtain ⟨⟨n, fl⟩, hadd, hm⟩ := h
    have hm := Option.some.inj hm
    obtain ⟨_, _, p1, _, _, _, p5, p6⟩ :=
      raAdd_some_props m.free_list _ n fl hi.free_le hi.free_cap hadd
    obtain ⟨d1, d2, d3⟩ := htRemove_distinct m.table key hx.slots_distinct
    have hslot : htLookup m.table key ≠ 0 → ∃ p, m.table.values p = htLookup m.table key := by
      intro hne
      rcases htRemove_values m.table key with ⟨h0, _⟩ | ⟨p, hp, _, _⟩
      · exact absurd h0 hne
      · exact ⟨p, hp⟩
    have hnew : ∀ j, j < m.free_list.len → m.free_list.buf j ≠ some (htLookup m.table key) ∨
        htLookup m.table key = 0 := by
      intro j hj
      by_cases hne : htLookup m.table key = 0
      · right; exact hne
      · left
        obtain ⟨p, hp⟩ := hslot hne
        rw [← hp]
        exact hx.free_not_live p j hj (by rw [hp]; exact hne)
    rw [← hm]
    refine ⟨d1, ?_, ?_⟩
    · intro i j hj hv
      simp only at hj hv ⊢
      rw [p1] at hj
      rw [d2 i hv]
      have hv2 : m.table.values i ≠ 0 := by rw [← d2 i hv]; exact hv
      by_cases hlt : j < m.free_list.len
      · rw [p6 j hlt]
        exact hx.free_not_live i j hlt hv2
      · have hje : j = m.free_list.len := by omega
        rw [hje, p5]
        intro he
        have he := Option.some.inj he
        by_cases hne : htLookup m.table key = 0
        · rw [hne] at he; exact hv2 he.symm
        · exact d3 hne i (by rw [d2 i hv]; exact he.symm)
    · intro i j hil hjl hne he
      simp only at hil hjl hne he
      rw [p1] at hil hjl
      by_cases hi1 : i < m.free_list.len
      · by_cases hj1 : j < m.free_list.len
        · rw [p6 i hi1] at hne he
          rw [p6 j hj1] at he
          exact hx.free_distinct i j hi1 hj1 hne he
        · have hje : j = m.free_list.len := by omega
          rw [p6 i hi1] at hne he
          rw [hje, p5] at he
          rcases hnew i hi1 with h1 | h1
          · exact absurd he h1
          · rw [h1] at he; exact absurd he hne
      · have hie : i = m.free_list.len := by omega
        by_cases hj1 : j < m.free_list.len
        · rw [hie, p5] at hne he
          rw [p6 j hj1] at he
          rcases hnew j hj1 with h1 | h1
          · exact absurd he.symm h1
          · rw [h1] at hne; exact absurd rfl hne
        · omega

theorem IndexInv_of_mapInsert {α : Type} (relocated : Bool) (m : Map α) (key : Nat) (value : α)
    (m1 : Map α) (hi : MapInv m) (hx : IndexInv m) (hk : key ≠ 0)
    (h : mapInsert relocated m key value = some m1) : IndexInv m1 := by
  by_cases h0 : m.free_list.len = 0
  · rw [mapInsert_of_empty relocated m key value hk h0, Option.bind_eq_some] at h
    obtain ⟨⟨n, vs⟩, hadd, hm⟩ := h
    obtain ⟨_, _, p1, _, _, _, _, _⟩ :=
      raAdd_some_props m.values value n vs hi.values_le hi.values_cap hadd
    split_ifs at hm
    rw [Option.bind_eq_some] at hm
    obtain ⟨⟨r, t⟩, hins, hm⟩ := hm
    have hm := Option.some.inj hm
    have hidx : (vs.len + U64_MOD - 1) % U64_MOD = m.values.len := by
      have := hi.values_le
      have := hi.values_cap
      rw [p1]
      have : m.values.len + 1 + U64_MOD - 1 = m.values.len + U64_MOD := by omega
      rw [this, Nat.add_mod_right]
      exact Nat.mod_eq_of_lt (by omega)
    simp only [hidx] at hins
    obtain ⟨d1, _⟩ := htInsert_distinct m.table key _ r t hins hx.slots_distinct
      (fun _ i hv => absurd hv (Nat.ne_of_lt (hi.table_values i)))
    rw [← hm]
    refine ⟨d1, ?_, ?_⟩
    · intro i j hj
      simp only at hj
      omega
    · intro i j hil
      simp only at hil
      omega
  · have hpos : 0 < m.free_list.len := by omega
    obtain ⟨index, e1, e2⟩ := hi.free_some 0 hpos
    have := hi.values_le
    rw [mapInsert_of_free relocated m key value index _ hk hpos e1 (by omega)
      (raRemoveUnsorted_of_valid m.free_list 0 hpos hi.free_le hi.free_cap),
      Option.bind_eq_some] at h
    obtain ⟨⟨r, t⟩, hins, hm⟩ := h
    have hm := Option.some.inj hm
    obtain ⟨d1, d2⟩ := htInsert_distinct m.table key index r t hins hx.slots_distinct
      (by
        intro hne i hv
        exact hx.free_not_live i 0 hpos (by rw [hv]; exact hne) (by rw [e1, hv]))
    have hpop : ∀ j, j < m.free_list.len - 1 →
        ∃ q, q < m.free_list.len ∧ q ≠ 0 ∧ (q = if j = 0 then m.free_list.len - 1 else j) ∧
          bufSet m.free_list.buf 0 (m.free_list.buf (m.free_list.len - 1)) j =
            m.free_list.buf q := by
      intro j hj
      by_cases hj0 : j = 0
      · subst hj0
        exact ⟨m.free_list.len - 1, by omega, by omega, by simp, bufSet_same _ _ _⟩
      · exact ⟨j, by omega, hj0, by simp [hj0], bufSet_other _ _ _ _ hj0⟩
    rw [← hm]
    refine ⟨d1, ?_, ?_⟩
    · intro i j hj hv
      simp only at hj hv ⊢
      obtain ⟨q, hq, hq0, _, hb⟩ := hpop j hj
      rw [hb]
      rcases d2 i hv with hvi | ⟨a, hva⟩
      · rw [hvi]
        intro he
        have hne : m.free_list.buf q ≠ some 0 := by
          rw [he]
          intro h00
          have h00 := Option.some.inj h00
          rw [hvi] at hv
          exact hv h00
        have := hx.free_distinct q 0 hq hpos hne (by rw [he, e1])
        exact hq0 this
      · rw [hva]
        exact hx.free_not_live a q hq (by rw [← hva]; exact hv)
    · intro i j hil hjl hne he
      simp only at hil hjl hne he
      obtain ⟨q1, hq1, _, hq1e, hb1⟩ := hpop i hil
      obtain ⟨q2, hq2, _, hq2e, hb2⟩ := hpop j hjl
      rw [hb1] at hne he
      rw [hb2] at he
      have hq := hx.free_distinct q1 q2 hq1 hq2 hne he
      rw [hq1e, hq2e] at hq
      split_ifs at hq with c1 c2 c2
      · rw [c1, c2]
      · omega
      · omega
      · exact hq

/-- Every reachable map satisfies `IndexInv`. -/
theorem MapReachable.indexInv {α : Type} {m : Map α} (h : MapReachable m) : IndexInv m := by
  induction h with
  | create min_cap m _ hm => exact IndexInv_of_map_Create min_cap m hm
  | insert m relocated key value m1 hr hk _ hm ih =>
    exact IndexInv_of_mapInsert relocated m key value m1 hr.inv ih hk hm
  | remove m key m1 hr _ hm ih => exact IndexInv_of_mapRemove m key m1 hr.inv ih hm

/-- A present key sits in a slot of the hash table that holds its index. -/
theorem mapExists_slot {α : Type} (m : Map α) (k : Nat) (h : mapExists m k = true) :
    htLookup m.table k ≠ 0 ∧ ∃ p, m.table.keys p = k ∧ m.table.values p = htLookup m.table k := by
  have hk : k ≠ 0 := by
    intro h0; subst h0
    exact absurd h (by simp [mapExists])
  have hne : htLookup m.table k ≠ 0 := by
    simpa [mapExists, hk] using h
  refine ⟨hne, ?_⟩
  rcases htLookup_cases m.table k hk with ⟨t, _, hkey, _, hval⟩ | ⟨_, h0⟩
  · exact ⟨_, hkey, hval.symm⟩
  · exact absurd h0 hne

/-- C22: in every reachable map the index stored for a live key lies in
`1 .. len-1` of the value buffer, two distinct live keys have distinct
indices, and no entry of the free list is the index of a live key. -/
theorem map_indices_sound {α : Type} (m : Map α) (hr : MapReachable m) :
    (∀ k, mapExists m k = true →
      1 ≤ htLookup m.table k ∧ htLookup m.table k < raElemin m.values) ∧
    (∀ k1 k2, mapExists m k1 = true → mapExists m k2 = true → k1 ≠ k2 →
      htLookup m.table k1 ≠ htLookup m.table k2) ∧
    (∀ j k, j < raElemin m.free_list → mapExists m k = true →
      m.free_list.buf j ≠ some (htLookup m.table k)) := by
  have hi := hr.inv
  have hx := hr.indexInv
  refine ⟨?_, ?_, ?_⟩
  · intro k hk
    obtain ⟨hne, _⟩ := mapExists_slot m k hk
    exact ⟨Nat.pos_of_ne_zero hne, htLookup_lt m.table k _ hi.values_pos hi.table_values⟩
  · intro k1 k2 h1 h2 hne he
    obtain ⟨hn1, p1, hk1, hv1⟩ := mapExists_slot m k1 h1
    obtain ⟨_, p2, hk2, hv2⟩ := mapExists_slot m k2 h2
    have := hx.slots_distinct p1 p2 (by rw [hv1]; exact hn1) (by rw [hv1, hv2, he])
    rw [this] at hk1
    exact hne (hk1.symm.trans hk2)
  · intro j k hj hk
    obtain ⟨hn, p, _, hv⟩ := mapExists_slot m k hk
    rw [← hv]
    exact hx.free_not_live p j hj (by rw [hv]; exact hn)

/-- Witness for C22 on the map that holds key 3 twice in its hash table and
index 1 on its free list. -/
theorem map_indices_sound_witness :
    MapReachable mapC5 ∧ mapExists mapC5 3 = true ∧ raElemin mapC5.free_list = 1 ∧
    (∀ k, mapExists mapC5 k = true →
      1 ≤ htLookup mapC5.table k ∧ htLookup mapC5.table k < raElemin mapC5.values) ∧
    (∀ k1 k2, mapExists mapC5 k1 = true → mapExists mapC5 k2 = true → k1 ≠ k2 →
      htLookup mapC5.table k1 ≠ htLookup mapC5.table k2) ∧
    (∀ j k, j < raElemin mapC5.free_list → mapExists mapC5 k = true →
      mapC5.free_list.buf j ≠ some (htLookup mapC5.table k)) :=
  ⟨MapReachable.remove mapC4 3 mapC5 mapC4_reachable (by decide) mapRemove_mapC4_3,
    by decide, by decide,
    map_indices_sound mapC5
      (MapReachable.remove mapC4 3 mapC5 mapC4_reachable (by decide) mapRemove_mapC4_3)⟩

theorem listsSet_same (lists : Nat → Intern_List) (h : Nat) (l : Intern_List) :
    listsSet lists h l h = l := by
  unfold listsSet; simp

theorem listsSet_other (lists : Nat → Intern_List) (h j : Nat) (l : Intern_List)
    (hj : j ≠ h) : listsSet lists h l j = lists j := by
  unfold listsSet; simp [hj]

/-- Comparing a string with a buffer that holds `t` from offset `i` on. -/
theorem streqLoop_spec (sb : Ra_Header Nat) :
    ∀ (q t : List Nat) (i : Nat), (∀ c, c ∈ q → c ≠ 0) → (∀ c, c ∈ t → c ≠ 0) →
      (∀ k, k < t.length → sb.buf (i + k) = t[k]?) → sb.buf (i + t.length) = some 0 →
      streqLoop sb q i = some (decide (q = t)) := by
  intro q
  induction q with
  | nil =>
    intro t i _ ht hb he
    cases t with
    | nil =>
      simp only [List.length_nil, Nat.add_zero] at he
      simp [streqLoop, he]
    | cons c t1 =>
      have h0 := hb 0 (by simp)
      simp only [Nat.add_zero, List.getElem?_cons_zero] at h0
      have hc : c ≠ 0 := ht c (by simp)
      simp [streqLoop, h0, hc]
  | cons a q1 ih =>
    intro t i hq ht hb he
    have ha : a ≠ 0 := hq a (by simp)
    cases t with
    | nil =>
      simp only [List.length_nil, Nat.add_zero] at he
      simp [streqLoop, he, ha]
    | cons c t1 =>
      have h0 := hb 0 (by simp)
      simp only [Nat.add_zero, List.getElem?_cons_zero] at h0
      simp only [streqLoop, h0]
      by_cases hac : a = c
      · subst hac
        simp only [ne_eq, not_true_eq_false, if_false]
        rw [ih t1 (i + 1) (fun c hc => hq c (by simp [hc])) (fun c hc => ht c (by simp [hc]))
          ?_ ?_]
        · simp
        · intro k hk
          have := hb (k + 1) (by simp; omega)
          rw [List.getElem?_cons_succ] at this
          rw [← this]
          congr 1
          omega
        · rw [← he]
          congr 1
          simp only [List.length_cons]
          omega
      · simp [hac]

theorem streq_of_holds (sb : Ra_Header Nat) (q s : List Nat) (hq : IsCString q)
    (hs : IsCString s) (hh : HoldsString sb s) : streq q sb = some (decide (q = s)) := by
  unfold streq
  apply streqLoop_spec sb q s 0
  · intro c hc; have := (hq.1 c hc).1; omega
  · intro c hc; have := (hs.1 c hc).1; omega
  · intro k hk
    rw [Nat.zero_add]
    exact hh.1 k hk
  · rw [Nat.zero_add]
    exact hh.2

/-- The copy made by `internString` holds the string. -/
theorem str_new_holds (s : List Nat) (hs : IsCString s) :
    ∃ sb, raAddAll (ra_Create Nat 0) (s ++ [0]) = some sb ∧ HoldsString sb s := by
  obtain ⟨b1, h1, _, _, _, h5⟩ := raAddAll_from (s ++ [0]) (ra_Create Nat 0) (Nat.zero_le _)
    (by
      show 2 * (0 + (s ++ [0]).length) ≤ U64_MOD
      rw [List.length_append, List.length_singleton, Nat.zero_add]
      exact hs.2)
  have e0 : ∀ i, (ra_Create Nat 0).len + i = i := by
    intro i
    show 0 + i = i
    omega
  refine ⟨b1, h1, ?_, ?_⟩
  · intro k hk
    have := h5 k (by rw [List.length_append, List.length_singleton]; omega)
    rw [e0] at this
    rw [this, List.getElem?_append_left hk]
  · have := h5 s.length (by rw [List.length_append, List.length_singleton]; omega)
    rw [e0] at this
    rw [this, List.getElem?_append_right (Nat.le_refl _)]
    simp

theorem internStringEquality_spec (nolibc : Bool) (L : List (List Nat)) (is : Intern_String)
    (hinv : StrInv nolibc L is) (q s : List Nat) (hq : IsCString q) (index : Nat)
    (hL : L[index]? = some s) :
    internStringEquality q is.strings index = some (decide (q = s)) := by
  obtain ⟨sb, hsb, hold⟩ := hinv.stored index s hL
  have hs : IsCString s := hinv.valid s (List.getElem?_mem hL)
  unfold internStringEquality
  rw [hsb, Option.some_bind]
  exact streq_of_holds sb q s hq hs hold

/-- The scan of one bucket of a sound table: it returns, with the position of
the string when an entry of the bucket points at it, with nothing when no
entry from `i` on does. -/
theorem internCheckLoop_str (nolibc : Bool) (L : List (List Nat)) (is : Intern_String)
    (hinv : StrInv nolibc L is) (q : List Nat) (hq : IsCString q) (h : Nat) (fuel : Nat) :
    ∀ i, i + fuel = (is.intern.lists h).indices.len →
      (∃ index, internCheckLoop (is.intern.lists h)
          (internStringPearsonHash q (strlen nolibc q) false)
          (internStringEquality q is.strings) fuel i = some (some index) ∧
          L[index]? = some q) ∨
      (internCheckLoop (is.intern.lists h)
          (internStringPearsonHash q (strlen nolibc q) false)
          (internStringEquality q is.strings) fuel i = some none ∧
        ∀ j, i ≤ j → j < (is.intern.lists h).indices.len →
          ∀ index, (is.intern.lists h).indices.buf j = some index → L[index]? ≠ some q) := by
  induction fuel with
  | zero =>
    intro i hi
    right
    refine ⟨rfl, ?_⟩
    intro j h1 h2
    omega
  | succ fuel ih =>
    intro i hi
    obtain ⟨index, s, hib, hL, _, hsb⟩ := hinv.bucket_entry h i (by omega)
    have hstep : ∀ j, i ≤ j → j < (is.intern.lists h).indices.len → s ≠ q →
        (∀ j, i + 1 ≤ j → j < (is.intern.lists h).indices.len →
          ∀ index, (is.intern.lists h).indices.buf j = some index → L[index]? ≠ some q) →
        ∀ index, (is.intern.lists h).indices.buf j = some index → L[index]? ≠ some q := by
      intro j h1 h2 hne hrest idx hidx
      by_cases hji : j = i
      · subst hji
        rw [hib] at hidx
        have := Option.some.inj hidx
        rw [← this, hL]
        intro he
        exact hne (Option.some.inj he)
      · exact hrest j (by omega) h2 idx hidx
    simp only [internCheckLoop, hib, hsb]
    by_cases hh : internStringPearsonHash s (strlen nolibc s) false =
        internStringPearsonHash q (strlen nolibc q) false
    · rw [if_pos hh, internStringEquality_spec nolibc L is hinv q s hq index hL]
      by_cases hqs : q = s
      · left
        refine ⟨index, ?_, by rw [hqs]; exact hL⟩
        simp [hqs]
      · have hd : decide (q = s) = false := by simp [hqs]
        rw [hd]
        simp only
        rcases ih (i + 1) (by omega) with hf | ⟨hn, hrest⟩
        · left; exact hf
        · right
          exact ⟨hn, fun j h1 h2 => hstep j h1 h2 (fun e => hqs e.symm) hrest⟩
    · rw [if_neg hh]
      have hne : s ≠ q := by
        intro e
        rw [e] at hh
        exact hh rfl
      rcases ih (i + 1) (by omega) with hf | ⟨hn, hrest⟩
      · left; exact hf
      · right
        exact ⟨hn, fun j h1 h2 => hstep j h1 h2 hne hrest⟩

/-- The check on a sound table: it finds the position of the string exactly
when the string is stored. -/
theorem internCheck_str (nolibc : Bool) (L : List (List Nat)) (is : Intern_String)
    (hinv : StrInv nolibc L is) (q : List Nat) (hq : IsCString q) :
    (∃ index, internCheck is.intern (internStringPearsonHash q (strlen nolibc q) true)
        (internStringPearsonHash q (strlen nolibc q) false)
        (internStringEquality q is.strings) = some (some index) ∧ L[index]? = some q) ∨
    (internCheck is.intern (internStringPearsonHash q (strlen nolibc q) true)
        (internStringPearsonHash q (strlen nolibc q) false)
        (internStringEquality q is.strings) = some none ∧ q ∉ L) := by
  unfold internCheck raElemin
  rw [← (hinv.bucket_len _).1]
  rcases internCheckLoop_str nolibc L is hinv q hq
      (internStringPearsonHash q (strlen nolibc q) true) _ 0 (Nat.zero_add _) with hf | ⟨hn, hrest⟩
  · left; exact hf
  · right
    refine ⟨hn, ?_⟩
    intro hmem
    obtain ⟨index, hidx⟩ := List.getElem?_of_mem hmem
    obtain ⟨j, hj, hb⟩ := hinv.complete index q hidx
    exact hrest j (Nat.zero_le _) hj index hb hidx

theorem getElem?_append_singleton_cases {β : Type} (L : List β) (q s : β) (i : Nat)
    (h : (L ++ [q])[i]? = some s) :
    (i < L.length ∧ L[i]? = some s) ∨ (i = L.length ∧ s = q) := by
  by_cases hi : i < L.length
  · left
    rw [List.getElem?_append_left hi] at h
    exact ⟨hi, h⟩
  · right
    have hlt : i < (L ++ [q]).length := (List.getElem?_eq_some.mp h).1
    rw [List.length_append, List.length_singleton] at hlt
    have hie : i = L.length := by omega
    subst hie
    rw [List.getElem?_append_right (Nat.le_refl _)] at h
    simp at h
    exact ⟨rfl, h.symm⟩

theorem getElem?_append_singleton_old {β : Type} (L : List β) (q s : β) (i : Nat)
    (h : L[i]? = some s) : (L ++ [q])[i]? = some s := by
  have hi : i < L.length := (List.getElem?_eq_some.mp h).1
  rw [List.getElem?_append_left hi]
  exact h

theorem getElem?_append_singleton_new {β : Type} (L : List β) (q : β) :
    (L ++ [q])[L.length]? = some q := by
  rw [List.getElem?_append_right (Nat.le_refl _)]
  simp

/-- What a returning `internData` call did to a bucket whose buffers respect
their capacities. -/
theorem internData_some_props (it : Intern) (hash1 hash2 index : Nat) (it1 : Intern)
    (hs : (it.lists hash1).secondary_hashes.len ≤ (it.lists hash1).secondary_hashes.cap)
    (hsc : (it.lists hash1).secondary_hashes.cap < U64_MOD)
    (hx : (it.lists hash1).indices.len ≤ (it.lists hash1).indices.cap)
    (hxc : (it.lists hash1).indices.cap < U64_MOD)
    (h : internData it hash1 hash2 index = some it1) :
    ∃ s x : Ra_Header Nat,
      it1.lists = listsSet it.lists hash1 { indices := x, secondary_hashes := s } ∧
      s.len = (it.lists hash1).secondary_hashes.len + 1 ∧ s.len ≤ s.cap ∧ s.cap < U64_MOD ∧
      s.buf (it.lists hash1).secondary_hashes.len = some hash2 ∧
      (∀ i, i < (it.lists hash1).secondary_hashes.len →
        s.buf i = (it.lists hash1).secondary_hashes.buf i) ∧
      x.len = (it.lists hash1).indices.len + 1 ∧ x.len ≤ x.cap ∧ x.cap < U64_MOD ∧
      x.buf (it.lists hash1).indices.len = some index ∧
      (∀ i, i < (it.lists hash1).indices.len → x.buf i = (it.lists hash1).indices.buf i) := by
  unfold internData at h
  rw [Option.bind_eq_some] at h
  obtain ⟨⟨n1, s⟩, h1, h⟩ := h
  rw [Option.bind_eq_some] at h
  obtain ⟨⟨n2, x⟩, h2, h⟩ := h
  split_ifs at h
  have h := Option.some.inj h
  obtain ⟨_, _, a1, a2, _, a4, a5, a6⟩ := raAdd_some_props _ hash2 n1 s hs hsc h1
  obtain ⟨_, _, b1, b2, _, b4, b5, b6⟩ := raAdd_some_props _ index n2 x hx hxc h2
  refine ⟨s, x, ?_, a1, a2, a4, a5, a6, b1, b2, b4, b5, b6⟩
  rw [← h]

/-- A call of `internData` on a bucket with room, or whose buffers can
double, returns. -/
theorem internData_returns (it : Intern) (hash1 hash2 index : Nat)
    (hs : (it.lists hash1).secondary_hashes.len ≤ (it.lists hash1).secondary_hashes.cap)
    (hx : (it.lists hash1).indices.len ≤ (it.lists hash1).indices.cap)
    (he : (it.lists hash1).indices.len = (it.lists hash1).secondary_hashes.len)
    (hroom : 2 * ((it.lists hash1).indices.len + 1) ≤ U64_MOD) :
    (internData it hash1 hash2 index).isSome = true := by
  have hM : U64_MOD = 18446744073709551616 := U64_MOD_eq
  obtain ⟨s, h1, a1, _⟩ := raAdd_returns (it.lists hash1).secondary_hashes hash2 hs
    (by omega) (by omega)
  obtain ⟨x, h2, b1, _⟩ := raAdd_returns (it.lists hash1).indices index hx
    (by omega) (by omega)
  unfold internData
  rw [h1, Option.some_bind, h2, Option.some_bind]
  have : raElemin s = raElemin x := by
    unfold raElemin
    rw [a1, b1, he]
  simp only
  rw [if_pos this]
  rfl

/-- The table after an `internString` call that found nothing and returned:
the string is stored behind the old ones. -/
theorem StrInv_of_new (nolibc : Bool) (L : List (List Nat)) (is : Intern_String)
    (hinv : StrInv nolibc L is) (q : List Nat) (hq : IsCString q) (hn : q ∉ L)
    (str_new : Ra_Header Nat) (hold : HoldsString str_new q)
    (n : Nat) (strs : Ra_Header (Ra_Header Nat))
    (hadd : raAdd is.strings str_new = some (n, strs)) (it : Intern)
    (hdata : internData is.intern (internStringPearsonHash q (strlen nolibc q) true)
      (internStringPearsonHash q (strlen nolibc q) false) (raElemin is.strings) = some it) :
    StrInv nolibc (L ++ [q]) { intern := it, strings := strs } := by
  obtain ⟨_, _, p1, p2, _, p4, p5, p6⟩ :=
    raAdd_some_props is.strings str_new n strs hinv.len_le hinv.cap_lt hadd
  obtain ⟨hc1, hc2, hc3, hc4⟩ := hinv.bucket_cap (internStringPearsonHash q (strlen nolibc q) true)
  obtain ⟨hl1, hl2⟩ := hinv.bucket_len (internStringPearsonHash q (strlen nolibc q) true)
  obtain ⟨s, x, hlists, a1, a2, a4, a5, a6, b1, b2, b4, b5, b6⟩ :=
    internData_some_props is.intern _ _ _ it hc3 hc4 hc1 hc2 hdata
  have hlen := hinv.len_eq
  unfold raElemin at b5
  refine ⟨?_, p2, p4, ?_, ?_, ?_, ?_, ?_, ?_, ?_⟩
  · show strs.len = (L ++ [q]).length
    rw [p1, hlen, List.length_append, List.length_singleton]
  · intro i t hi
    show ∃ sb, strs.buf i = some sb ∧ HoldsString sb t
    rcases getElem?_append_singleton_cases L q t i hi with ⟨hlt, hL⟩ | ⟨hie, hte⟩
    · rw [p6 i (by omega)]
      exact hinv.stored i t hL
    · rw [hie, hte, ← hlen, p5]
      exact ⟨str_new, rfl, hold⟩
  · intro t ht
    rcases List.mem_append.mp ht with h1 | h1
    · exact hinv.valid t h1
    · rw [List.mem_singleton.mp h1]; exact hq
  · exact List.nodup_append.2 ⟨hinv.nodup, List.nodup_singleton q, by simpa using hn⟩
  · intro h
    show (it.lists h).indices.len = (it.lists h).secondary_hashes.len ∧
      (it.lists h).indices.len ≤ (L ++ [q]).length
    rw [hlists, List.length_append, List.length_singleton]
    by_cases hh : h = internStringPearsonHash q (strlen nolibc q) true
    · rw [hh, listsSet_same]
      simp only
      omega
    · rw [listsSet_other _ _ _ _ hh]
      have := hinv.bucket_len h
      omega
  · intro h
    show (it.lists h).indices.len ≤ (it.lists h).indices.cap ∧
      (it.lists h).indices.cap < U64_MOD ∧
      (it.lists h).secondary_hashes.len ≤ (it.lists h).secondary_hashes.cap ∧
      (it.lists h).secondary_hashes.cap < U64_MOD
    rw [hlists]
    by_cases hh : h = internStringPearsonHash q (strlen nolibc q) true
    · rw [hh, listsSet_same]
      exact ⟨b2, b4, a2, a4⟩
    · rw [listsSet_other _ _ _ _ hh]
      exact hinv.bucket_cap h
  · intro h j hj
    show ∃ index t, (it.lists h).indices.buf j = some index ∧ (L ++ [q])[index]? = some t ∧
      internStringPearsonHash t (strlen nolibc t) true = h ∧
      (it.lists h).secondary_hashes.buf j =
        some (internStringPearsonHash t (strlen nolibc t) false)
    have hj2 : j < (it.lists h).indices.len := hj
    rw [hlists] at hj2 ⊢
    by_cases hh : h = internStringPearsonHash q (strlen nolibc q) true
    · rw [hh, listsSet_same] at hj2 ⊢
      simp only at hj2 ⊢
      by_cases hjl : j < (is.intern.lists
          (internStringPearsonHash q (strlen nolibc q) true)).indices.len
      · obtain ⟨index, t, e1, e2, e3, e4⟩ := hinv.bucket_entry _ j hjl
        refine ⟨index, t, ?_, getElem?_append_singleton_old L q t index e2, e3, ?_⟩
        · rw [b6 j hjl]; exact e1
        · rw [a6 j (by omega)]; exact e4
      · have hje : j = (is.intern.lists
            (internStringPearsonHash q (strlen nolibc q) true)).indices.len := by omega
        refine ⟨L.length, q, ?_, getElem?_append_singleton_new L q, rfl, ?_⟩
        · rw [hje, b5, hlen]
        · rw [hje, hl1, a5]
    · rw [listsSet_other _ _ _ _ hh] at hj2 ⊢
      obtain ⟨index, t, e1, e2, e3, e4⟩ := hinv.bucket_entry h j hj2
      exact ⟨index, t, e1, getElem?_append_singleton_old L q t index e2, e3, e4⟩
  · intro index t hi
    show ∃ j, j < (it.lists (internStringPearsonHash t (strlen nolibc t) true)).indices.len ∧
      (it.lists (internStringPearsonHash t (strlen nolibc t) true)).indices.buf j = some index
    rw [hlists]
    rcases getElem?_append_singleton_cases L q t index hi with ⟨_, hL⟩ | ⟨hie, hte⟩
    · obtain ⟨j, hj, hb⟩ := hinv.complete index t hL
      by_cases hh : internStringPearsonHash t (strlen nolibc t) true =
          internStringPearsonHash q (strlen nolibc q) true
      · rw [hh, listsSet_same]
        rw [hh] at hj hb
        refine ⟨j, ?_, ?_⟩
        · simp only; omega
        · simp only; rw [b6 j hj]; exact hb
      · rw [listsSet_other _ _ _ _ hh]
        exact ⟨j, hj, hb⟩
    · rw [hte, listsSet_same, hie]
      refine ⟨(is.intern.lists (internStringPearsonHash q (strlen nolibc q) true)).indices.len,
        ?_, ?_⟩
      · show (is.intern.lists (internStringPearsonHash q (strlen nolibc q) true)).indices.len <
          x.len
        omega
      · show x.buf _ = some L.length
        rw [b5, hlen]

theorem StrInv_create (nolibc : Bool) : StrInv nolibc [] internStringCreate := by
  have h16 : (16 : Nat) < U64_MOD := by decide
  refine ⟨rfl, Nat.zero_le _, h16, ?_, ?_, List.nodup_nil, ?_, ?_, ?_, ?_⟩
  · intro i s h
    simp at h
  · intro s h
    simp at h
  · intro h
    exact ⟨rfl, Nat.le_refl _⟩
  · intro h
    exact ⟨Nat.zero_le _, h16, Nat.zero_le _, h16⟩
  · intro h j hj
    exact absurd hj (Nat.not_lt_zero _)
  · intro i s h
    simp at h

/-- A stored string is found: `internString` returns its position and leaves
the table as it is, and `internStringCheck` returns the same position. -/
theorem internString_old (nolibc : Bool) (L : List (List Nat)) (is : Intern_String)
    (hinv : StrInv nolibc L is) (q : List Nat) (hq : IsCString q) (hmem : q ∈ L) :
    ∃ index, internString nolibc is q = some (index, is) ∧ L[index]? = some q ∧
      internStringCheck nolibc is q = some (some index) := by
  rcases internCheck_str nolibc L is hinv q hq with ⟨index, hc, hL⟩ | ⟨_, hn⟩
  · refine ⟨index, ?_, hL, hc⟩
    unfold internString
    rw [hc]
    rfl
  · exact absurd hmem hn

/-- A string that is not stored is not found: `internStringCheck` reports
absence, and an `internString` call that returns stores the string behind the
old ones; the call returns when the table is not at its size limit. -/
theorem internString_fresh (nolibc : Bool) (L : List (List Nat)) (is : Intern_String)
    (hinv : StrInv nolibc L is) (q : List Nat) (hq : IsCString q) (hn : q ∉ L) :
    internStringCheck nolibc is q = some none ∧
    (∀ index is1, internString nolibc is q = some (index, is1) →
      index = L.length ∧ StrInv nolibc (L ++ [q]) is1) ∧
    (2 * (L.length + 1) ≤ U64_MOD → (internString nolibc is q).isSome = true) := by
  have hc : internCheck is.intern (internStringPearsonHash q (strlen nolibc q) true)
      (internStringPearsonHash q (strlen nolibc q) false)
      (internStringEquality q is.strings) = some none := by
    rcases internCheck_str nolibc L is hinv q hq with ⟨index, _, hL⟩ | ⟨hc, _⟩
    · exact absurd (List.getElem?_mem hL) hn
    · exact hc
  have hunf : internString nolibc is q =
      (raAddAll (ra_Create Nat 0) (q ++ [0])).bind fun str_new =>
      (raAdd is.strings str_new).bind fun added =>
      (internData is.intern (internStringPearsonHash q (strlen nolibc q) true)
          (internStringPearsonHash q (strlen nolibc q) false)
          (raElemin is.strings)).bind fun it =>
      some (raElemin is.strings, { intern := it, strings := added.2 }) := by
    unfold internString
    rw [hc]
    rfl
  obtain ⟨sb, hsb, hold⟩ := str_new_holds q hq
  refine ⟨hc, ?_, ?_⟩
  · intro index is1 h
    rw [hunf, hsb, Option.some_bind, Option.bind_eq_some] at h
    obtain ⟨⟨n, strs⟩, hadd, h⟩ := h
    rw [Option.bind_eq_some] at h
    obtain ⟨it, hdata, h⟩ := h
    have h := Option.some.inj h
    have h1 : raElemin is.strings = index := congrArg Prod.fst h
    have h2 : ({ intern := it, strings := strs } : Intern_String) = is1 := congrArg Prod.snd h
    refine ⟨?_, ?_⟩
    · rw [← h1]
      exact hinv.len_eq
    · rw [← h2]
      exact StrInv_of_new nolibc L is hinv q hq hn sb hold n strs hadd it hdata
  · intro hroom
    have hM : U64_MOD = 18446744073709551616 := U64_MOD_eq
    have hlen := hinv.len_eq
    obtain ⟨strs, hadd, _⟩ := raAdd_returns is.strings sb hinv.len_le (by omega) (by omega)
    obtain ⟨hc1, _, hc3, _⟩ :=
      hinv.bucket_cap (internStringPearsonHash q (strlen nolibc q) true)
    obtain ⟨hl1, hl2⟩ := hinv.bucket_len (internStringPearsonHash q (strlen nolibc q) true)
    obtain ⟨it, hit⟩ := Option.isSome_iff_exists.mp
      (internData_returns is.intern (internStringPearsonHash q (strlen nolibc q) true)
        (internStringPearsonHash q (strlen nolibc q) false) (raElemin is.strings)
        hc3 hc1 hl1 (by omega))
    rw [hunf, hsb, Option.some_bind, hadd, Option.some_bind, hit, Option.some_bind]
    rfl

/-- Every reachable string intern table is sound, and its stored strings are
the strings interned so far. -/
theorem StrReachable.strInv {nolibc : Bool} {hist : List (List Nat)} {is : Intern_String}
    (h : StrReachable nolibc hist is) :
    ∃ L, StrInv nolibc L is ∧ ∀ s, s ∈ L ↔ s ∈ hist := by
  induction h with
  | create => exact ⟨[], StrInv_create nolibc, fun s => Iff.rfl⟩
  | intern hist is str index is1 _ hs hcall ih =>
    obtain ⟨L, hinv, hmem⟩ := ih
    by_cases hin : str ∈ L
    · obtain ⟨idx, hold, _, _⟩ := internString_old nolibc L is hinv str hs hin
      rw [hold] at hcall
      have e2 : is = is1 := congrArg Prod.snd (Option.some.inj hcall)
      rw [← e2]
      refine ⟨L, hinv, ?_⟩
      intro s
      rw [List.mem_append, List.mem_singleton, ← hmem]
      constructor
      · intro h; exact Or.inl h
      · intro h
        rcases h with h | h
        · exact h
        · rw [h]; exact hin
    · obtain ⟨_, hnew, _⟩ := internString_fresh nolibc L is hinv str hs hin
      refine ⟨L ++ [str], (hnew index is1 hcall).2, ?_⟩
      intro s
      rw [List.mem_append, List.mem_append, hmem]

theorem internString_create_Hi :
    internString false internStringCreate [72, 105] = some (0, strA1) := by rfl

theorem strA1_reachable : StrReachable false [[72, 105]] strA1 :=
  StrReachable.intern [] internStringCreate [72, 105] 0 strA1 StrReachable.create (by decide)
    internString_create_Hi

/-- A run of `internString` calls on a sound table returns, and every
reference it returns is the position of its string in the final backing
store. -/
theorem internAll_from (nolibc : Bool) (strs : List (List Nat)) :
    ∀ (L : List (List Nat)) (is : Intern_String), StrInv nolibc L is →
      (∀ s, s ∈ strs → IsCString s) → 2 * (L.length + strs.length) ≤ U64_MOD →
      ∃ refs is1 L1, internAll nolibc is strs = some (refs, is1) ∧ StrInv nolibc L1 is1 ∧
        L1.length ≤ L.length + strs.length ∧
        (∀ (i : Nat) (s : List Nat), L[i]? = some s → L1[i]? = some s) ∧ refs.length = strs.length ∧
        ∀ (i r : Nat) (s : List Nat), refs[i]? = some r → strs[i]? = some s → L1[r]? = some s := by
  induction strs with
  | nil =>
    intro L is hinv _ _
    refine ⟨[], is, L, rfl, hinv, Nat.le_refl _, fun _ _ h => h, rfl, ?_⟩
    intro i r s h
    simp at h
  | cons q rest ih =>
    intro L is hinv hv hroom
    simp only [List.length_cons] at hroom
    have hq : IsCString q := hv q (by simp)
    have hrest : ∀ s, s ∈ rest → IsCString s := fun s hs => hv s (by simp [hs])
    have hstep : ∃ index is2 L2, internString nolibc is q = some (index, is2) ∧
        StrInv nolibc L2 is2 ∧ L2.length ≤ L.length + 1 ∧
        (∀ (i : Nat) (s : List Nat), L[i]? = some s → L2[i]? = some s) ∧ L2[index]? = some q := by
      by_cases hin : q ∈ L
      · obtain ⟨index, h1, h2, _⟩ := internString_old nolibc L is hinv q hq hin
        exact ⟨index, is, L, h1, hinv, by omega, fun _ _ h => h, h2⟩
      · obtain ⟨_, hnew, hret⟩ := internString_fresh nolibc L is hinv q hq hin
        obtain ⟨⟨index, is2⟩, hcall⟩ := Option.isSome_iff_exists.mp (hret (by omega))
        obtain ⟨hidx, hinv2⟩ := hnew index is2 hcall
        refine ⟨index, is2, L ++ [q], hcall, hinv2, ?_, ?_, ?_⟩
        · rw [List.length_append, List.length_singleton]
        · intro i s h
          exact getElem?_append_singleton_old L q s i h
        · rw [hidx]
          exact getElem?_append_singleton_new L q
    obtain ⟨index, is2, L2, hcall, hinv2, hlen2, hmono2, hq2⟩ := hstep
    obtain ⟨refs, is1, L1, hall, hinv1, hlen1, hmono1, hrl, hrefs⟩ :=
      ih L2 is2 hinv2 hrest (by omega)
    refine ⟨index :: refs, is1, L1, ?_, hinv1, ?_, ?_, ?_, ?_⟩
    · simp only [internAll]
      rw [hcall, Option.some_bind, hall]
      rfl
    · simp only [List.length_cons]; omega
    · intro i s h
      exact hmono1 i s (hmono2 i s h)
    · simp only [List.length_cons, hrl]
    · intro i r s hr hs
      cases i with
      | zero =>
        simp only [List.getElem?_cons_zero, Option.some.injEq] at hr hs
        rw [← hr, ← hs]
        exact hmono1 index q hq2
      | succ j =>
        simp only [List.getElem?_cons_succ] at hr hs
        exact hrefs j r s hr hs

theorem mapInsert_mapC1_2 (relocated : Bool) :
    mapInsert relocated mapC1 2 20 = some mapD2 := by
  cases relocated <;> rfl

theorem oddDrawLoop_odd (fuel : Nat) :
    ∀ r a, oddDrawLoop fuel r = some a → a &&& 1 = 1 := by
  induction fuel with
  | zero =>
    intro r a h
    simp [oddDrawLoop] at h
  | succ fuel ih =>
    intro r a h
    simp only [oddDrawLoop] at h
    split_ifs at h with hc
    · exact ih _ a h
    · have ha : randomU64 r = a := Option.some.inj h
      rw [ha] at hc
      by_contra hne
      apply hc
      by_cases h0 : a = 0
      · left; exact h0
      · right; exact ⟨Nat.pos_of_ne_zero h0, hne⟩

/-- C31: for every starting state and every exponent `m < 64`, when
`hashUniversalConstantsUpdate` returns, the multiplier `a` is odd, hence not
zero, the offset `b` is below `2^(64-m)` and `m` is kept; from the generator
state of a fresh table (`r = 0`) it returns. -/
theorem hashUniversalConstantsUpdate_spec (h : Hash_Universal) (hm : h.m < 64) :
    (∀ u, hashUniversalConstantsUpdate h = some u →
      u.a % 2 = 1 ∧ u.a ≠ 0 ∧ u.b < 2 ^ (64 - h.m) ∧ u.m = h.m) ∧
    (h.r = 0 → (hashUniversalConstantsUpdate h).isSome = true) := by
  constructor
  · intro u hu
    rcases Option.eq_none_or_eq_some (oddDrawLoop U64_MOD h.r) with hn | ⟨a, ha⟩
    · unfold hashUniversalConstantsUpdate at hu
      rw [hn] at hu
      exact absurd hu (by simp)
    · rw [hashUniversalConstantsUpdate_of_draw h a ha] at hu
      have hu := Option.some.inj hu
      have hodd : a % 2 = 1 := by
        rw [← Nat.and_one_is_mod]
        exact oddDrawLoop_odd U64_MOD h.r a ha
      rw [← hu]
      refine ⟨hodd, ?_, ?_, rfl⟩
      · intro h0
        simp only at h0
        rw [h0] at hodd
        exact absurd hodd (by decide)
      · simp only
        have h1 : randomU64 a &&& ((U64_MOD - 1) >>> h.m) ≤ (U64_MOD - 1) >>> h.m :=
          Nat.and_le_right
        have h2 : (U64_MOD - 1) >>> h.m < 2 ^ (64 - h.m) := by
          rw [Nat.shiftRight_eq_div_pow, Nat.div_lt_iff_lt_mul (Nat.two_pow_pos _),
            ← Nat.pow_add]
          have : 64 - h.m + h.m = 64 := by omega
          rw [this, U64_MOD_eq]
          norm_num
        omega
  · intro hr
    have hd : oddDrawLoop U64_MOD h.r = some 115924262728944859 := by
      rw [hr]; exact oddDrawLoop_zero
    rw [hashUniversalConstantsUpdate_of_draw h _ hd]
    rfl

/-- Witness for C31 with the constants drawn for a fresh table of 64 slots. -/
theorem hashUniversalConstantsUpdate_spec_witness :
    (hashUniversalConstantsUpdate { a := 0, b := 0, m := 6, r := 0 }).isSome = true ∧
    ∀ u, hashUniversalConstantsUpdate { a := 0, b := 0, m := 6, r := 0 } = some u →
      u.a % 2 = 1 ∧ u.a ≠ 0 ∧ u.b < 2 ^ (64 - 6) ∧ u.m = 6 :=
  ⟨(hashUniversalConstantsUpdate_spec { a := 0, b := 0, m := 6, r := 0 } (by decide)).2 rfl,
   (hashUniversalConstantsUpdate_spec { a := 0, b := 0, m := 6, r := 0 } (by decide)).1⟩

theorem ht_Create_arrays (n : Nat) (ht : Hash_Table) (h : ht_Create n = some ht) :
    ht.keys = zeroArray ∧ ht.values = zeroArray := by
  unfold ht_Create at h
  rw [Option.bind_eq_some] at h
  obtain ⟨sc, _, h⟩ := h
  rw [Option.bind_eq_some] at h
  obtain ⟨univ, _, h⟩ := h
  have h := Option.some.inj h
  rw [← h]
  exact ⟨rfl, rfl⟩

theorem pair_arraySet (keys values : Nat → Nat) (p k v : Nat)
    (h : ∀ i, keys i = 0 ↔ values i = 0) (hkv : k = 0 ↔ v = 0) :
    ∀ i, arraySet keys p k i = 0 ↔ arraySet values p v i = 0 := by
  intro i
  by_cases hi : i = p
  · rw [hi, arraySet_same, arraySet_same]
    exact hkv
  · rw [arraySet_other keys p k i hi, arraySet_other values p v i hi]
    exact h i

theorem insertionLoop_arrays_eq (hash key value : Nat) (fuel : Nat) :
    ∀ (i : Nat) (ht : Hash_Table),
      ((insertionLoop hash key value fuel i ht).2.keys = ht.keys ∧
        (insertionLoop hash key value fuel i ht).2.values = ht.values) ∨
      ∃ p, (insertionLoop hash key value fuel i ht).2.keys = arraySet ht.keys p key ∧
        (insertionLoop hash key value fuel i ht).2.values = arraySet ht.values p value := by
  induction fuel with
  | zero => intro i ht; left; exact ⟨rfl, rfl⟩
  | succ fuel ih =>
    intro i ht
    simp only [insertionLoop]
    split_ifs
    · right; exact ⟨_, rfl, rfl⟩
    · exact ih (i + 1) _

theorem insertion_pair (g : Hash_Table) (hash k v : Nat) (hk : k ≠ 0) (hv : v ≠ 0)
    (h : ∀ i, g.keys i = 0 ↔ g.values i = 0) :
    ∀ i, (ht_LinearProbeInsertion g hash k v).2.keys i = 0 ↔
      (ht_LinearProbeInsertion g hash k v).2.values i = 0 := by
  unfold ht_LinearProbeInsertion
  rcases insertionLoop_arrays_eq hash k v g.slot_count 0 g with ⟨h1, h2⟩ | ⟨p, h1, h2⟩
  · rw [h1, h2]; exact h
  · rw [h1, h2]
    exact pair_arraySet g.keys g.values p k v h
      ⟨fun e => absurd e hk, fun e => absurd e hv⟩

theorem rehashLoop_pair (keys values : Nat → Nat)
    (hs : ∀ i, keys i = 0 ↔ values i = 0) (fuel : Nat) :
    ∀ (i : Nat) (g : Hash_Table), (∀ j, g.keys j = 0 ↔ g.values j = 0) →
      ∀ j, (rehashLoop keys values fuel i g).keys j = 0 ↔
        (rehashLoop keys values fuel i g).values j = 0 := by
  induction fuel with
  | zero => intro i g h; exact h
  | succ fuel ih =>
    intro i g h
    simp only [rehashLoop]
    split_ifs with hz
    · refine ih (i + 1) _ ?_
      exact insertion_pair g _ (keys i) (values i) (fun e => hz ((hs i).mp e)) hz h
    · exact ih (i + 1) g h

theorem ht_Resize_pair (ht ht1 : Hash_Table) (h : ht_Resize ht = some ht1)
    (hp : ∀ i, ht.keys i = 0 ↔ ht.values i = 0) :
    ∀ i, ht1.keys i = 0 ↔ ht1.values i = 0 := by
  obtain ⟨g, _, rfl⟩ := ht_Resize_cases ht ht1 h
  exact rehashLoop_pair ht.keys ht.values hp ht.slot_count 0
    { g with keys := zeroArray, values := zeroArray } (fun _ => Iff.rfl)

theorem htRemove_pair (ht : Hash_Table) (key : Nat)
    (hp : ∀ i, ht.keys i = 0 ↔ ht.values i = 0) :
    ∀ i, (htRemove ht key).2.keys i = 0 ↔ (htRemove ht key).2.values i = 0 := by
  simp only [htRemove]
  split_ifs
  all_goals first
    | exact hp
    | exact pair_arraySet ht.keys ht.values _ 0 0 hp Iff.rfl

theorem htInsert_pair (ht : Hash_Table) (k v r : Nat) (ht1 : Hash_Table)
    (h : htInsert ht k v = some (r, ht1)) (hp : ∀ i, ht.keys i = 0 ↔ ht.values i = 0) :
    ∀ i, ht1.keys i = 0 ↔ ht1.values i = 0 := by
  by_cases hk : k = 0
  · subst hk
    have : htInsert ht 0 v = some (0, ht) := by unfold htInsert; simp
    rw [this] at h
    have e2 : ht = ht1 := congrArg Prod.snd (Option.some.inj h)
    rw [← e2]; exact hp
  · by_cases hv0 : v = 0
    · subst hv0
      have : htInsert ht k 0 = some (htRemove ht k) := by unfold htInsert; simp [hk]
      rw [this] at h
      have e2 : (htRemove ht k).2 = ht1 := congrArg Prod.snd (Option.some.inj h)
      rw [← e2]
      exact htRemove_pair ht k hp
    · obtain ⟨g, hg, _, hht1⟩ := htInsert_cases ht k v r ht1 hk hv0 h
      have hgp : ∀ i, g.keys i = 0 ↔ g.values i = 0 := by
        rcases hg with ⟨_, rfl⟩ | ⟨_, hres⟩
        · exact hp
        · exact ht_Resize_pair ht g hres hp
      have hk1 : ht1.keys = (ht_LinearProbeInsertion g (hashUniversal g.univ k) k v).2.keys := by
        rw [hht1]; split_ifs <;> rfl
      have hv1 : ht1.values =
          (ht_LinearProbeInsertion g (hashUniversal g.univ k) k v).2.values := by
        rw [hht1]; split_ifs <;> rfl
      rw [hk1, hv1]
      exact insertion_pair g _ k v hk hv0 hgp

/-- In every reachable table a slot has key zero exactly when it has value
zero. -/
theorem Reachable.pairInv {ht : Hash_Table} (h : Reachable ht) :
    ∀ i, ht.keys i = 0 ↔ ht.values i = 0 := by
  induction h with
  | create n ht _ hc =>
    obtain ⟨h1, h2⟩ := ht_Create_arrays n ht hc
    rw [h1, h2]
    exact fun _ => Iff.rfl
  | insert ht key value result ht1 _ _ _ hi ih => exact htInsert_pair ht key value result ht1 hi ih
  | remove ht key _ _ ih => exact htRemove_pair ht key ih

/-- C32: in every reachable hash table every slot `i` has `keys[i] = 0` if
and only if `values[i] = 0`. -/
theorem keys_zero_iff_values_zero (ht : Hash_Table) (hr : Reachable ht) (i : Nat) :
    ht.keys i = 0 ↔ ht.values i = 0 :=
  hr.pairInv i

/-- Witness for C32 on the table that had a removal and holds key 3 twice. -/
theorem keys_zero_iff_values_zero_witness :
    Reachable tableA4 ∧ (tableA4.keys 2 = 0 ↔ tableA4.values 2 = 0) ∧
      (tableA4.keys 5 = 0 ↔ tableA4.values 5 = 0) :=
  ⟨tableA4_reachable, keys_zero_iff_values_zero tableA4 tableA4_reachable 2,
    keys_zero_iff_values_zero tableA4 tableA4_reachable 5⟩

/-- C33: in every reachable hash table the slot count is `2^m` for the
exponent `m` of the hashing constants, with `6 <= m < 64`, hence a power of
two and at least 64. -/
theorem slot_count_power_of_two (ht : Hash_Table) (hr : Reachable ht) :
    ht.slot_count = 2 ^ ht.univ.m ∧ 6 ≤ ht.univ.m ∧ ht.univ.m < 64 ∧
      64 ≤ ht.slot_count ∧ mIsPowerOf2U64 ht.slot_count = true := by
  have hi := hr.sizeInv
  refine ⟨hi.count_eq, hi.m_lo, hi.m_hi, hi.ge, ?_⟩
  have hlt : ht.slot_count < U64_MOD := by
    have := hi.le
    rw [U64_MOD_eq]
    omega
  rw [mIsPowerOf2U64_iff ht.slot_count hi.pos hlt]
  exact ⟨ht.univ.m, hi.count_eq⟩

/-- Witness for C33 on the table created with `2^32` slots and two pairs. -/
theorem slot_count_power_of_two_witness :
    Reachable bigTable2 ∧ bigTable2.slot_count = 2 ^ 32 ∧
    bigTable2.slot_count = 2 ^ bigTable2.univ.m ∧ 6 ≤ bigTable2.univ.m ∧
      bigTable2.univ.m < 64 ∧ 64 ≤ bigTable2.slot_count ∧
      mIsPowerOf2U64 bigTable2.slot_count = true :=
  ⟨bigTable2_reachable, by decide, slot_count_power_of_two bigTable2 bigTable2_reachable⟩

/-- C37, evaluated on the table after `htInsert(2,10)`, `htInsert(3,20)`,
`htRemove(2)`, `htInsert(3,30)`: the table is reachable and key 3 occupies
slot 1 and slot 2. -/
theorem key_occupies_two_slots :
    Reachable tableA4 ∧ tableA4.keys 1 = 3 ∧ tableA4.keys 2 = 3 ∧
      tableA4.values 1 = 30 ∧ tableA4.values 2 = 20 ∧ 2 < tableA4.slot_count :=
  ⟨tableA4_reachable, by decide, by decide, by decide, by decide, by decide⟩

theorem nonzeroCount_congr (f g : Nat → Nat) (h : ∀ i, f i = 0 ↔ g i = 0) (n : Nat) :
    nonzeroCount f n = nonzeroCount g n := by
  induction n with
  | zero => rfl
  | succ n ih =>
    have e1 : nonzeroCount f (n + 1) = nonzeroCount f n + (if f n ≠ 0 then 1 else 0) := rfl
    have e2 : nonzeroCount g (n + 1) = nonzeroCount g n + (if g n ≠ 0 then 1 else 0) := rfl
    rw [e1, e2, ih]
    by_cases hf : f n = 0
    · have hg : g n = 0 := (h n).mp hf
      simp [hf, hg]
    · have hg : g n ≠ 0 := fun e => hf ((h n).mpr e)
      simp [hf, hg]

theorem htLookup_after_zeroing (ht g : Hash_Table) (p k1 : Nat) (hk1 : k1 ≠ 0)
    (hu : g.univ = ht.univ) (hs : g.slot_count = ht.slot_count)
    (hkeys : g.keys = arraySet ht.keys p 0) (hvals : g.values = arraySet ht.values p 0)
    (hpk : ht.keys p ≠ k1) : htLookup g k1 = htLookup ht k1 := by
  have hp : ∀ u, probeOf g k1 u = probeOf ht k1 u := fun u => probeOf_congr ht g k1 u hu hs
  have hk : ∀ j, ht.keys j ≠ k1 → g.keys j ≠ k1 := by
    intro j hj
    rw [hkeys]
    by_cases hjp : j = p
    · rw [hjp, arraySet_same]
      exact fun e => hk1 e.symm
    · rw [arraySet_other _ _ _ _ hjp]
      exact hj
  rcases htLookup_cases ht k1 hk1 with ⟨t1, hlt, hkey1, hfirst, hval⟩ | ⟨habs, h0⟩
  · have hq : probeOf ht k1 t1 ≠ p := by
      intro e
      rw [e] at hkey1
      exact hpk hkey1
    rw [hval, htLookup_eq_of_first g k1 hk1 t1 (by rw [hs]; exact hlt)]
    · rw [hp, hvals]
      exact arraySet_other _ _ _ _ hq
    · rw [hp, hkeys, arraySet_other _ _ _ _ hq]
      exact hkey1
    · intro u hu1
      rw [hp]
      exact hk _ (hfirst u hu1)
  · rw [h0]
    apply htLookup_eq_zero_of_absent
    intro u hu1
    rw [hp]
    rw [hs] at hu1
    exact hk _ (habs u hu1)

/-- C39: for every table state and every two distinct keys `k` and `k'`,
`htRemove(ht, k)` leaves `htLookup(ht, k')` unchanged. -/
theorem htRemove_keeps_other_lookups (ht : Hash_Table) (k k1 : Nat) (hne : k ≠ k1) :
    htLookup (htRemove ht k).2 k1 = htLookup ht k1 := by
  by_cases hk : k = 0
  · subst hk
    rfl
  by_cases hk1 : k1 = 0
  · subst hk1
    rw [htLookup_zero_key, htLookup_zero_key]
  rcases htRemove_cases ht k hk with ⟨t, _, hkey, _, _, hrem⟩ | ⟨_, hrem⟩
  · apply htLookup_after_zeroing ht (htRemove ht k).2 (probeOf ht k t) k1 hk1
    · rw [hrem]
    · rw [hrem]
    · rw [hrem]
    · rw [hrem]
    · rw [hkey]; exact hne
  · rw [hrem]

/-- Witness for C39: removing key 2 from the table holding keys 2 and 3, which
share their first probed slot, keeps the lookup of key 3. -/
theorem htRemove_keeps_other_lookups_witness :
    (2 : Nat) ≠ 3 ∧ htLookup (htRemove tableA2 2).2 3 = htLookup tableA2 3 ∧
      htLookup tableA2 3 = 20 :=
  ⟨by decide, htRemove_keeps_other_lookups tableA2 2 3 (by decide), by decide⟩

/-- C34, evaluated on the table after `htInsert(2,10)`, `htInsert(3,20)`,
`htRemove(2)`, `htInsert(3,30)` and `htInsert(i, 200+i)` for `i = 4 .. 16`:
the table is reachable, `slot_filled` is 15 and 15 slots hold a key (key 3
twice).  The next call `htInsert(17, 217)` rehashes at the same size, which
re-places key 3 once only: afterwards 15 slots hold a key while `slot_filled`
is 16.  Before that, `htInsert(3, 30)` on a table in which key 3 was present
had raised `slot_filled` from 1 to 2. -/
theorem slot_filled_exceeds_filled_slots :
    (htLookup tableA3 3 = 20 ∧ htInsert tableA3 3 30 = some (0, tableA4) ∧
      tableA3.slot_filled = 1 ∧ tableA4.slot_filled = 2) ∧
    ∃ ht r ht1, insertAll tableA4 ops13 = some ht ∧ Reachable ht ∧
      ht.slot_filled = 15 ∧ nonzeroCount ht.keys ht.slot_count = 15 ∧
      htInsert ht 17 217 = some (r, ht1) ∧ Reachable ht1 ∧
      ht1.slot_count = 64 ∧ ht1.slot_filled = 16 ∧
      nonzeroCount ht1.keys ht1.slot_count = 15 := by
  refine ⟨⟨by decide, htInsert_tableA3_3, by decide, by decide⟩, ?_⟩
  have h : (insertAll tableA4 ops13).bind (fun ht => (htInsert ht 17 217).map (fun p =>
      decide (ht.slot_filled = 15 ∧ nonzeroCount ht.keys ht.slot_count = 15 ∧
        p.2.slot_count = 64 ∧ p.2.slot_filled = 16 ∧
        nonzeroCount p.2.keys p.2.slot_count = 15))) = some true := by decide
  obtain ⟨ht, h1, h2⟩ := Option.bind_eq_some.1 h
  obtain ⟨p, h3, h4⟩ := Option.map_eq_some'.1 h2
  have h5 := of_decide_eq_true h4
  have hr : Reachable ht :=
    insertAll_reachable ops13 tableA4 ht tableA4_reachable (by decide) h1
  exact ⟨ht, p.1, p.2, h1, hr, h5.1, h5.2.1, h3,
    Reachable.insert ht 17 217 p.1 p.2 hr (by decide) (by decide) h3,
    h5.2.2.1, h5.2.2.2.1, h5.2.2.2.2⟩

/-- C38, evaluated on the same table: it is reachable and `htLookup(ht, 3)` is
30; `htInsert(ht, 17, 217)`, a call for another key that triggers a rehash,
changes `htLookup(ht, 3)` to 20, the value of the older pair of key 3. -/
theorem htInsert_changes_other_lookup :
    ∃ ht r ht1, insertAll tableA4 ops13 = some ht ∧ Reachable ht ∧
      htLookup ht 3 = 30 ∧ (17 : Nat) ≠ 3 ∧ ht_ResizeNeeded ht = true ∧
      htInsert ht 17 217 = some (r, ht1) ∧ htLookup ht1 17 = 217 ∧
      htLookup ht1 3 = 20 := by
  have h : (insertAll tableA4 ops13).bind (fun ht => (htInsert ht 17 217).map (fun p =>
      decide (htLookup ht 3 = 30 ∧ ht_ResizeNeeded ht = true ∧ htLookup p.2 17 = 217 ∧
        htLookup p.2 3 = 20))) = some true := by decide
  obtain ⟨ht, h1, h2⟩ := Option.bind_eq_some.1 h
  obtain ⟨p, h3, h4⟩ := Option.map_eq_some'.1 h2
  have h5 := of_decide_eq_true h4
  exact ⟨ht, p.1, p.2, h1,
    insertAll_reachable ops13 tableA4 ht tableA4_reachable (by decide) h1,
    h5.1, by decide, h5.2.1, h3, h5.2.2.1, h5.2.2.2⟩

theorem specLookupLoop_cases (ht : Hash_Table) (key hash fuel : Nat) :
    ∀ i,
    (∃ t, i ≤ t ∧ t < i + fuel ∧
        (ht.keys (probeIndex ht hash t) = key ∨ ht.keys (probeIndex ht hash t) = 0) ∧
        (∀ u, i ≤ u → u < t →
          ht.keys (probeIndex ht hash u) ≠ key ∧ ht.keys (probeIndex ht hash u) ≠ 0) ∧
        specLookupLoop ht key hash fuel i =
          if ht.keys (probeIndex ht hash t) = key then ht.values (probeIndex ht hash t)
          else 0) ∨
    ((∀ u, i ≤ u → u < i + fuel →
        ht.keys (probeIndex ht hash u) ≠ key ∧ ht.keys (probeIndex ht hash u) ≠ 0) ∧
      specLookupLoop ht key hash fuel i = 0) := by
  induction fuel with
  | zero =>
    intro i
    right
    exact ⟨fun u h1 h2 => absurd h2 (by omega), rfl⟩
  | succ fuel ih =>
    intro i
    by_cases h1 : ht.keys (probeIndex ht hash i) = key
    · left
      refine ⟨i, Nat.le_refl _, by omega, Or.inl h1, fun u hu1 hu2 => absurd hu2 (by omega), ?_⟩
      simp only [specLookupLoop, if_pos h1]
    · by_cases h2 : ht.keys (probeIndex ht hash i) = 0
      · left
        refine ⟨i, Nat.le_refl _, by omega, Or.inr h2,
          fun u hu1 hu2 => absurd hu2 (by omega), ?_⟩
        simp only [specLookupLoop, if_neg h1, if_pos h2]
      · have e : specLookupLoop ht key hash (fuel + 1) i =
            specLookupLoop ht key hash fuel (i + 1) := by
          simp only [specLookupLoop, if_neg h1, if_neg h2]
        rw [e]
        have hstep : ∀ u, i ≤ u → (i + 1 ≤ u → ht.keys (probeIndex ht hash u) ≠ key ∧
            ht.keys (probeIndex ht hash u) ≠ 0) →
            ht.keys (probeIndex ht hash u) ≠ key ∧ ht.keys (probeIndex ht hash u) ≠ 0 := by
          intro u hu hrest
          by_cases hui : u = i
          · rw [hui]; exact ⟨h1, h2⟩
          · exact hrest (by omega)
        rcases ih (i + 1) with ⟨t, ht1, ht2, huse, hfirst, hres⟩ | ⟨hall, hres⟩
        · left
          exact ⟨t, by omega, by omega, huse,
            fun u hu1 hu2 => hstep u hu1 (fun h => hfirst u h hu2), hres⟩
        · right
          exact ⟨fun u hu1 hu2 => hstep u hu1 (fun h => hall u h (by omega)), hres⟩

/-- On a table of canonical shape the early-stopping probe of the
specification and the full scan of `htLookup` agree. -/
theorem specLookup_eq_of_canonical (ht : Hash_Table) (hi : SizeInv ht) (hc : Canonical ht)
    (k : Nat) : specLookup ht k = htLookup ht k := by
  by_cases hk : k = 0
  · subst hk
    rw [htLookup_zero_key]
    rfl
  have hpos := hi.pos
  have e : specLookup ht k =
      specLookupLoop ht k (hashUniversal ht.univ k) ht.slot_count 0 := by
    unfold specLookup
    rw [if_neg hk]
  rw [e]
  rcases specLookupLoop_cases ht k (hashUniversal ht.univ k) ht.slot_count 0 with
    ⟨t, _, ht2, huse, hfirst, hres⟩ | ⟨hall, hres⟩
  · rw [hres]
    by_cases hkey : ht.keys (probeIndex ht (hashUniversal ht.univ k) t) = k
    · rw [if_pos hkey]
      exact (htLookup_eq_of_first ht k hk t (by omega) hkey
        (fun u hu => (hfirst u (Nat.zero_le _) hu).1)).symm
    · rw [if_neg hkey]
      have hzero : ht.keys (probeOf ht k t) = 0 := by
        rcases huse with h | h
        · exact absurd h hkey
        · exact h
      symm
      apply htLookup_absent ht k hpos
      intro j hj hkj
      have hval : ht.values (probeOf ht k t) = 0 :=
        ((hc (probeOf ht k t) (probeOf_lt ht k t hpos)).1).mp hzero
      have hf : ∀ u, u < t → ht.keys (probeOf ht k u) ≠ k ∧ ht.values (probeOf ht k u) ≠ 0 := by
        intro u hu
        obtain ⟨a, b⟩ := hfirst u (Nat.zero_le _) hu
        exact ⟨a, fun e0 => b (((hc (probeOf ht k u) (probeOf_lt ht k u hpos)).1).mpr e0)⟩
      have := hc.stored_at_first k t hk (Or.inr hval) hf j hj hkj
      rw [this, hzero] at hkj
      exact hk hkj.symm
  · rw [hres]
    symm
    apply htLookup_eq_zero_of_absent
    intro t ht1
    exact (hall t (Nat.zero_le _) (by omega)).1

theorem insertAll_canonical (ops : List (Nat × Nat)) :
    ∀ ht ht1, SizeInv ht → Canonical ht → (∀ kv, kv ∈ ops → kv.1 ≠ 0 ∧ kv.2 ≠ 0) →
      insertAll ht ops = some ht1 → SizeInv ht1 ∧ Canonical ht1 := by
  induction ops with
  | nil =>
    intro ht ht1 hi hc _ h
    have : ht = ht1 := Option.some.inj h
    rw [← this]; exact ⟨hi, hc⟩
  | cons kv rest ih =>
    intro ht ht1 hi hc hb h
    have hkv := hb kv (List.mem_cons_self _ _)
    rcases Option.eq_none_or_eq_some (htInsert ht kv.1 kv.2) with hn | ⟨p, hp⟩
    · simp only [insertAll, hn] at h
      exact absurd h (by simp)
    · have e : insertAll ht (kv :: rest) = insertAll p.2 rest := by
        simp only [insertAll, hp]
      rw [e] at h
      have hp2 : htInsert ht kv.1 kv.2 = some (p.1, p.2) := hp
      exact ih p.2 ht1 (SizeInv_of_htInsert_any ht kv.1 kv.2 p.1 p.2 hi hp2)
        (Canonical_of_htInsert ht kv.1 kv.2 p.1 p.2 hi hc hkv.1 hkv.2 hp2).1
        (fun x hx => hb x (List.mem_cons_of_mem _ hx)) h

/-- Counterexample to C35 on the table after `htInsert(2,10)`, `htInsert(3,20)`,
`htRemove(2)`: the table is reachable; key 3 hashes to slot 1, which the
removal emptied, and sits in slot 2.  The early-stopping probe of the
specification gives 0, `htLookup(ht, 3)` gives 20. -/
theorem htLookup_differs_from_early_stop :
    Reachable tableA3 ∧ (3 : Nat) ≠ 0 ∧ probeOf tableA3 3 0 = 1 ∧ tableA3.keys 1 = 0 ∧
      tableA3.keys 2 = 3 ∧ specLookup tableA3 3 = 0 ∧ htLookup tableA3 3 = 20 :=
  ⟨tableA3_reachable, by decide, by decide, by decide, by decide, by decide, by decide⟩

/-- C35 as amended: for every table state and key `k != 0`, `htLookup(ht, k)`
scans the slots `h(k), h(k)+1, ...` modulo `slot_count`, all `slot_count` of
them and without stopping at an empty slot, and returns the value of the
first one that holds `k`, or 0 when none does; on every table made from
`ht_Create` by `htInsert` calls of non-zero pairs alone this is what the
early-stopping probe of the specification returns. -/
theorem htLookup_scans_all_slots (ht : Hash_Table) (k : Nat) (hk : k ≠ 0) :
    ((∃ t, t < ht.slot_count ∧ ht.keys (probeOf ht k t) = k ∧
        (∀ u, u < t → ht.keys (probeOf ht k u) ≠ k) ∧
        htLookup ht k = ht.values (probeOf ht k t)) ∨
      ((∀ t, t < ht.slot_count → ht.keys (probeOf ht k t) ≠ k) ∧ htLookup ht k = 0)) ∧
    ∀ n ht0 ops, n < U64_MOD → ht_Create n = some ht0 →
      (∀ kv, kv ∈ ops → kv.1 ≠ 0 ∧ kv.2 ≠ 0) → insertAll ht0 ops = some ht →
      specLookup ht k = htLookup ht k := by
  refine ⟨htLookup_cases ht k hk, ?_⟩
  intro n ht0 ops hn hc hb hall
  obtain ⟨hi, hcan⟩ := insertAll_canonical ops ht0 ht (SizeInv_of_ht_Create n ht0 hn hc)
    (Canonical_of_ht_Create n ht0 hc).1 hb hall
  exact specLookup_eq_of_canonical ht hi hcan k

/-- Witness for the amended C35 on the table holding the pairs `(2, 10)` and
`(3, 20)`, for key 3. -/
theorem htLookup_scans_all_slots_witness :
    (3 : Nat) ≠ 0 ∧ insertAll freshTable [(2, 10), (3, 20)] = some tableA2 ∧
    specLookup tableA2 3 = htLookup tableA2 3 ∧ htLookup tableA2 3 = 20 ∧
    ((∃ t, t < tableA2.slot_count ∧ tableA2.keys (probeOf tableA2 3 t) = 3 ∧
        (∀ u, u < t → tableA2.keys (probeOf tableA2 3 u) ≠ 3) ∧
        htLookup tableA2 3 = tableA2.values (probeOf tableA2 3 t)) ∨
      ((∀ t, t < tableA2.slot_count → tableA2.keys (probeOf tableA2 3 t) ≠ 3) ∧
        htLookup tableA2 3 = 0)) :=
  ⟨by decide, by rfl,
    (htLookup_scans_all_slots tableA2 3 (by decide)).2 0 freshTable [(2, 10), (3, 20)]
      (by decide) ht_Create_zero (by decide) (by rfl),
    by decide, (htLookup_scans_all_slots tableA2 3 (by decide)).1⟩

theorem htLookup_zero_or_value (ht : Hash_Table) (k : Nat) :
    htLookup ht k = 0 ∨ ∃ p, htLookup ht k = ht.values p := by
  simp only [htLookup]
  split_ifs
  all_goals first
    | exact Or.inl rfl
    | exact Or.inr ⟨_, rfl⟩

theorem mapC1_reachable : MapReachable mapC1 :=
  MapReachable.insert mapFresh false 2 10 mapC1 mapFresh_reachable (by decide) (by decide)
    (mapInsert_mapFresh_2 false)

theorem mapD2_reachable : MapReachable mapD2 :=
  MapReachable.insert mapC1 false 2 20 mapD2 mapC1_reachable (by decide) (by decide)
    (mapInsert_mapC1_2 false)

/-- Every odd draw of the first 58 doublings after creation comes to an end. -/
theorem drawState_succ_isSome : ∀ j, j < 58 → (drawState (j + 1)).isSome = true := by
  decide

/-- From the state after `j < 58` doublings the odd draw returns some `a`, and
the state after the next doubling is `randomU64 a`. -/
theorem drawState_step (j : Nat) (hj : j < 58) :
    ∃ r a, drawState j = some r ∧ oddDrawLoop U64_MOD r = some a ∧
      drawState (j + 1) = some (randomU64 a) := by
  obtain ⟨x, hx⟩ := Option.isSome_iff_exists.1 (drawState_succ_isSome j hj)
  have e : drawState (j + 1) =
      (drawState j).bind fun r => (oddDrawLoop U64_MOD r).map randomU64 := rfl
  rw [e] at hx
  obtain ⟨r, hr, h2⟩ := Option.bind_eq_some.1 hx
  obtain ⟨a, ha, h3⟩ := Option.map_eq_some'.1 h2
  refine ⟨r, a, hr, ha, ?_⟩
  rw [e, hr, Option.some_bind, ha]
  rfl

/-- A created table holds the generator state of zero doublings. -/
theorem DrawInv_of_ht_Create (n : Nat) (ht : Hash_Table) (hn : n < U64_MOD)
    (h : ht_Create n = some ht) : DrawInv ht := by
  have hi := SizeInv_of_ht_Create n ht hn h
  unfold ht_Create at h
  rw [Option.bind_eq_some] at h
  obtain ⟨sc, _, h2⟩ := h
  rw [Option.bind_eq_some] at h2
  obtain ⟨univ, h3, h4⟩ := h2
  rw [hashUniversalConstantsUpdate_fresh] at h3
  have hu : ht.univ = univ := by
    have := Option.some.inj h4
    rw [← this]
  have hr : ht.univ.r = 4116611502648400109 := by
    rw [hu, ← Option.some.inj h3]
  refine ⟨0, ?_, ?_⟩
  · rw [hr]; rfl
  · have := hi.m_lo; omega

/-- The constants after a returning `htInsert`: unchanged when the table did not
have to grow, else those drawn by `hashUniversalConstantsUpdate` at `m + 1`. -/
theorem htInsert_univ (ht : Hash_Table) (k v r : Nat) (ht1 : Hash_Table) (hi : SizeInv ht)
    (hk : k ≠ 0) (hv : v ≠ 0) (h : htInsert ht k v = some (r, ht1)) :
    (ht_GrowNeeded ht = false ∧ ht1.univ = ht.univ) ∨
    (ht_GrowNeeded ht = true ∧
      hashUniversalConstantsUpdate { ht.univ with m := ht.univ.m + 1 } = some ht1.univ) := by
  obtain ⟨_, _, s3⟩ := htInsert_sizes ht k v r ht1 hi hk hv h
  rcases Bool.eq_false_or_eq_true (ht_GrowNeeded ht) with hg | hg
  · right
    refine ⟨hg, ?_⟩
    obtain ⟨g, hgc, hr, hht1⟩ := htInsert_cases ht k v r ht1 hk hv h
    obtain ⟨c1, _⟩ := insertionLoop_cases (hashUniversal g.univ k) k v g.slot_count 0 g
    have q1 : (ht_LinearProbeInsertion g (hashUniversal g.univ k) k v).2.univ = g.univ := c1
    have e1 : ht1.univ = g.univ := by
      rw [hht1]
      split_ifs
      · exact q1
      · exact q1
    rcases hgc with ⟨hn, _⟩ | ⟨_, h2⟩
    · have := ht_ResizeNeeded_of_grow ht hg
      rw [hn] at this
      exact absurd this (by simp)
    · obtain ⟨_, _, s⟩ := ht_Resize_sizes ht g hi h2
      rcases s with ⟨a1, _, _⟩ | ⟨_, _, a3⟩
      · rw [hg] at a1
        exact absurd a1 (by simp)
      · rw [e1]; exact a3
  · exact Or.inl ⟨hg, s3 hg⟩

/-- With fewer than `2^62` filled slots `htInsert` returns, doubling included,
and the generator state stays on the chain of `drawState`. -/
theorem htInsert_returns (ht : Hash_Table) (k v : Nat) (hi : SizeInv ht) (hd : DrawInv ht)
    (hk : k ≠ 0) (hv : v ≠ 0) (hs : ht.slot_filled < 2 ^ 62) :
    ∃ r ht1, htInsert ht k v = some (r, ht1) ∧ DrawInv ht1 := by
  obtain ⟨j, hj, hjm⟩ := hd
  have hm : ht.univ.m < 63 ∨ ht_GrowNeeded ht = false := by
    rcases Bool.eq_false_or_eq_true (ht_GrowNeeded ht) with hg | hg
    · left
      by_contra hc
      have h63 : (2 : Nat) ^ 63 ≤ 2 ^ ht.univ.m :=
        Nat.pow_le_pow_right (by decide) (by omega)
      have hnot : ¬ 2 * ht.slot_filled < ht.slot_count := by
        intro hlt
        have := (ht_GrowNeeded_false_iff hi).2 hlt
        rw [hg] at this
        exact absurd this (by simp)
      rw [hi.count_eq] at hnot
      have e63 : (2 : Nat) ^ 63 = 2 * 2 ^ 62 := by decide
      omega
    · exact Or.inr hg
  have hsome : (htInsert ht k v).isSome := by
    rw [htInsert_isSome_iff ht k v hk hv]
    rcases Bool.eq_false_or_eq_true (ht_GrowNeeded ht) with hg | hg
    · right
      have hm63 : ht.univ.m < 63 := by
        rcases hm with h | h
        · exact h
        · rw [hg] at h; exact absurd h (by simp)
      have emod : (ht.univ.m + 1) % U64_MOD = ht.univ.m + 1 :=
        Nat.mod_eq_of_lt (by rw [U64_MOD_eq]; omega)
      rw [emod]
      refine ⟨by omega, ?_⟩
      obtain ⟨r, a, h1, h2, _⟩ := drawState_step j (by omega)
      rw [hj] at h1
      have hr : ht.univ.r = r := Option.some.inj h1
      have hd2 : oddDrawLoop U64_MOD
          ({ ht.univ with m := ht.univ.m + 1 } : Hash_Universal).r = some a := by
        show oddDrawLoop U64_MOD ht.univ.r = some a
        rw [hr]; exact h2
      rw [hashUniversalConstantsUpdate_of_draw _ a hd2]
      rfl
    · exact Or.inl hg
  obtain ⟨p, hp⟩ := Option.isSome_iff_exists.1 hsome
  have hp2 : htInsert ht k v = some (p.1, p.2) := hp
  refine ⟨p.1, p.2, hp2, ?_⟩
  rcases htInsert_univ ht k v p.1 p.2 hi hk hv hp2 with ⟨_, hu⟩ | ⟨hg, hu⟩
  · exact ⟨j, by rw [hu]; exact hj, by rw [hu]; exact hjm⟩
  · have hm63 : ht.univ.m < 63 := by
      rcases hm with h | h
      · exact h
      · rw [hg] at h; exact absurd h (by simp)
    obtain ⟨r, a, h1, h2, h3⟩ := drawState_step j (by omega)
    rw [hj] at h1
    have hr : ht.univ.r = r := Option.some.inj h1
    have hd2 : oddDrawLoop U64_MOD
        ({ ht.univ with m := ht.univ.m + 1 } : Hash_Universal).r = some a := by
      show oddDrawLoop U64_MOD ht.univ.r = some a
      rw [hr]; exact h2
    rw [hashUniversalConstantsUpdate_of_draw _ a hd2] at hu
    have hu2 := Option.some.inj hu
    refine ⟨j + 1, ?_, ?_⟩
    · rw [← hu2]; exact h3
    · rw [← hu2]
      show j + 1 + 6 ≤ ht.univ.m + 1
      omega

/-- A run of inserts returns when the filled slots and the keys of the run that
the table does not hold yet stay below `2^62` together. -/
theorem insertAll_returns (ops : List (Nat × Nat)) :
    ∀ ht, SizeInv ht → Canonical ht → DrawInv ht → (∀ kv, kv ∈ ops → kv.1 ≠ 0 ∧ kv.2 ≠ 0) →
      ht.slot_filled +
        ((ops.map Prod.fst).toFinset.filter (fun k => htLookup ht k = 0)).card < 2 ^ 62 →
      (insertAll ht ops).isSome := by
  induction ops with
  | nil => intro ht _ _ _ _ _; rfl
  | cons kv rest ih =>
    intro ht hi hc hd hnz hlen
    have hkv := hnz kv (List.mem_cons_self _ _)
    obtain ⟨r, ht1, hp, hd1⟩ := htInsert_returns ht kv.1 kv.2 hi hd hkv.1 hkv.2 (by omega)
    obtain ⟨_, s2, _⟩ := htInsert_sizes ht kv.1 kv.2 r ht1 hi hkv.1 hkv.2 hp
    have hi1 := SizeInv_of_htInsert ht kv.1 kv.2 r ht1 hi hp hkv.1 hkv.2
    obtain ⟨c1, c2, c3⟩ := Canonical_of_htInsert ht kv.1 kv.2 r ht1 hi hc hkv.1 hkv.2 hp
    have e : insertAll ht (kv :: rest) = insertAll ht1 rest := by
      simp only [insertAll, hp]
    rw [e]
    apply ih ht1 hi1 c1 hd1 (fun x hx => hnz x (List.mem_cons_of_mem _ hx))
    have hsub : (rest.map Prod.fst).toFinset.filter (fun k => htLookup ht1 k = 0) ⊆
        (((kv :: rest).map Prod.fst).toFinset.filter (fun k => htLookup ht k = 0)).erase
          kv.1 := by
      intro x hx
      rw [Finset.mem_filter] at hx
      obtain ⟨hx1, hx2⟩ := hx
      rw [c2 x] at hx2
      have hne : x ≠ kv.1 := by
        intro hxe
        rw [if_pos hxe] at hx2
        exact hkv.2 hx2
      rw [if_neg hne] at hx2
      rw [Finset.mem_erase, Finset.mem_filter]
      refine ⟨hne, ?_, hx2⟩
      rw [List.map_cons, List.toFinset_cons]
      exact Finset.mem_insert_of_mem hx1
    have hcard := Finset.card_le_card hsub
    by_cases h0 : r = 0
    · have hmem : kv.1 ∈ ((kv :: rest).map Prod.fst).toFinset.filter
          (fun k => htLookup ht k = 0) := by
        rw [Finset.mem_filter]
        refine ⟨?_, ?_⟩
        · rw [List.map_cons, List.toFinset_cons]
          exact Finset.mem_insert_self _ _
        · rw [← c3]; exact h0
      rw [Finset.card_erase_of_mem hmem] at hcard
      have hpos := Finset.card_pos.2 ⟨kv.1, hmem⟩
      rw [s2, if_pos h0]
      omega
    · have hle : ((((kv :: rest).map Prod.fst).toFinset.filter
          (fun k => htLookup ht k = 0)).erase kv.1).card ≤
          (((kv :: rest).map Prod.fst).toFinset.filter
            (fun k => htLookup ht k = 0)).card := Finset.card_erase_le
      rw [s2, if_neg h0]
      omega

set_option maxRecDepth 100000 in
/-- The run `ops40` on the fresh table returns a table of 128 slots with new
constants. -/
theorem ops40_run :
    (insertAll freshTable ops40).map (fun ht =>
      decide (ht.slot_count = 128 ∧ ht.univ.m = 7 ∧ ht.slot_filled = 39 ∧
        ht.univ ≠ freshTable.univ ∧
        htLookup ht 1 = 300 ∧ htLookup ht 33 = 233 ∧ htLookup ht 39 = 239 ∧
        htLookup ht 41 = 0)) = some true := by
  decide

/-- C3: for every freshly created table and every finite sequence of
`htInsert` calls with non-zero keys and non-zero values (no removals, any
length, so across any number of resizes): the calls all return whenever the
sequence has fewer than `2^62` distinct keys, however many times the table
doubles or rehashes on the way; and whenever the calls return, afterwards
`htLookup(k)` is the value of the last insert of `k` for every inserted key
and 0 for every key never inserted.  (With `2^62` keys stored the next call
would ask for `2^64` slots, which the 64-bit slot count cannot express.) -/
theorem insertAll_then_htLookup (n : Nat) (ht0 : Hash_Table) (ops : List (Nat × Nat))
    (hn : n < U64_MOD) (hc : ht_Create n = some ht0)
    (hnz : ∀ kv, kv ∈ ops → kv.1 ≠ 0 ∧ kv.2 ≠ 0) :
    (distinctKeys ops < 2 ^ 62 →
      ∃ ht, insertAll ht0 ops = some ht ∧ ∀ k, htLookup ht k = lastInserted ops k) ∧
    ∀ ht, insertAll ht0 ops = some ht → ∀ k, htLookup ht k = lastInserted ops k := by
  have hi := SizeInv_of_ht_Create n ht0 hn hc
  obtain ⟨hcan, hz⟩ := Canonical_of_ht_Create n ht0 hc
  have hd := DrawInv_of_ht_Create n ht0 hn hc
  have hlook : ∀ ht, insertAll ht0 ops = some ht →
      ∀ k, htLookup ht k = lastInserted ops k := by
    intro ht h k
    have := insertAll_lookup ops ht0 ht hi hcan hnz h k
    rw [this]; unfold lastInserted
    cases ops.reverse.find? (fun kv => kv.1 = k) with
    | some x => rfl
    | none => exact hz k
  refine ⟨?_, hlook⟩
  intro hlen
  have h4 : ht0.slot_filled = 0 := by
    have h := hc
    unfold ht_Create at h
    rw [Option.bind_eq_some] at h
    obtain ⟨sc, _, h2⟩ := h
    rw [Option.bind_eq_some] at h2
    obtain ⟨univ, _, h5⟩ := h2
    rw [← Option.some.inj h5]
  have hcard : ((ops.map Prod.fst).toFinset.filter (fun k => htLookup ht0 k = 0)).card ≤
      distinctKeys ops := by
    unfold distinctKeys
    rw [← List.card_toFinset]
    exact Finset.card_filter_le _ _
  have hsome := insertAll_returns ops ht0 hi hcan hd hnz (by rw [h4]; omega)
  obtain ⟨ht, hht⟩ := Option.isSome_iff_exists.1 hsome
  exact ⟨ht, hht, hlook ht hht⟩

/-- Witness for C3 on `ops40`: the thirty-third call doubles the table from 64
to 128 slots and draws new constants, the run returns, and every lookup
afterwards is the last inserted value (key 1 was inserted twice). -/
theorem insertAll_then_htLookup_witness :
    (0 : Nat) < U64_MOD ∧ ht_Create 0 = some freshTable ∧
    (∀ kv, kv ∈ ops40 → kv.1 ≠ 0 ∧ kv.2 ≠ 0) ∧ distinctKeys ops40 < 2 ^ 62 ∧
    (∃ ht, insertAll freshTable ops40 = some ht ∧
      ∀ k, htLookup ht k = lastInserted ops40 k) ∧
    (insertAll freshTable ops40).map (fun ht =>
      decide (ht.slot_count = 128 ∧ ht.univ.m = 7 ∧ ht.slot_filled = 39 ∧
        ht.univ ≠ freshTable.univ ∧
        htLookup ht 1 = 300 ∧ htLookup ht 33 = 233 ∧ htLookup ht 39 = 239 ∧
        htLookup ht 41 = 0)) = some true :=
  ⟨by decide, ht_Create_zero, by decide, by decide,
    (insertAll_then_htLookup 0 freshTable ops40 (by decide) ht_Create_zero
      (by decide)).1 (by decide),
    ops40_run⟩

end NLib
